import Mathlib

/-!
# StorageMergeTree

A shallow embedding of `dbms/src/Storages/StorageMergeTree.cpp`: the part
descriptors and the two part sets, the ingest path (`write`, `writePart`), the
writer of merged parts, the index-range pruning, the read planner, the merge
planner (`selectPartsToMerge`), the merge itself (`mergeParts`), the loading of
parts at start-up and the reclamation of old parts.

Conventions of the embedding.

* `size_t` and `UInt64` values are natural numbers; where the source adds,
  subtracts or multiplies sizes of parts and numbers of marks the result is
  taken modulo `2 ^ 64` (`sizeAdd`, `sizeSub`, `sizeMul`).  Positions in a
  container and counters of loops over one are plain natural numbers.  `int`
  and `ssize_t` variables are integers; the `int` counters of the planner stay
  below `2 ^ 31`.
* A `std::set` of parts is a list kept in the order of the set's comparison;
  `insert`, `find` and `erase` follow the `std::set` operations, which identify
  a part with every part that compares equivalent to it.
* Part descriptors are shared objects in the source.  The embedding keeps a
  copy in each set and updates the `currently_merging` flag in both.
* Collaborators that are not part of the file (the calendar, the key
  condition, the double comparison of the size ratio, the copy of the merged
  data) are parameters.
* A function whose source may throw returns an `Outcome`, which also records
  the storage state at the throw, or that the behaviour is not defined by the
  language.
-/

namespace StorageMergeTree

/-! ## Machine arithmetic -/

/-- Addition of two `size_t` values. -/
def sizeAdd (a b : Nat) : Nat := (a + b) % 2 ^ 64

/-- Subtraction of two `size_t` values (wraps around below zero). -/
def sizeSub (a b : Nat) : Nat := (a % 2 ^ 64 + (2 ^ 64 - b % 2 ^ 64)) % 2 ^ 64

/-- Multiplication of two `size_t` values. -/
def sizeMul (a b : Nat) : Nat := (a * b) % 2 ^ 64

/-- The conversion `static_cast<int>` of an unsigned value (two's complement, 32 bits). -/
def toInt32 (n : Nat) : Int :=
  if n % 2 ^ 32 < 2 ^ 31 then ((n % 2 ^ 32 : Nat) : Int) else ((n % 2 ^ 32 : Nat) : Int) - 2 ^ 32

/-- The constant `-1U` stored in a `size_t`: the `unsigned` value `2 ^ 32 - 1`. -/
def minusOneU : Nat := 2 ^ 32 - 1

/-! ## Exceptions and outcomes -/

/-- The exceptions the file throws, and those of its collaborators. -/
inductive Exception where
  | LOGICAL_ERROR (message : String)
  | ALL_REQUESTED_COLUMNS_ARE_MISSING
  | NOT_IMPLEMENTED
  | external (what : String)
deriving DecidableEq, Repr

/-- The result of running a piece of the source on a state of type `σ`:
normal completion, an exception together with the state at the throw, or
behaviour the language leaves undefined. -/
inductive Outcome (σ : Type) where
  | ok (s : σ)
  | thrown (e : Exception) (s : σ)
  | undefined
deriving DecidableEq, Repr

/-! ## Collaborators -/

/-- The calendar (`Yandex::DateLUTSingleton` with the date identifiers). -/
structure DateLUT where
  /-- The day number of the first day of the month of a day number. -/
  toFirstDayNumOfMonth : Nat → Nat
  /-- The number `YYYYMMDD` of a day number: `Date2OrderedIdentifier (fromDayNum d)`. -/
  orderedIdentifier : Nat → Nat
  /-- The day number of a text `YYYYMMDD`: `toDayNum (OrderedIdentifier2Date s)`. -/
  dayNumOfIdentifier : String → Nat

/-- The settings of the engine (`StorageMergeTreeSettings`).  The double
`max_size_ratio_to_merge_parts` enters the source in one comparison only,
`static_cast<double>(a) / b < settings.max_size_ratio_to_merge_parts`, whose
value for the `size_t` arguments `a` and `b` is the field `size_ratio_lt`. -/
structure StorageMergeTreeSettings where
  max_rows_to_merge_parts : Nat
  max_parts_to_merge_at_once : Nat
  size_ratio_lt : Nat → Nat → Bool
  merging_threads : Nat
  min_rows_for_concurrent_read : Nat

/-- A condition on the primary key (`PkCondition`), over key tuples of type `K`. -/
structure PkCondition (K : Type) where
  alwaysTrue : Bool
  mayBeTrueInRange : K → K → Bool

/-! ## Parts and part sets -/

/-- The descriptor of a part (`StorageMergeTree::DataPart`). -/
structure DataPart where
  left_date : Nat
  right_date : Nat
  left : Nat
  right : Nat
  level : Nat
  name : String
  size : Nat
  modification_time : Nat
  left_month : Nat
  right_month : Nat
  currently_merging : Bool
deriving DecidableEq, Repr

/-- Modelled from the spec: the comparison of the part sets, declared in
`StorageMergeTree.h`, which is not among the sources.  The spec orders the sets
lexicographically by `(left_month, left, right, level)`. -/
def DataPart.less (a b : DataPart) : Prop :=
  a.left_month < b.left_month ∨ (a.left_month = b.left_month ∧
    (a.left < b.left ∨ (a.left = b.left ∧
      (a.right < b.right ∨ (a.right = b.right ∧ a.level < b.level)))))

instance (a b : DataPart) : Decidable (DataPart.less a b) := by
  unfold DataPart.less
  infer_instance

/-- Equivalence under the comparison of the sets: neither part is less than the other. -/
def DataPart.equiv (a b : DataPart) : Prop := ¬ DataPart.less a b ∧ ¬ DataPart.less b a

instance (a b : DataPart) : Decidable (DataPart.equiv a b) := by
  unfold DataPart.equiv
  infer_instance

/-- Modelled from the spec: the method `DataPart::contains`, declared in
`StorageMergeTree.h`, which is not among the sources.  The spec defines
`A.contains(B)` as `A.left ≤ B.left ∧ A.right ≥ B.right`. -/
def DataPart.contains (a b : DataPart) : Prop := a.left ≤ b.left ∧ a.right ≥ b.right

instance (a b : DataPart) : Decidable (DataPart.contains a b) := by
  unfold DataPart.contains
  infer_instance

/-- A set of parts (`DataParts`, a `std::set` under `DataPart.less`). -/
abbrev DataParts := List DataPart

/-- The operation `std::set::insert`: the part is put before the first greater part,
and is not inserted when an equivalent part is present. -/
def DataParts.insert (p : DataPart) : DataParts → DataParts
  | [] => [p]
  | q :: rest =>
    if DataPart.less p q then p :: q :: rest
    else if DataPart.less q p then q :: DataParts.insert p rest
    else q :: rest

/-- The operation `std::set::find`: the element equivalent to `p`, if any. -/
def DataParts.find (p : DataPart) : DataParts → Option DataPart
  | [] => none
  | q :: rest => if DataPart.equiv q p then some q else DataParts.find p rest

/-- The statement `s.erase(s.find(p))`: the element equivalent to `p` is removed.
Erasing the end iterator, when there is no such element, is undefined (`none`). -/
def DataParts.eraseFound (p : DataPart) : DataParts → Option DataParts
  | [] => none
  | q :: rest =>
    if DataPart.equiv q p then some rest
    else (DataParts.eraseFound p rest).map (fun r => q :: r)

/-- The state of the engine: the set of active parts, the set of all parts, the
last value handed out by the id counter `increment`, and the part references
held outside the two sets (by readers). -/
structure Storage where
  data_parts : DataParts
  all_data_parts : DataParts
  increment : Nat
  held : List DataPart
deriving DecidableEq, Repr

/-- The engine directly after construction over an empty directory. -/
def Storage.empty : Storage := ⟨[], [], 0, []⟩

/-! ## Part names -/

/-- The function `writeIntText` on an unsigned number: its decimal digits. -/
def writeIntText (n : Nat) : String := Nat.repr n

/-- The method `StorageMergeTree::getPartName`. -/
def getPartName (lut : DateLUT) (left_date right_date left_id right_id level : Nat) : String :=
  let left_date_id := lut.orderedIdentifier left_date
  let right_date_id := lut.orderedIdentifier right_date
  writeIntText left_date_id ++ "_" ++ writeIntText right_date_id ++ "_" ++
    writeIntText left_id ++ "_" ++ writeIntText right_id ++ "_" ++ writeIntText level

/-! ## Ingest -/

/-- A block of rows on its way into the table: each row is its value of the
date column (a `UInt16` day number) together with the rest of the row. -/
abbrev Block (ρ : Type) := List (Nat × ρ)

/-- The record `MergeTreeBlockOutputStream::BlockWithDateInterval`. -/
structure BlockWithDateInterval (ρ : Type) where
  block : Block ρ
  min_date : Nat
  max_date : Nat
deriving DecidableEq, Repr

/-- The first loop of `write`: the minimal and the maximal date of the block,
starting from the largest and the smallest `UInt16`. -/
def minMaxDate {ρ : Type} : Block ρ → Nat × Nat → Nat × Nat
  | [], acc => acc
  | row :: rest, (min_date, max_date) =>
    minMaxDate rest
      (if row.1 < min_date then row.1 else min_date, if row.1 > max_date then row.1 else max_date)

/-- One iteration of the second loop of `write`: the row is appended to the
block of its month in the map `blocks_by_month` (kept in the order of its keys),
a block that does not exist yet being created with the interval `[65535, 0]`. -/
def addRowToMonth {ρ : Type} (month : Nat) (row : Nat × ρ) :
    List (Nat × BlockWithDateInterval ρ) → List (Nat × BlockWithDateInterval ρ)
  | [] => [(month, ⟨[row], if row.1 < 65535 then row.1 else 65535, if row.1 > 0 then row.1 else 0⟩)]
  | (m, b) :: rest =>
    if month < m then
      (month, ⟨[row], if row.1 < 65535 then row.1 else 65535, if row.1 > 0 then row.1 else 0⟩)
        :: (m, b) :: rest
    else if month = m then
      (m, ⟨b.block ++ [row], if row.1 < b.min_date then row.1 else b.min_date,
        if row.1 > b.max_date then row.1 else b.max_date⟩) :: rest
    else (m, b) :: addRowToMonth month row rest

/-- The map `blocks_by_month` that `write` builds for a block. -/
def blocksByMonth {ρ : Type} (lut : DateLUT) (block : Block ρ) :
    List (Nat × BlockWithDateInterval ρ) :=
  let min_date := (minMaxDate block (65535, 0)).1
  let max_date := (minMaxDate block (65535, 0)).2
  let min_month := lut.toFirstDayNumOfMonth min_date
  let max_month := lut.toFirstDayNumOfMonth max_date
  if min_month = max_month then [(min_month, ⟨block, min_date, max_date⟩)]
  else block.foldl (fun acc row => addRowToMonth (lut.toFirstDayNumOfMonth row.1) row acc) []

/-- The method `MergeTreeBlockOutputStream::writePart`, as far as the part sets are
concerned: a block of `rows` rows with the dates `min_date` and `max_date` becomes
a part of level 0 under the id `part_id` that the counter hands out, published in
both sets.  The merges that `storage.merge(2)` schedules at the end run later, as
steps of their own. -/
def writePart (lut : DateLUT) (index_granularity : Nat) (st : Storage)
    (part_id rows min_date max_date now : Nat) : Storage :=
  let part_name := getPartName lut min_date max_date part_id part_id 0
  let new_data_part : DataPart :=
    { left_date := min_date
      right_date := max_date
      left := part_id
      right := part_id
      level := 0
      name := part_name
      size := sizeSub (sizeAdd rows index_granularity) 1 / index_granularity
      modification_time := now
      left_month := lut.toFirstDayNumOfMonth min_date
      right_month := lut.toFirstDayNumOfMonth max_date
      currently_merging := false }
  { st with
    data_parts := DataParts.insert new_data_part st.data_parts
    all_data_parts := DataParts.insert new_data_part st.all_data_parts
    increment := part_id }

/-- Modelled from the spec: the id counter `Increment`, which is not among the
sources, yields strictly increasing values; `get` is taken to add one. -/
def Storage.nextId (st : Storage) : Nat := st.increment + 1

/-- The method `MergeTreeBlockOutputStream::write`: the block is split by month and
every month is written as a part of its own. -/
def write {ρ : Type} (lut : DateLUT) (index_granularity : Nat) (st : Storage)
    (block : Block ρ) (now : Nat) : Storage :=
  (blocksByMonth lut block).foldl
    (fun s b => writePart lut index_granularity s s.nextId b.2.block.length b.2.min_date
      b.2.max_date now) st

/-! ## The merge planner -/

/-- The variables of the inner loop of `selectPartsToMerge`. -/
structure RunState where
  cur_max : Nat
  cur_min : Nat
  cur_sum : Nat
  cur_len : Int
  cur_id : Nat
  cur_longest_max : Nat
  cur_longest_min : Nat
  cur_longest_len : Int
deriving DecidableEq, Repr

/-- The inner loop of `selectPartsToMerge` (the right end of the run), over the
parts that follow the first part of the run. -/
def extendRight (index_granularity : Nat) (settings : StorageMergeTreeSettings) (month : Nat) :
    List DataPart → RunState → RunState
  | [], r => r
  | last_part :: rest, r =>
    if ¬ (r.cur_len < toInt32 settings.max_parts_to_merge_at_once) then r
    else if last_part.currently_merging = true ∨
        sizeMul last_part.size index_granularity > settings.max_rows_to_merge_parts ∨
        last_part.left_month ≠ last_part.right_month ∨
        last_part.left_month ≠ month then r
    else if last_part.left < r.cur_id then r
    else
      let cur_max := max r.cur_max last_part.size
      let cur_min := min r.cur_min last_part.size
      let cur_sum := sizeAdd r.cur_sum last_part.size
      let cur_len := r.cur_len + 1
      let cur_id := last_part.right
      if 2 ≤ cur_len ∧ settings.size_ratio_lt cur_max (sizeSub cur_sum cur_max) = true then
        extendRight index_granularity settings month rest
          ⟨cur_max, cur_min, cur_sum, cur_len, cur_id, cur_max, cur_min, cur_len⟩
      else
        extendRight index_granularity settings month rest
          ⟨cur_max, cur_min, cur_sum, cur_len, cur_id,
            r.cur_longest_max, r.cur_longest_min, r.cur_longest_len⟩

/-- The variables of the outer loop of `selectPartsToMerge`; the iterator
`best_begin` is the position it points to in the active set. -/
structure SelectState where
  min_max : Nat
  min_min : Nat
  max_len : Int
  best_begin : Nat
  found : Bool
  max_count_from_left : Int
deriving DecidableEq, Repr

/-- The comparison `<` of `std::pair<std::pair<size_t, size_t>, int>`. -/
def pairLess (a b : (Nat × Nat) × Int) : Prop :=
  (a.1.1 < b.1.1 ∨ (¬ b.1.1 < a.1.1 ∧ a.1.2 < b.1.2)) ∨
    (¬ (b.1.1 < a.1.1 ∨ (¬ a.1.1 < b.1.1 ∧ b.1.2 < a.1.2)) ∧ a.2 < b.2)

instance (a b : (Nat × Nat) × Int) : Decidable (pairLess a b) := by
  unfold pairLess
  infer_instance

/-- The outer loop of `selectPartsToMerge` (the left end of the run), over the
parts from position `pos` of the active set on. -/
def selectLoop (index_granularity : Nat) (settings : StorageMergeTreeSettings) :
    List DataPart → Nat → SelectState → SelectState
  | [], _, s => s
  | first_part :: rest, pos, s =>
    let s : SelectState := { s with max_count_from_left := max 0 (s.max_count_from_left - 1) }
    if first_part.currently_merging = true ∨
        sizeMul first_part.size index_granularity > settings.max_rows_to_merge_parts then
      selectLoop index_granularity settings rest (pos + 1) s
    else if first_part.left_month ≠ first_part.right_month then
      selectLoop index_granularity settings rest (pos + 1) s
    else
      let r := extendRight index_granularity settings first_part.left_month rest
        ⟨first_part.size, first_part.size, first_part.size, 1, first_part.right,
          minusOneU, minusOneU, 0⟩
      if r.cur_longest_len > s.max_count_from_left then
        let s : SelectState := { s with max_count_from_left := r.cur_longest_len }
        if s.found = false ∨
            pairLess ((r.cur_longest_max, r.cur_longest_min), -r.cur_longest_len)
              ((s.min_max, s.min_min), -s.max_len) then
          selectLoop index_granularity settings rest (pos + 1)
            { s with
              found := true
              min_max := r.cur_longest_max
              min_min := r.cur_longest_min
              max_len := r.cur_longest_len
              best_begin := pos }
        else selectLoop index_granularity settings rest (pos + 1) s
      else selectLoop index_granularity settings rest (pos + 1) s

/-- The variables of `selectPartsToMerge` before its outer loop. -/
def SelectState.init : SelectState :=
  { min_max := minusOneU, min_min := minusOneU, max_len := 0, best_begin := 0, found := false,
    max_count_from_left := 0 }

/-- The assignment `currently_merging = true` on one descriptor. -/
def DataPart.setMerging (p : DataPart) : DataPart := { p with currently_merging := true }

/-- The effect that setting the flag of the parts `chosen` has on a set holding the same
descriptors. -/
def markMerging (chosen : List DataPart) (s : DataParts) : DataParts :=
  s.map (fun q => if ∃ p ∈ chosen, DataPart.equiv p q then q.setMerging else q)

/-- The method `StorageMergeTree::selectPartsToMerge`.  The result is the returned
flag, the vector `parts` after the call and the state after the call. -/
def selectPartsToMerge (index_granularity : Nat) (settings : StorageMergeTreeSettings)
    (st : Storage) (parts : List DataPart) : Bool × List DataPart × Storage :=
  let s := selectLoop index_granularity settings st.data_parts 0 SelectState.init
  if s.found = true then
    let chosen := (st.data_parts.drop s.best_begin).take s.max_len.toNat
    (true, chosen.map DataPart.setMerging,
      { st with
        data_parts := st.data_parts.take s.best_begin ++ chosen.map DataPart.setMerging ++
          st.data_parts.drop (s.best_begin + s.max_len.toNat)
        all_data_parts := markMerging chosen st.all_data_parts })
  else (false, parts, st)

/-! ## The merge -/

/-- The loop of `mergeParts` that computes the level: the maximum of `level` and of the
levels of the parts. -/
def maxLevel (parts : List DataPart) (level : Nat) : Nat :=
  parts.foldl (fun l p => max l p.level) level

/-- The descriptor that `mergeParts` builds for the merged part from the first and the
last part of the vector `parts`, before its size is known.  The level is a 32-bit
unsigned field (the constructor of `MergedBlockOutputStream` takes it as `UInt32` and
`loadDataParts` reads it with `parseUnsigned`), so `++new_data_part->level` wraps
around at `2 ^ 32`. -/
def mergedDataPart (lut : DateLUT) (parts : List DataPart) (front back : DataPart) : DataPart :=
  let level := (maxLevel parts 0 + 1) % 2 ^ 32
  { left_date := front.left_date
    right_date := back.right_date
    left := front.left
    right := back.right
    level := level
    name := getPartName lut front.left_date back.right_date front.left back.right level
    size := 0
    modification_time := 0
    left_month := lut.toFirstDayNumOfMonth front.left_date
    right_month := lut.toFirstDayNumOfMonth back.right_date
    currently_merging := false }

/-- The loop `data_parts.erase(data_parts.find(parts[i]))` over the vector `parts`. -/
def eraseParts : List DataPart → DataParts → Option DataParts
  | [], s => some s
  | p :: rest, s =>
    match DataParts.eraseFound p s with
    | none => none
    | some s1 => eraseParts rest s1

/-- The last block of `mergeParts`, run under both locks: every source part is looked up
in the active set, the new part is inserted into both sets and the source parts are
erased from the active set. -/
def commitMerge (st : Storage) (new_data_part : DataPart) (parts : List DataPart) :
    Outcome Storage :=
  match parts.find? (fun p => (DataParts.find p st.data_parts).isNone) with
  | some p =>
    .thrown (.LOGICAL_ERROR ("Logical error: cannot find data part " ++ p.name ++ " in list")) st
  | none =>
    match eraseParts parts (DataParts.insert new_data_part st.data_parts) with
    | none => .undefined
    | some data_parts =>
      .ok { st with
            data_parts := data_parts
            all_data_parts := DataParts.insert new_data_part st.all_data_parts }

/-- The method `StorageMergeTree::mergeParts`.  The reading of the source parts, their
merge and the writing of the new part are work of collaborators: `copied` is its
result, the number of marks written (`to->marksCount()`) or the exception it threw. -/
def mergeParts (lut : DateLUT) (st : Storage) (parts : List DataPart)
    (copied : Except Exception Nat) (now : Nat) : Outcome Storage :=
  match parts.head?, parts.getLast? with
  | some front, some back =>
    let new_data_part := mergedDataPart lut parts front back
    match copied with
    | .error e => .thrown e st
    | .ok marks_count =>
      commitMerge st { new_data_part with size := marks_count, modification_time := now } parts
  | _, _ => .undefined

/-- The reference count of a part of the set of all parts: one for that set, one for the
active set if it holds the part, and one for every reference held outside the sets. -/
def referenceCount (st : Storage) (p : DataPart) : Nat :=
  1 + (if (DataParts.find p st.data_parts).isSome then 1 else 0) +
    st.held.countP (fun q => decide (DataPart.equiv q p))

/-- The method `StorageMergeTree::clearOldParts`; `locked` tells whether the try-lock on
the set of all parts succeeds. -/
def clearOldParts (locked : Bool) (st : Storage) : Storage :=
  if locked = false then st
  else { st with all_data_parts := st.all_data_parts.filter (fun p => referenceCount st p ≠ 1) }

/-- What the surroundings decide while a merge thread runs: the result of copying the
merged data for given source parts, the time, and whether the try-lock of
`clearOldParts` succeeds. -/
structure MergeEnv where
  copyData : List DataPart → Except Exception Nat
  now : Nat
  locked : Storage → Bool

/-- The loop of `mergeThread`, before the exceptions are caught.  Every turn of the loop
takes one unit of `fuel`; `none` means that the fuel did not suffice. -/
def mergeThreadLoop (lut : DateLUT) (index_granularity : Nat) (settings : StorageMergeTreeSettings)
    (env : MergeEnv) (while_can : Bool) : Nat → Storage → List DataPart → Option (Outcome Storage)
  | 0, _, _ => none
  | fuel + 1, st, parts =>
    match selectPartsToMerge index_granularity settings st parts with
    | (false, _, st1) => some (.ok st1)
    | (true, parts1, st1) =>
      match mergeParts lut st1 parts1 (env.copyData parts1) env.now with
      | .undefined => some .undefined
      | .thrown e st2 => some (.thrown e st2)
      | .ok st2 =>
        let st3 := clearOldParts (env.locked st2) st2
        if while_can = false then some (.ok st3)
        else mergeThreadLoop lut index_granularity settings env while_can fuel st3 []

/-- The method `StorageMergeTree::mergeThread`: the loop, with every exception caught and
logged.  The result is the state the thread leaves and the exception it logged, if any. -/
def mergeThread (lut : DateLUT) (index_granularity : Nat) (settings : StorageMergeTreeSettings)
    (env : MergeEnv) (while_can : Bool) (st : Storage) : Option (Outcome (Storage × Option Exception)) :=
  match mergeThreadLoop lut index_granularity settings env while_can
      (st.data_parts.length + 1) st [] with
  | none => none
  | some .undefined => some .undefined
  | some (.thrown e st1) => some (.ok (st1, some e))
  | some (.ok st1) => some (.ok (st1, none))

/-! ## The writer of a merged part -/

/-- The state of a `MergedBlockOutputStream` as far as the index is concerned: the
number of marks, the offset of the next mark in the next block, and the key tuples
written to `primary.idx` so far. -/
structure MergedBlockOutputStream (K : Type) where
  marks_count : Nat
  index_offset : Nat
  index_stream : List K
deriving DecidableEq, Repr

/-- The stream directly after its constructor. -/
def MergedBlockOutputStream.init (K : Type) : MergedBlockOutputStream K := ⟨0, 0, []⟩

/-- The loop `for (i = index_offset; i < rows; i += index_granularity)` of
`MergedBlockOutputStream::write` over a block given by the key tuples of its rows.
Every turn takes one unit of `fuel`; `none` means that the fuel did not suffice. -/
def writeIndex {K : Type} (index_granularity : Nat) (block : List K) :
    Nat → Nat → MergedBlockOutputStream K → Option (MergedBlockOutputStream K)
  | 0, i, s => if i < block.length then none else some s
  | fuel + 1, i, s =>
    match block.get? i with
    | none => some s
    | some pk =>
      writeIndex index_granularity block fuel (i + index_granularity)
        { s with index_stream := s.index_stream ++ [pk], marks_count := s.marks_count + 1 }

/-- The method `MergedBlockOutputStream::write` on a block given by the key tuples of its
rows; `none` when the loop over the block does not end (`index_granularity = 0`). -/
def MergedBlockOutputStream.write {K : Type} (index_granularity : Nat)
    (s : MergedBlockOutputStream K) (block : List K) : Option (MergedBlockOutputStream K) :=
  let rows := block.length
  match writeIndex index_granularity block rows s.index_offset s with
  | none => none
  | some s1 =>
    some { s1 with
           index_offset :=
             if rows % index_granularity ≠ 0 then index_granularity - rows % index_granularity
             else 0 }

/-- The method `MergedBlockOutputStream::marksCount`. -/
def MergedBlockOutputStream.marksCount {K : Type} (s : MergedBlockOutputStream K) : Nat :=
  s.marks_count

/-- The blocks of a merged stream written one after the other, as `copyData` does. -/
def MergedBlockOutputStream.writeAll {K : Type} (index_granularity : Nat) :
    MergedBlockOutputStream K → List (List K) → Option (MergedBlockOutputStream K)
  | s, [] => some s
  | s, block :: rest =>
    match MergedBlockOutputStream.write index_granularity s block with
    | none => none
    | some s1 => MergedBlockOutputStream.writeAll index_granularity s1 rest

/-! ## Index-range pruning -/

/-- The variables of the loop of `markRangeFromPkRange`; `last_read_mark` is `none`
as long as nothing has been assigned to it. -/
structure MarkScan (K : Type) where
  min_mark_number : Int
  max_mark_number : Int
  last_read_mark : Option Int
  prev_pk : Option K

/-- The loop of `markRangeFromPkRange` over the key tuples of `primary.idx`. -/
def scanIndex {K : Type} (key_condition : PkCondition K) :
    List K → Nat → MarkScan K → MarkScan K
  | [], _, s => s
  | pk :: rest, current_mark_number, s =>
    let s1 : MarkScan K :=
      match s.prev_pk with
      | some prev_pk =>
        if current_mark_number > 0 ∧ key_condition.mayBeTrueInRange prev_pk pk = true then
          { s with
            min_mark_number :=
              if s.min_mark_number = -1 then (current_mark_number : Int) - 1
              else s.min_mark_number
            max_mark_number := (current_mark_number : Int) - 1 }
        else s
      | none => s
    scanIndex key_condition rest (current_mark_number + 1)
      { s1 with prev_pk := some pk, last_read_mark := some (current_mark_number : Int) }

/-- The function `MergeTreeBlockInputStream::markRangeFromPkRange` for a part of
`marks_count` marks whose file `primary.idx` holds the key tuples `index`: the pair
`(out_first_mark, out_last_mark)`.  The result is `none` when the source reads
`last_read_mark` without having assigned it (an empty index under a condition that is
not always true). -/
def markRangeFromPkRange {K : Type} (marks_count : Nat) (index : List K)
    (key_condition : PkCondition K) : Option (Nat × Nat) :=
  let last_mark_in_file := if marks_count = 0 then 0 else marks_count - 1
  if key_condition.alwaysTrue = true then some (0, last_mark_in_file)
  else
    let s := scanIndex key_condition index 0 ⟨-1, -1, none, none⟩
    match s.last_read_mark with
    | none => none
    | some last_read_mark =>
      let max_mark_number :=
        if s.max_mark_number = last_read_mark - 1 then s.max_mark_number + 1
        else s.max_mark_number
      some (if s.min_mark_number = -1 then 0 else s.min_mark_number.toNat,
        if max_mark_number = -1 then last_mark_in_file else max_mark_number.toNat)

/-! ## The read planner -/

/-- The record `DataPartRange`: a part with the range of marks to read from it. -/
structure DataPartRange where
  data_part : DataPart
  first_mark : Nat
  last_mark : Nat
deriving DecidableEq, Repr

/-- The arguments with which `read` constructs a `MergeTreeBlockInputStream`. -/
structure MergeTreeBlockInputStream where
  owned_data_part : DataPart
  mark_number : Nat
  rows_limit : Nat
deriving DecidableEq, Repr

/-- An element of the result of `read`: the stream of one part, or the
`ConcatBlockInputStream` of several. -/
inductive BlockInputStream where
  | part (stream : MergeTreeBlockInputStream)
  | concat (streams : List MergeTreeBlockInputStream)
deriving DecidableEq, Repr

/-- What `read` takes from its surroundings: the two conditions built from the query,
the key tuples in the file `primary.idx` of every part, and the permutation that
`std::random_shuffle` applies. -/
structure ReadEnv (K : Type) where
  key_condition : PkCondition K
  date_condition : PkCondition Nat
  primary_idx : DataPart → List K
  random_shuffle : List DataPartRange → List DataPartRange

/-- The first loop of `read`: the active parts that pass the date condition. -/
def selectByDate (date_condition : PkCondition Nat) (data_parts : DataParts) :
    List DataPartRange :=
  (data_parts.filter (fun p => date_condition.mayBeTrueInRange p.left_date p.right_date)).map
    (fun p => ⟨p, 0, 0⟩)

/-- The second loop of `read`: the range of every part and the sum of the marks.
The result is `none` when `markRangeFromPkRange` is undefined for a part. -/
def selectRanges {K : Type} (env : ReadEnv K) :
    List DataPartRange → Option (List DataPartRange × Nat)
  | [] => some ([], 0)
  | part :: rest =>
    match markRangeFromPkRange part.data_part.size (env.primary_idx part.data_part)
        env.key_condition with
    | none => none
    | some (first_mark, last_mark) =>
      match selectRanges env rest with
      | none => none
      | some (parts, sum_marks) =>
        some (⟨part.data_part, first_mark, last_mark⟩ :: parts,
          sizeAdd (sizeAdd (sizeSub last_mark first_mark) 1) sum_marks)

/-- The variables shared by the loops that spread the marks among the threads. -/
structure SpreadState where
  cur_part : Nat
  cur_pos : Nat
  marks_spread : Nat
deriving DecidableEq, Repr

/-- The loop `while (need_marks > 0)` of `read`, which collects the streams of one
thread.  Every turn takes one unit of `fuel`. -/
def spreadWhile (index_granularity min_rows_for_concurrent_read : Nat)
    (parts : List DataPartRange) :
    Nat → Nat → SpreadState → List MergeTreeBlockInputStream →
      Outcome (SpreadState × List MergeTreeBlockInputStream)
  | 0, need_marks, s, streams => if need_marks > 0 then .undefined else .ok (s, streams)
  | fuel + 1, need_marks, s, streams =>
    if ¬ need_marks > 0 then .ok (s, streams)
    else
      match parts.get? s.cur_part with
      | none => .thrown (.LOGICAL_ERROR "Can't spread marks among threads") (s, streams)
      | some part =>
        let marks_left_in_part :=
          sizeSub (sizeAdd (sizeSub part.last_mark part.first_mark) 1) s.cur_pos
        if marks_left_in_part = 0 then
          spreadWhile index_granularity min_rows_for_concurrent_read parts fuel need_marks
            { s with cur_part := s.cur_part + 1, cur_pos := 0 } streams
        else
          let marks_to_get_from_part := min marks_left_in_part need_marks
          let marks_to_get_from_part :=
            if sizeMul (sizeSub marks_left_in_part marks_to_get_from_part) index_granularity
                < min_rows_for_concurrent_read then marks_left_in_part
            else marks_to_get_from_part
          let stream : MergeTreeBlockInputStream :=
            { owned_data_part := part.data_part
              mark_number := sizeAdd part.first_mark s.cur_pos
              rows_limit := sizeMul marks_to_get_from_part index_granularity }
          spreadWhile index_granularity min_rows_for_concurrent_read parts fuel
            (if marks_to_get_from_part > need_marks then 0
              else need_marks - marks_to_get_from_part)
            { s with
              marks_spread := sizeAdd s.marks_spread marks_to_get_from_part
              cur_pos := sizeAdd s.cur_pos marks_to_get_from_part }
            (streams ++ [stream])

/-- The loop `for (i = 0; i < effective_threads && marks_spread < sum_marks; ++i)` of
`read`, over the number of threads that are left.  The loop `while` gets a unit of fuel
for every mark it needs and for every part, and one more. -/
def spreadFor (index_granularity min_rows_for_concurrent_read : Nat)
    (parts : List DataPartRange) (sum_marks effective_threads : Nat) :
    Nat → SpreadState → List BlockInputStream → Outcome (SpreadState × List BlockInputStream)
  | 0, s, res => .ok (s, res)
  | threads_left + 1, s, res =>
    if ¬ s.marks_spread < sum_marks then .ok (s, res)
    else
      let need_marks :=
        min (sizeAdd (sizeSub sum_marks 1 / effective_threads) 1) (sizeSub sum_marks s.marks_spread)
      match spreadWhile index_granularity min_rows_for_concurrent_read parts
          (1 + (need_marks + parts.length)) need_marks s [] with
      | .undefined => .undefined
      | .thrown e (s1, _) => .thrown e (s1, res)
      | .ok (s1, streams) =>
        spreadFor index_granularity min_rows_for_concurrent_read parts sum_marks effective_threads
          threads_left s1
          (res ++ [match streams with
            | [stream] => BlockInputStream.part stream
            | _ => BlockInputStream.concat streams])

/-- The part of `read` after the ranges are known: the marks are spread among the
threads.  `parts` is the vector before the shuffle. -/
def spreadMarks (index_granularity min_rows_for_concurrent_read : Nat)
    (random_shuffle : List DataPartRange → List DataPartRange)
    (parts : List DataPartRange) (sum_marks threads : Nat) : Outcome (List BlockInputStream) :=
  if sum_marks > 0 then
    let effective_threads := min threads sum_marks
    let parts := random_shuffle parts
    match spreadFor index_granularity min_rows_for_concurrent_read parts sum_marks
        effective_threads effective_threads ⟨0, 0, 0⟩ [] with
    | .undefined => .undefined
    | .thrown e (_, res) => .thrown e res
    | .ok (s, res) =>
      match parts.getLast? with
      | none => .undefined
      | some back =>
        if s.marks_spread ≠ sum_marks ∨ s.cur_part + 1 ≠ parts.length ∨
            s.cur_pos ≠ sizeAdd (sizeSub back.last_mark back.first_mark) 1 then
          .thrown (.LOGICAL_ERROR "Couldn't spread marks among threads") res
        else .ok res
  else .ok []

/-- The method `StorageMergeTree::read`: the streams it returns. -/
def read {K : Type} (index_granularity : Nat) (settings : StorageMergeTreeSettings)
    (env : ReadEnv K) (st : Storage) (threads : Nat) : Outcome (List BlockInputStream) :=
  match selectRanges env (selectByDate env.date_condition st.data_parts) with
  | none => .undefined
  | some (parts, sum_marks) =>
    spreadMarks index_granularity settings.min_rows_for_concurrent_read env.random_shuffle
      parts sum_marks threads

/-! ## Loading the parts -/

/-- The longest run of decimal digits at the start of a text, and what follows it. -/
def spanDigits : List Char → List Char × List Char
  | [] => ([], [])
  | c :: rest =>
    if c.isDigit then (c :: (spanDigits rest).1, (spanDigits rest).2) else ([], c :: rest)

/-- The group `(\d{8})` followed by `_` at the start of a text: the eight digits and
what follows the underscore. -/
def matchDate (text : List Char) : Option (List Char × List Char) :=
  if (text.take 8).length = 8 ∧ (text.take 8).all Char.isDigit = true then
    match text.drop 8 with
    | c :: rest => if c = '_' then some (text.take 8, rest) else none
    | [] => none
  else none

/-- The group `(\d+)` followed by `_` at the start of a text. -/
def matchNumber (text : List Char) : Option (List Char × List Char) :=
  match spanDigits text with
  | ([], _) => none
  | (digits, c :: rest) => if c = '_' then some (digits, rest) else none
  | (_, []) => none

/-- The match of the expression `^(\d{8})_(\d{8})_(\d+)_(\d+)_(\d+)` at the start of a
file name: the five groups.  Nothing anchors the end of the expression. -/
def matchPartName (file_name : List Char) :
    Option (List Char × List Char × List Char × List Char × List Char) :=
  match matchDate file_name with
  | none => none
  | some (g1, t1) =>
    match matchDate t1 with
    | none => none
    | some (g2, t2) =>
      match matchNumber t2 with
      | none => none
      | some (g3, t3) =>
        match matchNumber t3 with
        | none => none
        | some (g4, t4) =>
          match spanDigits t4 with
          | ([], _) => none
          | (g5, _) => some (g1, g2, g3, g4, g5)

/-- The number that a run of decimal digits denotes. -/
def decimalValue (digits : List Char) : Nat :=
  digits.foldl (fun n c => 10 * n + (c.toNat - '0'.toNat)) 0

/-- The call `Poco::NumberParser::parseUnsigned64` on a run of decimal digits: the number
they denote, when it is a `UInt64` value.  For a longer number the library returns no
value that this source determines (its parser throws, or reads with `sscanf`, whose
conversion of a number out of range is not defined): the model has no value there. -/
def parseUnsigned64 (digits : List Char) : Option Nat :=
  if decimalValue digits < 2 ^ 64 then some (decimalValue digits) else none

/-- The call `Poco::NumberParser::parseUnsigned` on a run of decimal digits: the number
they denote, when it is an `unsigned` value of 32 bits, and no value otherwise, as for
`parseUnsigned64`. -/
def parseUnsigned (digits : List Char) : Option Nat :=
  if decimalValue digits < 2 ^ 32 then some (decimalValue digits) else none

/-- What `loadDataParts` finds in the directory of the table: the names of the entries
in the order of the iteration, and for every name the size of the marks file of the
first column and the time of the last modification. -/
structure Directory where
  names : List String
  mrkSize : String → Nat
  lastModified : String → Nat

/-- What the body of the first loop of `loadDataParts` makes of one directory entry:
the loop goes on to the next entry (`continue`), a number of the name has no value of
its type, or the body builds a descriptor. -/
inductive LoadedEntry where
  | skipped
  | unparsed
  | part (p : DataPart)
deriving DecidableEq, Repr

/-- The body of the first loop of `loadDataParts` for a directory entry, up to the
insertion into the set. -/
def loadPart (lut : DateLUT) (dir : Directory) (file_name : String) : LoadedEntry :=
  match matchPartName file_name.toList with
  | none => .skipped
  | some (g1, g2, g3, g4, g5) =>
    let left_date := lut.dayNumOfIdentifier (String.mk g1)
    let right_date := lut.dayNumOfIdentifier (String.mk g2)
    match parseUnsigned64 g3 with
    | none => .unparsed
    | some left =>
      match parseUnsigned64 g4 with
      | none => .unparsed
      | some right =>
        match parseUnsigned g5 with
        | none => .unparsed
        | some level =>
          .part
            { left_date := left_date
              right_date := right_date
              left := left
              right := right
              level := level
              name := file_name
              size := dir.mrkSize file_name / 16
              modification_time := dir.lastModified file_name
              left_month := lut.toFirstDayNumOfMonth left_date
              right_month := lut.toFirstDayNumOfMonth right_date
              currently_merging := false }

/-- The first loop of `loadDataParts` over the directory entries `names`, from the set
`data_parts`: every entry whose name matches is inserted into the set.  Where a number
of a name has no value the source does not determine how the loop goes on. -/
def loadedParts (lut : DateLUT) (dir : Directory) : List String → DataParts → Outcome DataParts
  | [], data_parts => .ok data_parts
  | file_name :: rest, data_parts =>
    match loadPart lut dir file_name with
    | .skipped => loadedParts lut dir rest data_parts
    | .unparsed => .undefined
    | .part part => loadedParts lut dir rest (DataParts.insert part data_parts)

/-- The loop of `loadDataParts` that removes contained parts from the active set:
`prev` is the part under `prev_jt`, the list holds the parts from `curr_jt` on, and the
result is what is left of the set from `prev` on. -/
def removeContained (prev : DataPart) : List DataPart → List DataPart
  | [] => [prev]
  | curr :: rest =>
    if curr.left_month ≠ curr.right_month ∨ curr.right_month ≠ prev.left_month ∨
        prev.left_month ≠ prev.right_month then
      prev :: removeContained curr rest
    else if curr.contains prev then removeContained curr rest
    else if prev.contains curr then removeContained prev rest
    else prev :: removeContained curr rest

/-- The method `StorageMergeTree::loadDataParts`. -/
def loadDataParts (lut : DateLUT) (dir : Directory) (st : Storage) : Outcome Storage :=
  match loadedParts lut dir dir.names [] with
  | .undefined => .undefined
  | .thrown e data_parts => .thrown e { st with data_parts := data_parts }
  | .ok data_parts =>
    .ok
      { st with
        all_data_parts := data_parts
        data_parts :=
          match data_parts with
          | prev :: curr :: rest => removeContained prev (curr :: rest)
          | _ => data_parts }

/-! ## Predicates of the specification -/

/-- The largest size, in marks, among parts. -/
def maxSize (parts : List DataPart) : Nat := (parts.map DataPart.size).foldl max 0

/-- The smallest size, in marks, among parts (`0` for no part). -/
def minSize : List DataPart → Nat
  | [] => 0
  | p :: rest => (rest.map DataPart.size).foldl min p.size

/-- The sum of the sizes of parts, in `size_t` arithmetic. -/
def sumSize (parts : List DataPart) : Nat := (parts.map DataPart.size).sum % 2 ^ 64

/-- A part that the planner may put into a run of the month `month`: it is not being
merged, it is small enough, and it lies in that month only. -/
def Mergeable (index_granularity : Nat) (settings : StorageMergeTreeSettings) (month : Nat)
    (p : DataPart) : Prop :=
  p.currently_merging = false ∧
    sizeMul p.size index_granularity ≤ settings.max_rows_to_merge_parts ∧
    p.left_month = p.right_month ∧ p.left_month = month

/-- A run of parts that the planner accepts as valid: at least two and at most
`max_parts_to_merge_at_once` mergeable parts of one month, none starting before the
right id of its predecessor, whose sizes pass the comparison of the ratio. -/
def ValidRun (index_granularity : Nat) (settings : StorageMergeTreeSettings)
    (run : List DataPart) : Prop :=
  2 ≤ run.length ∧ ((run.length : Nat) : Int) ≤ toInt32 settings.max_parts_to_merge_at_once ∧
    (∃ month, ∀ p ∈ run, Mergeable index_granularity settings month p) ∧
    List.Chain' (fun a b : DataPart => ¬ b.left < a.right) run ∧
    settings.size_ratio_lt (maxSize run) (sizeSub (sumSize run) (maxSize run)) = true

/-- The variables of the current run describe the parts `pre` taken into it so far. -/
structure RunInv (pre : List DataPart) (r : RunState) : Prop where
  hmax : r.cur_max = maxSize pre
  hmin : r.cur_min = minSize pre
  hsum : r.cur_sum % 2 ^ 64 = sumSize pre
  hlen : r.cur_len = (pre.length : Nat)
  hid : ∀ x ∈ pre.getLast?, r.cur_id = x.right

/-- The longest valid run recorded so far is a valid run at the start of `l`. -/
def LongestOK (index_granularity : Nat) (settings : StorageMergeTreeSettings)
    (l : List DataPart) (r : RunState) : Prop :=
  r.cur_longest_len = 0 ∨
    (ValidRun index_granularity settings (l.take r.cur_longest_len.toNat) ∧
      r.cur_longest_len = ((l.take r.cur_longest_len.toNat).length : Nat) ∧
      r.cur_longest_max = maxSize (l.take r.cur_longest_len.toNat) ∧
      r.cur_longest_min = minSize (l.take r.cur_longest_len.toNat))

/-- The best run recorded by the outer loop is a valid run of the active set `l`. -/
def SelectOK (index_granularity : Nat) (settings : StorageMergeTreeSettings)
    (l : List DataPart) (s : SelectState) : Prop :=
  s.found = true →
    ValidRun index_granularity settings ((l.drop s.best_begin).take s.max_len.toNat) ∧
      s.max_len = (((l.drop s.best_begin).take s.max_len.toNat).length : Nat) ∧
      s.min_max = maxSize ((l.drop s.best_begin).take s.max_len.toNat) ∧
      s.min_min = minSize ((l.drop s.best_begin).take s.max_len.toNat)

/-- A calendar for examples: months of one hundred days, day `d` written `20240000 + d`. -/
def exampleLUT : DateLUT :=
  { toFirstDayNumOfMonth := fun d => d / 100 * 100
    orderedIdentifier := fun d => 20240000 + d
    dayNumOfIdentifier := fun s => decimalValue s.toList - 20240000 }

/-- Settings for examples: parts of up to 1000 rows, runs of up to 10 parts, and a
comparison of the ratio that stands for `a / b < 5.0`. -/
def exampleSettings : StorageMergeTreeSettings :=
  { max_rows_to_merge_parts := 1000
    max_parts_to_merge_at_once := 10
    size_ratio_lt := fun a b => decide (b ≠ 0 ∧ a < 5 * b)
    merging_threads := 2
    min_rows_for_concurrent_read := 0 }

/-- The table after the ingest of a block of three rows (days 101 to 103) and of a block
of two rows (days 104 and 105), with two rows to a mark. -/
def exampleStorage : Storage :=
  writePart exampleLUT 2 (writePart exampleLUT 2 Storage.empty 1 3 101 103 0) 2 2 104 105 0

/-- What the invariant of the part sets says about one active part, for the calendar
`lut` and the last id `increment` handed out. -/
def PartOK (lut : DateLUT) (increment : Nat) (p : DataPart) : Prop :=
  p.left_month = p.right_month ∧ p.left ≤ p.right ∧ p.right ≤ increment ∧
    p.left_month = lut.toFirstDayNumOfMonth p.left_date ∧
    p.right_month = lut.toFirstDayNumOfMonth p.right_date

/-- The part `p` stands before the part `q` in the active set, and if both are of one
month the ids of `p` lie entirely before those of `q`. -/
def Before (p q : DataPart) : Prop :=
  DataPart.less p q ∧ (p.left_month = q.left_month → p.right < q.left)

/-- The invariant of the active set. -/
def Inv (lut : DateLUT) (st : Storage) : Prop :=
  (∀ p ∈ st.data_parts, PartOK lut st.increment p) ∧ st.data_parts.Pairwise Before

/-- The states of the engine that are reachable from the empty table.  A step is the
ingest of one month of a block (`writePart`, called by `write` with a block of
`blocksByMonth` and an id above every id handed out before), a merge
(`selectPartsToMerge` followed by the `mergeParts` that succeeds on the chosen parts),
or a `selectPartsToMerge` whose merge fails or has not finished. -/
inductive Reachable (lut : DateLUT) (index_granularity : Nat)
    (settings : StorageMergeTreeSettings) : Storage → Prop where
  | empty : Reachable lut index_granularity settings Storage.empty
  | ingest {ρ : Type} (st : Storage) (block : Block ρ) (b : Nat × BlockWithDateInterval ρ)
      (part_id now : Nat) :
      Reachable lut index_granularity settings st →
      (∀ row ∈ block, row.1 < 65536) →
      b ∈ blocksByMonth lut block →
      st.increment < part_id →
      Reachable lut index_granularity settings
        (writePart lut index_granularity st part_id b.2.block.length b.2.min_date b.2.max_date now)
  | merge (st : Storage) (parts0 parts : List DataPart) (st1 : Storage) (marks_count now : Nat)
      (st2 : Storage) :
      Reachable lut index_granularity settings st →
      selectPartsToMerge index_granularity settings st parts0 = (true, parts, st1) →
      mergeParts lut st1 parts (.ok marks_count) now = .ok st2 →
      Reachable lut index_granularity settings st2
  | select (st : Storage) (parts0 parts : List DataPart) (st1 : Storage) :
      Reachable lut index_granularity settings st →
      selectPartsToMerge index_granularity settings st parts0 = (true, parts, st1) →
      Reachable lut index_granularity settings st1

/-- The parts that `selectPartsToMerge` returns on the table of the example. -/
def exampleChosen : List DataPart :=
  (selectPartsToMerge 2 exampleSettings exampleStorage []).2.1

/-- The table of the example after `selectPartsToMerge`. -/
def exampleSelected : Storage :=
  (selectPartsToMerge 2 exampleSettings exampleStorage []).2.2

/-- The first block of the example: three rows of the days 103, 101 and 102, each with
its value of the key column. -/
def exampleBlock1 : Block Nat := [(103, 10), (101, 30), (102, 20)]

/-- The second block of the example: two rows of the days 104 and 105. -/
def exampleBlock2 : Block Nat := [(104, 40), (105, 50)]

/-- The table of the example after the merge of its two parts into a part of three
marks. -/
def exampleMerged : Storage :=
  match mergeParts exampleLUT exampleSelected exampleChosen (.ok 3) 0 with
  | .ok st => st
  | _ => Storage.empty

/-- The merged part of the example, of three marks. -/
def exampleNewPart : DataPart :=
  { left_date := 101, right_date := 105, left := 1, right := 2, level := 1,
    name := "20240101_20240105_1_2_1", size := 3, modification_time := 0,
    left_month := 100, right_month := 100, currently_merging := false }

/-- A table whose second part holds the earlier dates: a block of the days 110 to 120 is
ingested first, a block of the days 101 to 105 after it. -/
def lateStorage : Storage :=
  writePart exampleLUT 2 (writePart exampleLUT 2 Storage.empty 1 4 110 120 0) 2 4 101 105 0

/-- The parts that `selectPartsToMerge` returns on `lateStorage`. -/
def lateChosen : List DataPart :=
  (selectPartsToMerge 2 exampleSettings lateStorage []).2.1

/-- The table `lateStorage` after `selectPartsToMerge`. -/
def lateSelected : Storage :=
  (selectPartsToMerge 2 exampleSettings lateStorage []).2.2

/-- The key condition `key = 2 or key = 6` over natural numbers, with an exact
`mayBeTrueInRange`. -/
def twoOrSix : PkCondition Nat :=
  { alwaysTrue := false
    mayBeTrueInRange := fun lo hi => decide ((lo ≤ 2 ∧ 2 ≤ hi) ∨ (lo ≤ 6 ∧ 6 ≤ hi)) }

/-- A key condition that is not always true and holds in no range. -/
def neverTrue : PkCondition Nat :=
  { alwaysTrue := false, mayBeTrueInRange := fun _ _ => false }

/-- The surroundings of a `read` of the example: a date condition that holds everywhere,
the key condition `neverTrue`, the index `[10, 30]` for the part of two marks and `[40]`
for the part of one mark, and a shuffle that leaves the order. -/
def exampleReadEnv : ReadEnv Nat :=
  { key_condition := neverTrue
    date_condition := { alwaysTrue := true, mayBeTrueInRange := fun _ _ => true }
    primary_idx := fun p => if p.left = 1 then [10, 30] else [40]
    random_shuffle := id }

/-- The first part of the table of the example: the days 101 to 103, three rows in two
marks. -/
def examplePart1 : DataPart :=
  { left_date := 101, right_date := 103, left := 1, right := 1, level := 0,
    name := "20240101_20240103_1_1_0", size := 2, modification_time := 0,
    left_month := 100, right_month := 100, currently_merging := false }

/-- Surroundings of a merge thread in which the copy of the merged data fails. -/
def failingEnv : MergeEnv :=
  { copyData := fun _ => .error (.external "cannot read part")
    now := 0
    locked := fun _ => true }

/-- The directory of the example of a recovery, with a part that spans two months: the
entries of the ids `[1, 10]`, `[2, 2]` (from day 150 to day 210) and `[3, 4]`, and two
entries of the ids `[20, 25]` with the levels 1 and 2. -/
def recoveryDirectory : Directory :=
  { names := ["20240101_20240110_1_10_2", "20240150_20240210_2_2_0", "20240102_20240109_3_4_1",
      "20240111_20240120_20_25_1", "20240111_20240120_20_25_2"]
    mrkSize := fun _ => 32
    lastModified := fun _ => 0 }

/-- The table after `loadDataParts` over `recoveryDirectory`. -/
def recoveryLoaded : Storage :=
  match loadDataParts exampleLUT recoveryDirectory Storage.empty with
  | .ok st => st
  | _ => Storage.empty

/-- The directory of the recovery scenario of the spec: a part of the ids `[1, 5]` and a
part of the ids `[2, 4]` that it contains. -/
def scenarioDirectory : Directory :=
  { names := ["20240101_20240110_1_5_2", "20240102_20240109_2_4_1"]
    mrkSize := fun _ => 32
    lastModified := fun _ => 0 }

/-- The part `20240101_20240110_1_5_2` as `loadDataParts` builds it from
`scenarioDirectory`. -/
def scenarioOuter : DataPart :=
  { left_date := 101, right_date := 110, left := 1, right := 5, level := 2,
    name := "20240101_20240110_1_5_2", size := 2, modification_time := 0,
    left_month := 100, right_month := 100, currently_merging := false }

/-- The part `20240102_20240109_2_4_1` as `loadDataParts` builds it from
`scenarioDirectory`. -/
def scenarioInner : DataPart :=
  { left_date := 102, right_date := 109, left := 2, right := 4, level := 1,
    name := "20240102_20240109_2_4_1", size := 2, modification_time := 0,
    left_month := 100, right_month := 100, currently_merging := false }

/-- The table after `loadDataParts` over `scenarioDirectory`: both parts in the set of
all parts, the outer one in the active set. -/
def scenarioLoaded : Storage :=
  { Storage.empty with
    all_data_parts := [scenarioOuter, scenarioInner]
    data_parts := [scenarioOuter] }

/-- A directory with two parts of one month whose id intervals `[1, 5]` and `[5, 8]`
share the id 5. -/
def overlapDirectory : Directory :=
  { names := ["20240101_20240110_1_5_1", "20240111_20240120_5_8_1"]
    mrkSize := fun _ => 32
    lastModified := fun _ => 0 }

/-- The table after `loadDataParts` over `overlapDirectory`. -/
def overlapLoaded : Storage :=
  match loadDataParts exampleLUT overlapDirectory Storage.empty with
  | .ok st => st
  | _ => Storage.empty

/-- The pair of the index entries `j` and `j + 1` may hold the key condition. -/
def PairMatches {K : Type} (key_condition : PkCondition K) (index : List K) (j : Nat) : Prop :=
  ∃ a b, index[j]? = some a ∧ index[j + 1]? = some b ∧
    key_condition.mayBeTrueInRange a b = true

/-- The variables `min_mark_number` and `max_mark_number` after the index entries before
the position `c` have been read: both are `-1` and no pair has matched, or they are the
first and the last pair that matched. -/
def ScanOK {K : Type} (key_condition : PkCondition K) (index : List K) (c : Nat)
    (s : MarkScan K) : Prop :=
  (s.min_mark_number = -1 ∧ s.max_mark_number = -1 ∧
      ∀ j, j + 1 < c → ¬ PairMatches key_condition index j) ∨
    (∃ lo hi : Nat, s.min_mark_number = (lo : Int) ∧ s.max_mark_number = (hi : Int) ∧
      lo ≤ hi ∧ hi + 1 < c ∧ PairMatches key_condition index lo ∧
      PairMatches key_condition index hi ∧
      ∀ j, j + 1 < c → PairMatches key_condition index j → lo ≤ j ∧ j ≤ hi)

/-- The index `[1, 3, 5, 7]` of a part of four marks. -/
def exampleIndex : List Nat := [1, 3, 5, 7]

/-- The key condition `2 ≤ key ≤ 4` over natural numbers. -/
def twoToFour : PkCondition Nat :=
  { alwaysTrue := false
    mayBeTrueInRange := fun lo hi => decide (lo ≤ 4 ∧ 2 ≤ hi) }

/-- The variables of the inner loop of `selectPartsToMerge` after it has run for the run
that starts with the first part of `suffix`; `none` when the outer loop leaves that part
with `continue`. -/
def longestAt (index_granularity : Nat) (settings : StorageMergeTreeSettings) :
    List DataPart → Option RunState
  | [] => none
  | first_part :: rest =>
    if first_part.currently_merging = true ∨
        sizeMul first_part.size index_granularity > settings.max_rows_to_merge_parts then none
    else if first_part.left_month ≠ first_part.right_month then none
    else
      some (extendRight index_granularity settings first_part.left_month rest
        ⟨first_part.size, first_part.size, first_part.size, 1, first_part.right,
          minusOneU, minusOneU, 0⟩)

/-- The length `cur_longest_len` of the longest valid run that starts with the first part
of `suffix`, `0` when there is none. -/
def lenAt (index_granularity : Nat) (settings : StorageMergeTreeSettings)
    (suffix : List DataPart) : Int :=
  match longestAt index_granularity settings suffix with
  | none => 0
  | some r => r.cur_longest_len

/-- The triple that the outer loop compares for the run that starts with the first part
of `suffix`. -/
def keyAt (index_granularity : Nat) (settings : StorageMergeTreeSettings)
    (suffix : List DataPart) : (Nat × Nat) × Int :=
  match longestAt index_granularity settings suffix with
  | none => ((0, 0), 0)
  | some r => ((r.cur_longest_max, r.cur_longest_min), -r.cur_longest_len)

/-- The longest valid run that starts at the position `j` of `l` exists and does not lie
inside the longest valid run of an earlier position. -/
def Candidate (index_granularity : Nat) (settings : StorageMergeTreeSettings)
    (l : List DataPart) (j : Nat) : Prop :=
  0 < lenAt index_granularity settings (l.drop j) ∧
    ∀ j', j' < j →
      lenAt index_granularity settings (l.drop j') - ((j : Int) - (j' : Int)) <
        lenAt index_granularity settings (l.drop j)

/-- The invariant of the outer loop of `selectPartsToMerge` before the part at the
position `i` of `l`. -/
structure SelectInv (index_granularity : Nat) (settings : StorageMergeTreeSettings)
    (l : List DataPart) (i : Nat) (s : SelectState) : Prop where
  nonneg : 0 ≤ s.max_count_from_left
  lower : ∀ j, j < i →
    lenAt index_granularity settings (l.drop j) - ((i : Int) - (j : Int)) ≤
      s.max_count_from_left - 1
  upper : s.max_count_from_left = 0 ∨ ∃ j, j < i ∧
    s.max_count_from_left - 1 =
      lenAt index_granularity settings (l.drop j) - ((i : Int) - (j : Int))
  best : s.found = true →
    s.best_begin < i ∧ Candidate index_granularity settings l s.best_begin ∧
      s.max_len = lenAt index_granularity settings (l.drop s.best_begin) ∧
      ((s.min_max, s.min_min), -s.max_len) =
        keyAt index_granularity settings (l.drop s.best_begin) ∧
      ∀ j, j < i → Candidate index_granularity settings l j →
        ¬ pairLess (keyAt index_granularity settings (l.drop j))
          (keyAt index_granularity settings (l.drop s.best_begin))
  none : s.found = false → ∀ j, j < i → ¬ Candidate index_granularity settings l j

/-- A text that the group `([0-9]{8})` matches as a whole. -/
def IsDateGroup (g : List Char) : Prop := g.length = 8 ∧ ∀ c ∈ g, c.isDigit = true

/-- A text that the group `([0-9]+)` matches as a whole. -/
def IsNumberGroup (g : List Char) : Prop := g ≠ [] ∧ ∀ c ∈ g, c.isDigit = true

/-- The whole text matches `^([0-9]{8})_([0-9]{8})_([0-9]+)_([0-9]+)_([0-9]+)$`, in the
words of the specification. -/
def MatchesWhole (text : List Char) : Prop :=
  ∃ g1 g2 g3 g4 g5, IsDateGroup g1 ∧ IsDateGroup g2 ∧ IsNumberGroup g3 ∧ IsNumberGroup g4 ∧
    IsNumberGroup g5 ∧ text = g1 ++ '_' :: (g2 ++ '_' :: (g3 ++ '_' :: (g4 ++ '_' :: g5)))

/-- The descriptor that `writePart` builds for the part it has written. -/
def newDataPart (lut : DateLUT) (index_granularity : Nat)
    (part_id rows min_date max_date now : Nat) : DataPart :=
  { left_date := min_date
    right_date := max_date
    left := part_id
    right := part_id
    level := 0
    name := getPartName lut min_date max_date part_id part_id 0
    size := sizeSub (sizeAdd rows index_granularity) 1 / index_granularity
    modification_time := now
    left_month := lut.toFirstDayNumOfMonth min_date
    right_month := lut.toFirstDayNumOfMonth max_date
    currently_merging := false }

/-- The loop of `writePart` that writes `primary.idx`,
`for (size_t i = 0; i < rows; i += storage.index_granularity)`: `sorted` holds, row by
row, the values of the primary-key columns of the block after `sortBlock`, `i` is the
loop variable and `index` what the file holds so far.  The fuel bounds the number of
iterations; `none` stands for a loop that is still running when it is used up. -/
def writeIndexLoop {K : Type} (index_granularity : Nat) (sorted : List K) :
    Nat → Nat → List K → Option (List K)
  | 0, _, _ => none
  | fuel + 1, i, index =>
    if h : i < sorted.length then
      writeIndexLoop index_granularity sorted fuel (sizeAdd i index_granularity)
        (index ++ [sorted[i]])
    else some index

/-- The file `primary.idx` that `writePart` writes for a block.  A loop whose variable
does not wrap around has at most `rows` iterations. -/
def writePartIndex {K : Type} (index_granularity : Nat) (sorted : List K) : Option (List K) :=
  writeIndexLoop index_granularity sorted (sorted.length + 1) 0 []

/-- The key column of `exampleBlock1` and of two more rows, sorted. -/
def exampleSorted : List Nat := [10, 20, 30, 40, 50]

/-- What `write` knows of the map `blocks_by_month` after the rows `processed` of the
block: the keys are in order, the block of a month holds the rows of that month in the
order of the block, with the least and the greatest of their dates, and every row has
the block of its month. -/
structure BucketsOK {ρ : Type} (lut : DateLUT) (processed : Block ρ)
    (acc : List (Nat × BlockWithDateInterval ρ)) : Prop where
  sorted : (acc.map Prod.fst).Pairwise (· < ·)
  rows : ∀ e ∈ acc,
    e.2.block = processed.filter (fun row => decide (lut.toFirstDayNumOfMonth row.1 = e.1)) ∧
    e.2.block ≠ [] ∧
    e.2.min_date = (minMaxDate e.2.block (65535, 0)).1 ∧
    e.2.max_date = (minMaxDate e.2.block (65535, 0)).2
  covered : ∀ row ∈ processed, ∃ e ∈ acc, e.1 = lut.toFirstDayNumOfMonth row.1

/-- A block whose rows fall into two months, the months in the order of arrival
reversed. -/
def exampleBlock3 : Block Nat := [(201, 10), (103, 20), (205, 30), (101, 40)]

/-- The number of marks of a selected range, `last_mark - first_mark + 1`. -/
def DataPartRange.marks (r : DataPartRange) : Nat := r.last_mark - r.first_mark + 1

/-- The streams that read a part back to back: the first starts `pos` marks after
`first_mark`, every stream takes the next number of marks of the list and has the row
limit `marks * index_granularity` (a product of `size_t`). -/
def streamsFrom (index_granularity : Nat) (r : DataPartRange) :
    Nat → List Nat → List MergeTreeBlockInputStream
  | _, [] => []
  | pos, m :: ms =>
    { owned_data_part := r.data_part
      mark_number := r.first_mark + pos
      rows_limit := sizeMul m index_granularity } ::
      streamsFrom index_granularity r (pos + m) ms

/-- The streams of a list of parts, each with the numbers of marks that its streams take:
the streams of one part after those of the part before it. -/
def planStreams (index_granularity : Nat) :
    List (DataPartRange × List Nat) → List MergeTreeBlockInputStream
  | [] => []
  | e :: rest => streamsFrom index_granularity e.1 0 e.2 ++ planStreams index_granularity rest

/-- The streams of parts behind an element of the result of `read`. -/
def BlockInputStream.streams : BlockInputStream → List MergeTreeBlockInputStream
  | .part stream => [stream]
  | .concat streams => streams

/-- The streams of parts behind the result of `read`, in the order of their creation. -/
def flattenStreams : List BlockInputStream → List MergeTreeBlockInputStream
  | [] => []
  | b :: rest => b.streams ++ flattenStreams rest

/-- The rule of `read` against short tails, for streams that take the numbers of marks
`ms` back to back from a part of `total` marks, starting `pos` marks after its first
mark: behind a stream that ends before the end of the part at least `min_rows` rows of
the part are left. -/
def TailOK (index_granularity min_rows total : Nat) : Nat → List Nat → Prop
  | _, [] => True
  | pos, m :: ms =>
    (pos + m < total → min_rows ≤ (total - (pos + m)) * index_granularity) ∧
      TailOK index_granularity min_rows total (pos + m) ms

/-- What the loops of `read` know while they spread the marks of `parts`: the parts
before `cur_part` are read to the end, `cur_pos` marks of the part `cur_part` are handed
out, `emitted` are the streams created so far and `marks_spread` counts their marks; no
stream has left a tail of less than `min_rows` rows. -/
def SpreadInv (index_granularity min_rows : Nat) (parts : List DataPartRange)
    (s : SpreadState) (emitted : List MergeTreeBlockInputStream) : Prop :=
  ∃ (done : List (DataPartRange × List Nat)) (cur : DataPartRange) (ms : List Nat)
      (todo : List DataPartRange),
    parts = done.map Prod.fst ++ cur :: todo ∧ s.cur_part = done.length ∧
    (∀ e ∈ done, (∀ m ∈ e.2, 1 ≤ m) ∧ e.2.sum = e.1.marks) ∧
    (∀ m ∈ ms, 1 ≤ m) ∧ ms.sum = s.cur_pos ∧ s.cur_pos ≤ cur.marks ∧
    emitted = planStreams index_granularity done ++ streamsFrom index_granularity cur 0 ms ∧
    s.marks_spread = ((done.map Prod.fst).map DataPartRange.marks).sum + s.cur_pos ∧
    (∀ e ∈ done, TailOK index_granularity min_rows e.1.marks 0 e.2) ∧
    TailOK index_granularity min_rows cur.marks 0 ms

/-- The ranges that `read` selects on the table of the example: both marks of the first
part and the one mark of the second. -/
def exampleRanges : List DataPartRange :=
  [⟨examplePart1, 0, 1⟩,
    ⟨{ left_date := 104, right_date := 105, left := 2, right := 2, level := 0,
       name := "20240104_20240105_2_2_0", size := 1, modification_time := 0,
       left_month := 100, right_month := 100, currently_merging := false }, 0, 0⟩]

/-- The method `MergedBlockOutputStream::writeSuffix` for a stream that writes the part
`part_name`, on the names of the entries in the directory of the table: with no mark
written it throws, otherwise the directory `tmp_` + `part_name` is renamed to
`part_name`. -/
def MergedBlockOutputStream.writeSuffix {K : Type} (s : MergedBlockOutputStream K)
    (part_name : String) (names : List String) : Outcome (List String) :=
  if s.marks_count = 0 then .thrown (.LOGICAL_ERROR "Empty part") names
  else .ok (names.map (fun name => if name = "tmp_" ++ part_name then part_name else name))

/-- What `MergeTreeBlockInputStream::readImpl` takes from its surroundings: the names of
the requested columns, the block size, for every column whether its data file `.bin`
exists in the part and how deep the type of the column nests `DataTypeArray`, the suffix
`ARRAY_SIZES_COLUMN_NAME_SUFFIX`, and the number of values that `readData` puts into the
column (for the name, the rows read before and `max_rows_to_read`). -/
structure ReaderEnv where
  column_names : List String
  block_size : Nat
  hasDataFile : String → Bool
  arrayDepth : String → Nat
  sizes_suffix : String
  readData : String → Nat → Nat → Nat

/-- The members of a `MergeTreeBlockInputStream` that change while it is read: the rows
read so far and the keys of the map `streams` of open files. -/
structure ReaderState where
  rows_read : Nat
  streams : List String
deriving DecidableEq, Repr

/-- The call `streams.insert(std::make_pair(key, …))` on the keys of the map: nothing
changes when the key is there. -/
def insertStream (key : String) (streams : List String) : List String :=
  if key ∈ streams then streams else streams ++ [key]

/-- The method `MergeTreeBlockInputStream::addStream` for a column whose type nests
arrays `depth` deep from the level `level` on: without a data file nothing is opened;
for an array the stream of the sizes of this level is opened and the nested type
follows; otherwise the stream of the column is opened. -/
def addStream (env : ReaderEnv) (name : String) : Nat → Nat → List String → List String
  | 0, _, streams =>
    if env.hasDataFile name = false then streams else insertStream name streams
  | depth + 1, level, streams =>
    if env.hasDataFile name = false then streams
    else
      addStream env name depth (level + 1)
        (insertStream (name ++ env.sizes_suffix ++ writeIntText level) streams)

/-- The loop of `readImpl` that opens the files: `addStream` for every requested
column. -/
def openStreams (env : ReaderEnv) (streams : List String) : List String :=
  env.column_names.foldl (fun acc name => addStream env name (env.arrayDepth name) 0 acc)
    streams

/-- The loop of `readImpl` over the requested columns: the flags `has_missing_columns`
and `has_normal_columns` and the columns of the block `res` with their sizes. -/
def readColumns (env : ReaderEnv) (streams : List String) (rows_read max_rows_to_read : Nat) :
    List String → Bool × Bool × List (String × Nat) → Bool × Bool × List (String × Nat)
  | [], acc => acc
  | name :: rest, (has_missing_columns, has_normal_columns, res) =>
    if name ∉ streams then
      readColumns env streams rows_read max_rows_to_read rest (true, has_normal_columns, res)
    else
      let size := env.readData name rows_read max_rows_to_read
      readColumns env streams rows_read max_rows_to_read rest
        (has_missing_columns, true, if size ≠ 0 then res ++ [(name, size)] else res)

/-- The number of rows of a block given by its columns and their sizes (`Block::rows`). -/
def blockRows (res : List (String × Nat)) : Nat :=
  match res with
  | [] => 0
  | column :: _ => column.2

/-- The method `MergeTreeBlockInputStream::readImpl` of the stream `r`: the state after
the call and the columns of the block it returns, with their sizes. -/
def readImpl (env : ReaderEnv) (r : MergeTreeBlockInputStream) (s : ReaderState) :
    Outcome (ReaderState × List (String × Nat)) :=
  if s.rows_read = r.rows_limit then .ok (s, [])
  else
    let streams := if s.streams.isEmpty = true then openStreams env s.streams else s.streams
    let max_rows_to_read := min env.block_size (sizeSub r.rows_limit s.rows_read)
    let columns := readColumns env streams s.rows_read max_rows_to_read env.column_names
      (false, false, [])
    if columns.1 = true ∧ ¬ columns.2.1 = true then
      .thrown .ALL_REQUESTED_COLUMNS_ARE_MISSING ({ s with streams := streams }, [])
    else
      let res := columns.2.2
      let rows_read := if res ≠ [] then sizeAdd s.rows_read (blockRows res) else s.rows_read
      let filled :=
        if res ≠ [] ∧ columns.1 = true then
          res ++ (env.column_names.filter (fun name => decide (name ∉ streams))).map
            (fun name => (name, blockRows res))
        else res
      .ok ({ rows_read := rows_read
             streams := if res = [] ∨ rows_read = r.rows_limit then [] else streams }, filled)

/-- A reader of two requested columns of which the part has no data file. -/
def missingEnv : ReaderEnv :=
  { column_names := ["a", "b"], block_size := 8192, hasDataFile := fun _ => false,
    arrayDepth := fun _ => 0, sizes_suffix := ".size", readData := fun _ _ _ => 0 }

/-- A reader of the columns `a`, whose data file the part lacks, and `b`, an array whose
file holds three more rows. -/
def partialEnv : ReaderEnv :=
  { column_names := ["a", "b"], block_size := 8192, hasDataFile := fun name => name = "b",
    arrayDepth := fun name => if name = "b" then 1 else 0, sizes_suffix := ".size",
    readData := fun _ rows_read max_rows => min (3 - rows_read) max_rows }

/-- A table of one part of five marks, two rows to a mark. -/
def tailStorage : Storage := writePart exampleLUT 2 Storage.empty 1 10 101 103 0

/-- Settings under which `read` leaves no tail of fewer than 5 rows in a part. -/
def tailSettings : StorageMergeTreeSettings :=
  { exampleSettings with min_rows_for_concurrent_read := 5 }

/-- The surroundings of a `read` that selects every mark: both conditions always true,
and a shuffle that leaves the order. -/
def fullReadEnv : ReadEnv Nat :=
  { key_condition := { alwaysTrue := true, mayBeTrueInRange := fun _ _ => true }
    date_condition := { alwaysTrue := true, mayBeTrueInRange := fun _ _ => true }
    primary_idx := fun _ => [10, 20, 30, 40, 50]
    random_shuffle := id }

/-- The range that `read` selects on `tailStorage`: all five marks of its part. -/
def tailRanges : List DataPartRange :=
  [⟨{ left_date := 101, right_date := 103, left := 1, right := 1, level := 0,
      name := "20240101_20240103_1_1_0", size := 5, modification_time := 0,
      left_month := 100, right_month := 100, currently_merging := false }, 0, 4⟩]

/-- The part `a` covers the part `b`: both lie in one and the same month and the id
interval of `b` lies within that of `a`. -/
def Covers (a b : DataPart) : Prop :=
  a.left_month = a.right_month ∧ b.left_month = b.right_month ∧
    a.left_month = b.left_month ∧ a.left ≤ b.left ∧ b.right ≤ a.right

/-- A successful merge step of `mergeThread` from the state `st` to the state `st3`:
`selectPartsToMerge` returns `true`, the `mergeParts` that follows swaps the parts, and
`clearOldParts` has run. -/
def MergeStep (lut : DateLUT) (index_granularity : Nat) (settings : StorageMergeTreeSettings)
    (env : MergeEnv) (st st3 : Storage) : Prop :=
  ∃ parts0 parts1 st1 st2,
    selectPartsToMerge index_granularity settings st parts0 = (true, parts1, st1) ∧
    mergeParts lut st1 parts1 (env.copyData parts1) env.now = .ok st2 ∧
    st3 = clearOldParts (env.locked st2) st2

/-- Surroundings of a merge thread in which every copy of merged data gives three marks
and the lock of `clearOldParts` is free. -/
def workingEnv : MergeEnv :=
  { copyData := fun _ => .ok 3
    now := 0
    locked := fun _ => true }

/-- A directory with a part of the level `2 ^ 32 - 1` and a part of the level 0, of two
marks each. -/
def wrapDirectory : Directory :=
  { names := ["20240101_20240103_1_1_4294967295", "20240104_20240105_2_2_0"]
    mrkSize := fun _ => 32
    lastModified := fun _ => 0 }

/-- The table after `loadDataParts` over `wrapDirectory`. -/
def wrapLoaded : Storage :=
  match loadDataParts exampleLUT wrapDirectory Storage.empty with
  | .ok st => st
  | _ => Storage.empty

/-- The parts that `selectPartsToMerge` returns on the table loaded from
`wrapDirectory`. -/
def wrapChosen : List DataPart :=
  (selectPartsToMerge 2 exampleSettings wrapLoaded []).2.1

/-- The table loaded from `wrapDirectory` after `selectPartsToMerge`. -/
def wrapSelected : Storage :=
  (selectPartsToMerge 2 exampleSettings wrapLoaded []).2.2

/-! # Theorems -/

/-! ## The merge planner -/

theorem foldl_max_size (l : List DataPart) (a : Nat) :
    l.foldl (fun m p => max m p.size) a = (l.map DataPart.size).foldl max a := by
  induction l generalizing a with
  | nil => rfl
  | cons x xs ih => simp [ih]

theorem maxSize_cons (p : DataPart) (l : List DataPart) :
    maxSize (p :: l) = (l.map DataPart.size).foldl max p.size := by
  simp [maxSize]

theorem maxSize_append_singleton (l : List DataPart) (p : DataPart) :
    maxSize (l ++ [p]) = max (maxSize l) p.size := by
  simp [maxSize, List.foldl_append]

theorem minSize_append_singleton (q : DataPart) (l : List DataPart) (p : DataPart) :
    minSize (q :: l ++ [p]) = min (minSize (q :: l)) p.size := by
  simp [minSize, List.foldl_append]

theorem sizeAdd_sumSize (l : List DataPart) (p : DataPart) :
    sizeAdd (sumSize l) p.size = sumSize (l ++ [p]) := by
  simp [sizeAdd, sumSize, List.sum_append, Nat.add_mod]

theorem extendRight_cons (index_granularity : Nat) (settings : StorageMergeTreeSettings)
    (month : Nat) (last_part : DataPart) (rest : List DataPart) (r : RunState) :
    extendRight index_granularity settings month (last_part :: rest) r =
      if ¬ (r.cur_len < toInt32 settings.max_parts_to_merge_at_once) then r
      else if last_part.currently_merging = true ∨
          sizeMul last_part.size index_granularity > settings.max_rows_to_merge_parts ∨
          last_part.left_month ≠ last_part.right_month ∨
          last_part.left_month ≠ month then r
      else if last_part.left < r.cur_id then r
      else if 2 ≤ r.cur_len + 1 ∧ settings.size_ratio_lt (max r.cur_max last_part.size)
          (sizeSub (sizeAdd r.cur_sum last_part.size) (max r.cur_max last_part.size)) = true then
        extendRight index_granularity settings month rest
          ⟨max r.cur_max last_part.size, min r.cur_min last_part.size,
            sizeAdd r.cur_sum last_part.size, r.cur_len + 1, last_part.right,
            max r.cur_max last_part.size, min r.cur_min last_part.size, r.cur_len + 1⟩
      else
        extendRight index_granularity settings month rest
          ⟨max r.cur_max last_part.size, min r.cur_min last_part.size,
            sizeAdd r.cur_sum last_part.size, r.cur_len + 1, last_part.right,
            r.cur_longest_max, r.cur_longest_min, r.cur_longest_len⟩ := by
  rw [extendRight]

theorem mergeable_of_not_break (index_granularity : Nat) (settings : StorageMergeTreeSettings)
    (month : Nat) (p : DataPart)
    (h : ¬ (p.currently_merging = true ∨
      sizeMul p.size index_granularity > settings.max_rows_to_merge_parts ∨
      p.left_month ≠ p.right_month ∨ p.left_month ≠ month)) :
    Mergeable index_granularity settings month p := by
  unfold Mergeable
  refine ⟨?_, ?_, ?_, ?_⟩
  · cases hcm : p.currently_merging with
    | false => rfl
    | true => exact absurd (Or.inl hcm) h
  · by_contra hc; exact h (Or.inr (Or.inl (by omega)))
  · by_contra hc; exact h (Or.inr (Or.inr (Or.inl hc)))
  · by_contra hc; exact h (Or.inr (Or.inr (Or.inr hc)))

theorem runInv_extend (first : DataPart) (mid : List DataPart) (r : RunState)
    (last_part : DataPart) (lm ln : Nat) (ll : Int) (hinv : RunInv (first :: mid) r) :
    RunInv (first :: (mid ++ [last_part]))
      ⟨max r.cur_max last_part.size, min r.cur_min last_part.size,
        sizeAdd r.cur_sum last_part.size, r.cur_len + 1, last_part.right, lm, ln, ll⟩ := by
  refine ⟨?_, ?_, ?_, ?_, ?_⟩
  · show max r.cur_max last_part.size = maxSize (first :: (mid ++ [last_part]))
    rw [← List.cons_append, maxSize_append_singleton, hinv.hmax]
  · show min r.cur_min last_part.size = minSize (first :: (mid ++ [last_part]))
    rw [← List.cons_append, minSize_append_singleton, hinv.hmin]
  · show sizeAdd r.cur_sum last_part.size % 2 ^ 64 = sumSize (first :: (mid ++ [last_part]))
    rw [← List.cons_append, ← sizeAdd_sumSize, ← hinv.hsum]
    simp [sizeAdd, Nat.add_mod]
  · show r.cur_len + 1 = ((first :: (mid ++ [last_part])).length : Nat)
    rw [hinv.hlen]; simp
  · intro x hx
    have h : (first :: (mid ++ [last_part])).getLast? = some last_part := by
      rw [← List.cons_append, List.getLast?_append]; simp
    rw [h] at hx
    simp only [Option.mem_def, Option.some.injEq] at hx
    subst hx; rfl

theorem extendRight_longestOK (index_granularity : Nat) (settings : StorageMergeTreeSettings)
    (month : Nat) (rest : List DataPart) :
    ∀ (first : DataPart) (mid : List DataPart) (r : RunState),
      RunInv (first :: mid) r →
      (∀ p ∈ first :: mid, Mergeable index_granularity settings month p) →
      List.Chain' (fun a b : DataPart => ¬ b.left < a.right) (first :: mid) →
      LongestOK index_granularity settings (first :: mid ++ rest) r →
      LongestOK index_granularity settings (first :: mid ++ rest)
        (extendRight index_granularity settings month rest r) := by
  induction rest with
  | nil => intro first mid r _ _ _ h; simpa [extendRight] using h
  | cons last_part rest ih =>
    intro first mid r hinv hall hchain hlong
    rw [extendRight_cons]
    by_cases h1 : r.cur_len < toInt32 settings.max_parts_to_merge_at_once
    swap
    · rw [if_pos h1]; exact hlong
    rw [if_neg (not_not.mpr h1)]
    by_cases h2 : last_part.currently_merging = true ∨
          sizeMul last_part.size index_granularity > settings.max_rows_to_merge_parts ∨
          last_part.left_month ≠ last_part.right_month ∨
          last_part.left_month ≠ month
    · rw [if_pos h2]; exact hlong
    rw [if_neg h2]
    by_cases h3 : last_part.left < r.cur_id
    · rw [if_pos h3]; exact hlong
    rw [if_neg h3]
    have hmerge := mergeable_of_not_break index_granularity settings month last_part h2
    have hall' : ∀ p ∈ first :: (mid ++ [last_part]),
        Mergeable index_granularity settings month p := by
      intro p hp
      simp only [List.mem_cons, List.mem_append, List.mem_singleton, List.not_mem_nil,
        or_false] at hp
      rcases hp with hp | hp | hp
      · exact hall p (by simp [hp])
      · exact hall p (by simp [hp])
      · exact hp ▸ hmerge
    have hchain' : List.Chain' (fun a b : DataPart => ¬ b.left < a.right)
        (first :: (mid ++ [last_part])) := by
      have : first :: (mid ++ [last_part]) = (first :: mid) ++ [last_part] := by simp
      rw [this]
      refine List.Chain'.append hchain (List.chain'_singleton _) ?_
      intro x hx y hy
      simp only [List.head?_cons, Option.mem_def, Option.some.injEq] at hy
      subst hy
      rw [← hinv.hid x hx]
      exact h3
    have hlist : first :: mid ++ last_part :: rest = first :: (mid ++ [last_part]) ++ rest := by
      simp
    by_cases h4 : 2 ≤ r.cur_len + 1 ∧ settings.size_ratio_lt (max r.cur_max last_part.size)
          (sizeSub (sizeAdd r.cur_sum last_part.size) (max r.cur_max last_part.size)) = true
    · rw [if_pos h4, hlist]
      apply ih first (mid ++ [last_part]) _ (runInv_extend first mid r last_part _ _ _ hinv)
        hall' hchain'
      right
      have hlen : (r.cur_len + 1).toNat = (first :: (mid ++ [last_part])).length := by
        rw [hinv.hlen]; simp only [List.length_cons, List.length_append, List.length_nil]; omega
      show ValidRun index_granularity settings
          ((first :: (mid ++ [last_part]) ++ rest).take (r.cur_len + 1).toNat) ∧ _
      rw [hlen, List.take_left]
      refine ⟨⟨?_, ?_, ⟨month, hall'⟩, hchain', ?_⟩, ?_, ?_, ?_⟩
      · have := h4.1; rw [hinv.hlen] at this; simp at this ⊢
      · have := hinv.hlen
        simp only [List.length_cons, List.length_append, List.length_nil] at this ⊢
        omega
      · have h5 := h4.2
        rw [← List.cons_append, maxSize_append_singleton, ← hinv.hmax, ← sizeAdd_sumSize,
          ← hinv.hsum]
        have : sizeAdd (r.cur_sum % 2 ^ 64) last_part.size = sizeAdd r.cur_sum last_part.size := by
          simp [sizeAdd, Nat.add_mod]
        rw [this]; exact h5
      · show r.cur_len + 1 = _
        rw [hinv.hlen]; simp
      · show max r.cur_max last_part.size = _
        rw [← List.cons_append, maxSize_append_singleton, hinv.hmax]
      · show min r.cur_min last_part.size = _
        rw [← List.cons_append, minSize_append_singleton, hinv.hmin]
    · rw [if_neg h4, hlist]
      apply ih first (mid ++ [last_part]) _ (runInv_extend first mid r last_part _ _ _ hinv)
        hall' hchain'
      rw [← hlist]
      exact hlong

theorem selectLoop_cons (index_granularity : Nat) (settings : StorageMergeTreeSettings)
    (first_part : DataPart) (rest : List DataPart) (pos : Nat) (s : SelectState) :
    selectLoop index_granularity settings (first_part :: rest) pos s =
      if first_part.currently_merging = true ∨
          sizeMul first_part.size index_granularity > settings.max_rows_to_merge_parts then
        selectLoop index_granularity settings rest (pos + 1)
          { s with max_count_from_left := max 0 (s.max_count_from_left - 1) }
      else if first_part.left_month ≠ first_part.right_month then
        selectLoop index_granularity settings rest (pos + 1)
          { s with max_count_from_left := max 0 (s.max_count_from_left - 1) }
      else if (extendRight index_granularity settings first_part.left_month rest
          ⟨first_part.size, first_part.size, first_part.size, 1, first_part.right,
            minusOneU, minusOneU, 0⟩).cur_longest_len > max 0 (s.max_count_from_left - 1) then
        if s.found = false ∨
            pairLess
              (((extendRight index_granularity settings first_part.left_month rest
                  ⟨first_part.size, first_part.size, first_part.size, 1, first_part.right,
                    minusOneU, minusOneU, 0⟩).cur_longest_max,
                (extendRight index_granularity settings first_part.left_month rest
                  ⟨first_part.size, first_part.size, first_part.size, 1, first_part.right,
                    minusOneU, minusOneU, 0⟩).cur_longest_min),
                -(extendRight index_granularity settings first_part.left_month rest
                  ⟨first_part.size, first_part.size, first_part.size, 1, first_part.right,
                    minusOneU, minusOneU, 0⟩).cur_longest_len)
              ((s.min_max, s.min_min), -s.max_len) then
          selectLoop index_granularity settings rest (pos + 1)
            { min_max := (extendRight index_granularity settings first_part.left_month rest
                  ⟨first_part.size, first_part.size, first_part.size, 1, first_part.right,
                    minusOneU, minusOneU, 0⟩).cur_longest_max
              min_min := (extendRight index_granularity settings first_part.left_month rest
                  ⟨first_part.size, first_part.size, first_part.size, 1, first_part.right,
                    minusOneU, minusOneU, 0⟩).cur_longest_min
              max_len := (extendRight index_granularity settings first_part.left_month rest
                  ⟨first_part.size, first_part.size, first_part.size, 1, first_part.right,
                    minusOneU, minusOneU, 0⟩).cur_longest_len
              best_begin := pos
              found := true
              max_count_from_left :=
                (extendRight index_granularity settings first_part.left_month rest
                  ⟨first_part.size, first_part.size, first_part.size, 1, first_part.right,
                    minusOneU, minusOneU, 0⟩).cur_longest_len }
        else
          selectLoop index_granularity settings rest (pos + 1)
            { s with
              max_count_from_left :=
                (extendRight index_granularity settings first_part.left_month rest
                  ⟨first_part.size, first_part.size, first_part.size, 1, first_part.right,
                    minusOneU, minusOneU, 0⟩).cur_longest_len }
      else
        selectLoop index_granularity settings rest (pos + 1)
          { s with max_count_from_left := max 0 (s.max_count_from_left - 1) } := by
  rw [selectLoop]

theorem extendRight_first_longestOK (index_granularity : Nat)
    (settings : StorageMergeTreeSettings) (first_part : DataPart) (rest : List DataPart)
    (h1 : ¬ (first_part.currently_merging = true ∨
      sizeMul first_part.size index_granularity > settings.max_rows_to_merge_parts))
    (h2 : ¬ first_part.left_month ≠ first_part.right_month) :
    LongestOK index_granularity settings (first_part :: rest)
      (extendRight index_granularity settings first_part.left_month rest
        ⟨first_part.size, first_part.size, first_part.size, 1, first_part.right,
          minusOneU, minusOneU, 0⟩) := by
  have hm : Mergeable index_granularity settings first_part.left_month first_part := by
    apply mergeable_of_not_break
    intro h
    rcases h with h | h | h | h
    · exact h1 (Or.inl h)
    · exact h1 (Or.inr h)
    · exact h2 h
    · exact h rfl
  have := extendRight_longestOK index_granularity settings first_part.left_month rest
    first_part [] ⟨first_part.size, first_part.size, first_part.size, 1, first_part.right,
          minusOneU, minusOneU, 0⟩
    ⟨by simp [maxSize], by simp [minSize], by simp [sumSize], by simp, by
      intro x hx; simp at hx; subst hx; rfl⟩
    (by intro p hp; simp at hp; subst hp; exact hm)
    (List.chain'_singleton _) (Or.inl rfl)
  simpa using this

theorem selectLoop_selectOK (index_granularity : Nat) (settings : StorageMergeTreeSettings)
    (l : List DataPart) (suffix : List DataPart) :
    ∀ (pos : Nat) (s : SelectState), l.drop pos = suffix →
      SelectOK index_granularity settings l s →
      SelectOK index_granularity settings l (selectLoop index_granularity settings suffix pos s) := by
  induction suffix with
  | nil => intro pos s _ h; simpa [selectLoop] using h
  | cons first_part rest ih =>
    intro pos s hdrop hs
    have hdrop' : l.drop (pos + 1) = rest := by
      rw [← List.drop_drop, hdrop]; rfl
    have hkeep : ∀ m : Int, SelectOK index_granularity settings l
        { s with max_count_from_left := m } := fun _ => hs
    rw [selectLoop_cons]
    by_cases h1 : first_part.currently_merging = true ∨
          sizeMul first_part.size index_granularity > settings.max_rows_to_merge_parts
    · rw [if_pos h1]; exact ih _ _ hdrop' (hkeep _)
    rw [if_neg h1]
    by_cases h2 : first_part.left_month ≠ first_part.right_month
    · rw [if_pos h2]; exact ih _ _ hdrop' (hkeep _)
    rw [if_neg h2]
    have hlong := extendRight_first_longestOK index_granularity settings first_part rest h1 h2
    generalize extendRight index_granularity settings first_part.left_month rest
        ⟨first_part.size, first_part.size, first_part.size, 1, first_part.right,
          minusOneU, minusOneU, 0⟩ = r at hlong ⊢
    split_ifs with h3 h4
    · apply ih _ _ hdrop'
      intro _
      show ValidRun index_granularity settings ((l.drop pos).take r.cur_longest_len.toNat) ∧ _
      rw [hdrop]
      rcases hlong with h0 | h0
      · exfalso
        have : (0 : Int) ≤ max 0 (s.max_count_from_left - 1) := le_max_left _ _
        omega
      · exact h0
    · exact ih _ _ hdrop' (hkeep _)
    · exact ih _ _ hdrop' (hkeep _)

theorem selectOK_init (index_granularity : Nat) (settings : StorageMergeTreeSettings)
    (l : List DataPart) : SelectOK index_granularity settings l SelectState.init := by
  intro h; simp [SelectState.init] at h

/-- What a call of `selectPartsToMerge` that returns `true` does: it picks a valid run
out of the active set, returns it with the flag set, and sets the flag in the set. -/
theorem selectPartsToMerge_found (index_granularity : Nat) (settings : StorageMergeTreeSettings)
    (st : Storage) (parts0 parts : List DataPart) (st1 : Storage)
    (h : selectPartsToMerge index_granularity settings st parts0 = (true, parts, st1)) :
    ∃ pre run post, st.data_parts = pre ++ run ++ post ∧
      ValidRun index_granularity settings run ∧
      parts = run.map DataPart.setMerging ∧
      st1 = { st with
              data_parts := pre ++ run.map DataPart.setMerging ++ post
              all_data_parts := markMerging run st.all_data_parts } := by
  unfold selectPartsToMerge at h
  have hok := selectLoop_selectOK index_granularity settings st.data_parts st.data_parts 0
    SelectState.init rfl (selectOK_init _ _ _)
  generalize selectLoop index_granularity settings st.data_parts 0 SelectState.init = s at h hok
  by_cases hf : s.found = true
  · simp only [hf, if_true, Prod.mk.injEq, true_and] at h
    obtain ⟨hv, hl, -, -⟩ := hok hf
    refine ⟨st.data_parts.take s.best_begin, (st.data_parts.drop s.best_begin).take s.max_len.toNat,
      st.data_parts.drop (s.best_begin + s.max_len.toNat), ?_, hv, h.1.symm, ?_⟩
    · rw [List.append_assoc]
      have : st.data_parts.drop (s.best_begin + s.max_len.toNat) =
          (st.data_parts.drop s.best_begin).drop s.max_len.toNat := by
        rw [List.drop_drop, Nat.add_comm]
      rw [this, List.take_append_drop, List.take_append_drop]
    · exact h.2.symm
  · simp [hf] at h

theorem toInt32_le (n : Nat) : toInt32 n ≤ (n : Int) := by
  unfold toInt32
  have : n % 2 ^ 32 ≤ n := Nat.mod_le _ _
  split_ifs <;> omega

theorem map_size_setMerging (l : List DataPart) :
    (l.map DataPart.setMerging).map DataPart.size = l.map DataPart.size := by
  simp [DataPart.setMerging, Function.comp_def]

theorem maxSize_setMerging (l : List DataPart) :
    maxSize (l.map DataPart.setMerging) = maxSize l := by
  unfold maxSize; rw [map_size_setMerging]

theorem sumSize_setMerging (l : List DataPart) :
    sumSize (l.map DataPart.setMerging) = sumSize l := by
  unfold sumSize; rw [map_size_setMerging]

theorem foldl_max_le_sum (l : List Nat) (a : Nat) : l.foldl max a ≤ a + l.sum := by
  induction l generalizing a with
  | nil => simp
  | cons x xs ih =>
    simp only [List.foldl_cons, List.sum_cons]
    have := ih (max a x)
    omega

theorem sizeSub_sumSize (l : List DataPart) (h : (l.map DataPart.size).sum < 2 ^ 64) :
    sizeSub (sumSize l) (maxSize l) = (l.map DataPart.size).sum - maxSize l := by
  have hle : maxSize l ≤ (l.map DataPart.size).sum := by
    have := foldl_max_le_sum (l.map DataPart.size) 0
    simpa [maxSize] using this
  unfold sizeSub sumSize
  rw [Nat.mod_eq_of_lt h, Nat.mod_eq_of_lt h, Nat.mod_eq_of_lt (lt_of_le_of_lt hle h)]
  have e : (l.map DataPart.size).sum + (2 ^ 64 - maxSize l) =
      ((l.map DataPart.size).sum - maxSize l) + 2 ^ 64 := by omega
  rw [e, Nat.add_mod_right, Nat.mod_eq_of_lt (by omega)]

/-- C2: whenever `selectPartsToMerge` returns `true`, the parts it returns are `L`
parts that follow one another in the active set, with `2 ≤ L` and
`L ≤ max_parts_to_merge_at_once`, and the comparison
`max_size / (sum_size - max_size) < max_size_ratio_to_merge_parts` of the source holds
for the largest size `max_size` and the sum `sum_size` of the sizes of the returned
parts (the sum and the difference in `size_t` arithmetic, which is the plain sum and
difference when the sum is below `2 ^ 64`). -/
theorem selectPartsToMerge_returns_valid_run (index_granularity : Nat)
    (settings : StorageMergeTreeSettings) (st : Storage) (parts0 parts : List DataPart)
    (st1 : Storage)
    (h : selectPartsToMerge index_granularity settings st parts0 = (true, parts, st1)) :
    (∃ pre run post, st.data_parts = pre ++ run ++ post ∧
      parts = run.map DataPart.setMerging) ∧
    2 ≤ parts.length ∧ parts.length ≤ settings.max_parts_to_merge_at_once ∧
    settings.size_ratio_lt (maxSize parts) (sizeSub (sumSize parts) (maxSize parts)) = true ∧
    ((parts.map DataPart.size).sum < 2 ^ 64 →
      settings.size_ratio_lt (maxSize parts)
        ((parts.map DataPart.size).sum - maxSize parts) = true) := by
  obtain ⟨pre, run, post, hdp, ⟨h2, hmax, -, -, hratio⟩, hparts, -⟩ :=
    selectPartsToMerge_found index_granularity settings st parts0 parts st1 h
  have hr : settings.size_ratio_lt (maxSize parts) (sizeSub (sumSize parts) (maxSize parts))
      = true := by
    rw [hparts, maxSize_setMerging, sumSize_setMerging]; exact hratio
  refine ⟨⟨pre, run, post, hdp, hparts⟩, ?_, ?_, hr, ?_⟩
  · rw [hparts, List.length_map]; exact h2
  · rw [hparts, List.length_map]
    have := toInt32_le settings.max_parts_to_merge_at_once
    omega
  · intro hs
    rw [← sizeSub_sumSize parts hs]; exact hr

/-- C2, at the table of the example: its two parts are returned. -/
theorem selectPartsToMerge_returns_valid_run_witness :
    selectPartsToMerge 2 exampleSettings exampleStorage [] =
        (true, exampleChosen, exampleSelected) ∧
      2 ≤ exampleChosen.length ∧ exampleChosen.length ≤ 10 :=
  ⟨by decide,
    (selectPartsToMerge_returns_valid_run 2 exampleSettings exampleStorage [] exampleChosen
      exampleSelected (by decide)).2.1,
    (selectPartsToMerge_returns_valid_run 2 exampleSettings exampleStorage [] exampleChosen
      exampleSelected (by decide)).2.2.1⟩

/-- C3: every part returned by `selectPartsToMerge` is a part of the active set that had
`currently_merging = false` before the call, satisfies
`size * index_granularity ≤ max_rows_to_merge_parts` (the product of the source, in
`size_t` arithmetic, which is the plain product when that is below `2 ^ 64`) and
`left_month = right_month`; and all returned parts lie in the same month, so parts of
two different months are never selected into one merge. -/
theorem selectPartsToMerge_parts_mergeable (index_granularity : Nat)
    (settings : StorageMergeTreeSettings) (st : Storage) (parts0 parts : List DataPart)
    (st1 : Storage)
    (h : selectPartsToMerge index_granularity settings st parts0 = (true, parts, st1)) :
    (∀ p ∈ parts, ∃ q ∈ st.data_parts, p = q.setMerging ∧ q.currently_merging = false ∧
      sizeMul p.size index_granularity ≤ settings.max_rows_to_merge_parts ∧
      (p.size * index_granularity < 2 ^ 64 →
        p.size * index_granularity ≤ settings.max_rows_to_merge_parts) ∧
      p.left_month = p.right_month) ∧
    (∀ p ∈ parts, ∀ q ∈ parts, p.left_month = q.left_month ∧ p.right_month = q.right_month) := by
  obtain ⟨pre, run, post, hdp, ⟨-, -, ⟨month, hm⟩, -, -⟩, hparts, -⟩ :=
    selectPartsToMerge_found index_granularity settings st parts0 parts st1 h
  subst hparts
  constructor
  · intro p hp
    obtain ⟨q, hq, rfl⟩ := List.mem_map.mp hp
    obtain ⟨h1, h2, h3, -⟩ := hm q hq
    refine ⟨q, ?_, rfl, h1, h2, ?_, h3⟩
    · rw [hdp]; simp [hq]
    · intro hlt
      have : sizeMul q.size index_granularity = q.size * index_granularity :=
        Nat.mod_eq_of_lt hlt
      show q.size * index_granularity ≤ settings.max_rows_to_merge_parts
      rw [← this]; exact h2
  · intro p hp q hq
    obtain ⟨p', hp', rfl⟩ := List.mem_map.mp hp
    obtain ⟨q', hq', rfl⟩ := List.mem_map.mp hq
    obtain ⟨-, -, h3, h4⟩ := hm p' hp'
    obtain ⟨-, -, h5, h6⟩ := hm q' hq'
    show p'.left_month = q'.left_month ∧ p'.right_month = q'.right_month
    omega

/-- C3, at the table of the example. -/
theorem selectPartsToMerge_parts_mergeable_witness :
    selectPartsToMerge 2 exampleSettings exampleStorage [] =
        (true, exampleChosen, exampleSelected) ∧
      ∀ p ∈ exampleChosen, ∀ q ∈ exampleChosen,
        p.left_month = q.left_month ∧ p.right_month = q.right_month :=
  ⟨by decide,
    (selectPartsToMerge_parts_mergeable 2 exampleSettings exampleStorage [] exampleChosen
      exampleSelected (by decide)).2⟩

/-! ## The invariant of the active set -/

/-! ## The order of the part sets -/

theorem less_trans {a b c : DataPart} (h1 : DataPart.less a b) (h2 : DataPart.less b c) :
    DataPart.less a c := by
  unfold DataPart.less at *; omega

theorem less_asymm {a b : DataPart} (h1 : DataPart.less a b) : ¬ DataPart.less b a := by
  unfold DataPart.less at *; omega

theorem less_irrefl (a : DataPart) : ¬ DataPart.less a a := by
  unfold DataPart.less; omega

theorem equiv_refl (a : DataPart) : DataPart.equiv a a :=
  ⟨less_irrefl a, less_irrefl a⟩

theorem not_equiv_of_less {a b : DataPart} (h : DataPart.less a b) : ¬ DataPart.equiv a b :=
  fun he => he.1 h

theorem not_equiv_of_less' {a b : DataPart} (h : DataPart.less a b) : ¬ DataPart.equiv b a :=
  fun he => he.2 h

theorem mem_insert {p x : DataPart} {l : DataParts} (h : x ∈ DataParts.insert p l) :
    x = p ∨ x ∈ l := by
  induction l with
  | nil => simp [DataParts.insert] at h; exact Or.inl h
  | cons q rest ih =>
    rw [DataParts.insert] at h
    split_ifs at h with h1 h2
    · simp only [List.mem_cons] at h ⊢; tauto
    · simp only [List.mem_cons] at h ⊢
      rcases h with h | h
      · exact Or.inr (Or.inl h)
      · rcases ih h with h | h
        · exact Or.inl h
        · exact Or.inr (Or.inr h)
    · exact Or.inr h

theorem pairwise_insert {R : DataPart → DataPart → Prop} (p : DataPart) (l : DataParts)
    (hsub : ∀ a b, R a b → DataPart.less a b)
    (hl : l.Pairwise R)
    (h : ∀ q ∈ l, (DataPart.less q p → R q p) ∧ (DataPart.less p q → R p q)) :
    (DataParts.insert p l).Pairwise R := by
  induction l with
  | nil => simp [DataParts.insert]
  | cons q rest ih =>
    rw [DataParts.insert]
    rw [List.pairwise_cons] at hl
    split_ifs with h1 h2
    · rw [List.pairwise_cons, List.pairwise_cons]
      refine ⟨?_, hl⟩
      intro x hx
      rcases List.mem_cons.mp hx with hx | hx
      · subst hx; exact (h x (by simp)).2 h1
      · exact (h x (by simp [hx])).2 (less_trans h1 (hsub _ _ (hl.1 x hx)))
    · rw [List.pairwise_cons]
      refine ⟨?_, ih hl.2 (fun x hx => h x (by simp [hx]))⟩
      intro x hx
      rcases mem_insert hx with hx | hx
      · subst hx; exact (h q (by simp)).1 h2
      · exact hl.1 x hx
    · exact List.pairwise_cons.mpr hl

theorem insert_append (p : DataPart) (l1 l2 : DataParts)
    (h1 : ∀ x ∈ l1, DataPart.less x p) (h2 : ∀ y ∈ l2.head?, DataPart.less p y) :
    DataParts.insert p (l1 ++ l2) = l1 ++ p :: l2 := by
  induction l1 with
  | nil =>
    cases l2 with
    | nil => rfl
    | cons y l2 =>
      have := h2 y (by simp)
      simp [DataParts.insert, this]
  | cons a l1 ih =>
    have ha := h1 a (by simp)
    rw [List.cons_append, DataParts.insert, if_neg (less_asymm ha), if_pos ha,
      ih (fun x hx => h1 x (by simp [hx]))]
    rfl

theorem find_isSome_of_mem {p : DataPart} {l : DataParts} (h : p ∈ l) :
    (DataParts.find p l).isSome = true := by
  induction l with
  | nil => simp at h
  | cons q rest ih =>
    rw [DataParts.find]
    split_ifs with h1
    · rfl
    · rcases List.mem_cons.mp h with h | h
      · subst h; exact absurd (equiv_refl p) h1
      · exact ih h

theorem eraseFound_append (p y : DataPart) (l1 l2 : DataParts)
    (h1 : ∀ x ∈ l1, ¬ DataPart.equiv x p) (h2 : DataPart.equiv y p) :
    DataParts.eraseFound p (l1 ++ y :: l2) = some (l1 ++ l2) := by
  induction l1 with
  | nil => simp [DataParts.eraseFound, h2]
  | cons a l1 ih =>
    rw [List.cons_append, DataParts.eraseFound, if_neg (h1 a (by simp)),
      ih (fun x hx => h1 x (by simp [hx]))]
    rfl

theorem eraseParts_run (run l1 l2 : DataParts)
    (h : ∀ x ∈ l1, ∀ t ∈ run, ¬ DataPart.equiv x t) :
    eraseParts run (l1 ++ run ++ l2) = some (l1 ++ l2) := by
  induction run with
  | nil => simp [eraseParts]
  | cons t run ih =>
    have : l1 ++ t :: run ++ l2 = l1 ++ t :: (run ++ l2) := by simp
    rw [this, eraseParts, eraseFound_append t t l1 (run ++ l2)
      (fun x hx => h x hx t (by simp)) (equiv_refl t)]
    show eraseParts run (l1 ++ (run ++ l2)) = _
    rw [← List.append_assoc]
    exact ih (fun x hx t ht => h x hx t (by simp [ht]))

theorem addRowToMonth_months {ρ : Type} (lut : DateLUT) (row : Nat × ρ) (hrow : row.1 < 65536)
    (acc : List (Nat × BlockWithDateInterval ρ))
    (h : ∀ e ∈ acc, lut.toFirstDayNumOfMonth e.2.min_date = e.1 ∧
      lut.toFirstDayNumOfMonth e.2.max_date = e.1) :
    ∀ e ∈ addRowToMonth (lut.toFirstDayNumOfMonth row.1) row acc,
      lut.toFirstDayNumOfMonth e.2.min_date = e.1 ∧
        lut.toFirstDayNumOfMonth e.2.max_date = e.1 := by
  have hmin : (if row.1 < 65535 then row.1 else 65535) = row.1 := by split_ifs <;> omega
  have hmax : (if row.1 > 0 then row.1 else 0) = row.1 := by split_ifs <;> omega
  induction acc with
  | nil =>
    intro e he
    simp only [addRowToMonth, List.mem_singleton] at he
    subst he
    simp only [hmin, hmax, and_self]
  | cons mb rest ih =>
    obtain ⟨m, b⟩ := mb
    intro e he
    rw [addRowToMonth, hmin, hmax] at he
    by_cases h1 : lut.toFirstDayNumOfMonth row.1 < m
    · rw [if_pos h1] at he
      rcases List.mem_cons.mp he with he | he
      · subst he; exact ⟨rfl, rfl⟩
      · exact h e he
    rw [if_neg h1] at he
    by_cases h2 : lut.toFirstDayNumOfMonth row.1 = m
    · rw [if_pos h2] at he
      rcases List.mem_cons.mp he with he | he
      · subst he
        have hb := h (m, b) (by simp)
        simp only at hb ⊢
        constructor
        · by_cases h3 : row.1 < b.min_date
          · rw [if_pos h3]; exact h2
          · rw [if_neg h3]; exact hb.1
        · by_cases h3 : row.1 > b.max_date
          · rw [if_pos h3]; exact h2
          · rw [if_neg h3]; exact hb.2
      · exact h e (by simp [he])
    · rw [if_neg h2] at he
      rcases List.mem_cons.mp he with he | he
      · subst he; exact h _ (by simp)
      · exact ih (fun e he => h e (by simp [he])) e he

theorem foldl_addRowToMonth_months {ρ : Type} (lut : DateLUT) (block : Block ρ)
    (hblock : ∀ row ∈ block, row.1 < 65536) :
    ∀ acc : List (Nat × BlockWithDateInterval ρ),
      (∀ e ∈ acc, lut.toFirstDayNumOfMonth e.2.min_date = e.1 ∧
        lut.toFirstDayNumOfMonth e.2.max_date = e.1) →
      ∀ e ∈ block.foldl (fun acc row => addRowToMonth (lut.toFirstDayNumOfMonth row.1) row acc) acc,
        lut.toFirstDayNumOfMonth e.2.min_date = e.1 ∧
          lut.toFirstDayNumOfMonth e.2.max_date = e.1 := by
  induction block with
  | nil => intro acc h; simpa using h
  | cons row rest ih =>
    intro acc h
    rw [List.foldl_cons]
    exact ih (fun r hr => hblock r (by simp [hr])) _
      (addRowToMonth_months lut row (hblock row (by simp)) acc h)

/-- Every block that `write` hands to `writePart` lies in one month: the months of its
two dates are equal. -/
theorem blocksByMonth_one_month {ρ : Type} (lut : DateLUT) (block : Block ρ)
    (hblock : ∀ row ∈ block, row.1 < 65536) (b : Nat × BlockWithDateInterval ρ)
    (hb : b ∈ blocksByMonth lut block) :
    lut.toFirstDayNumOfMonth b.2.min_date = lut.toFirstDayNumOfMonth b.2.max_date := by
  simp only [blocksByMonth] at hb
  split_ifs at hb with h
  · simp only [List.mem_singleton] at hb
    subst hb
    exact h
  · have := foldl_addRowToMonth_months lut block hblock [] (by simp) b hb
    rw [this.1, this.2]

theorem inv_empty (lut : DateLUT) : Inv lut Storage.empty := by
  simp [Inv, Storage.empty]

theorem before_less (a b : DataPart) (h : Before a b) : DataPart.less a b := h.1

theorem inv_writePart (lut : DateLUT) (index_granularity : Nat) (st : Storage)
    (part_id rows min_date max_date now : Nat) (hinv : Inv lut st)
    (hid : st.increment < part_id)
    (hmonth : lut.toFirstDayNumOfMonth min_date = lut.toFirstDayNumOfMonth max_date) :
    Inv lut (writePart lut index_granularity st part_id rows min_date max_date now) := by
  obtain ⟨hok, hpw⟩ := hinv
  unfold writePart Inv
  constructor
  · intro p hp
    rcases mem_insert hp with hp | hp
    · subst hp
      exact ⟨hmonth, le_refl _, le_refl _, rfl, rfl⟩
    · obtain ⟨h1, h2, h3, h4, h5⟩ := hok p hp
      exact ⟨h1, h2, by show p.right ≤ part_id; omega, h4, h5⟩
  · apply pairwise_insert _ _ before_less hpw
    intro q hq
    obtain ⟨h1, h2, h3, h4, h5⟩ := hok q hq
    unfold Before DataPart.less
    simp only
    constructor
    · intro hl; refine ⟨hl, ?_⟩; intro _; omega
    · intro hl; refine ⟨hl, ?_⟩; intro _; omega

theorem before_setMerging_left (a b : DataPart) : Before a.setMerging b ↔ Before a b := Iff.rfl

theorem before_setMerging_right (a b : DataPart) : Before a b.setMerging ↔ Before a b := Iff.rfl

theorem pairwise_before_setMerging (pre run post : List DataPart)
    (h : (pre ++ run ++ post).Pairwise Before) :
    (pre ++ run.map DataPart.setMerging ++ post).Pairwise Before := by
  have e : ∀ l : List DataPart, l.Pairwise Before ↔
      (l.map (fun p => (p.left_month, p.left, p.right, p.level))).Pairwise
        (fun a b => (a.1 < b.1 ∨ (a.1 = b.1 ∧ (a.2.1 < b.2.1 ∨ (a.2.1 = b.2.1 ∧
          (a.2.2.1 < b.2.2.1 ∨ (a.2.2.1 = b.2.2.1 ∧ a.2.2.2 < b.2.2.2)))))) ∧
          (a.1 = b.1 → a.2.2.1 < b.2.1)) := by
    intro l
    rw [List.pairwise_map]
    rfl
  rw [e] at h ⊢
  have : (pre ++ run.map DataPart.setMerging ++ post).map
      (fun p => (p.left_month, p.left, p.right, p.level)) =
      (pre ++ run ++ post).map (fun p => (p.left_month, p.left, p.right, p.level)) := by
    simp [DataPart.setMerging, Function.comp_def]
  rw [this]; exact h

theorem inv_select (lut : DateLUT) (index_granularity : Nat)
    (settings : StorageMergeTreeSettings) (st : Storage) (parts0 parts : List DataPart)
    (st1 : Storage) (hinv : Inv lut st)
    (h : selectPartsToMerge index_granularity settings st parts0 = (true, parts, st1)) :
    Inv lut st1 := by
  obtain ⟨pre, run, post, hdp, -, -, hst1⟩ :=
    selectPartsToMerge_found index_granularity settings st parts0 parts st1 h
  obtain ⟨hok, hpw⟩ := hinv
  subst hst1
  constructor
  · intro p hp
    simp only [List.mem_append, List.mem_map] at hp
    rw [hdp] at hok
    rcases hp with (hp | ⟨q, hq, rfl⟩) | hp
    · exact hok p (by simp [hp])
    · exact hok q (by simp [hq])
    · exact hok p (by simp [hp])
  · rw [hdp] at hpw
    exact pairwise_before_setMerging pre run post hpw

theorem before_merged_of_before_front {a front nw : DataPart} (h : Before a front)
    (ha : a.left ≤ a.right) (n1 : nw.left = front.left)
    (n3 : nw.left_month = front.left_month) : Before a nw := by
  unfold Before DataPart.less at *
  omega

theorem less_front_merged {front back nw : DataPart} (hfb : front.right < back.left)
    (b2 : back.left ≤ back.right) (n1 : nw.left = front.left) (n2 : nw.right = back.right)
    (n3 : nw.left_month = front.left_month) : DataPart.less front nw := by
  unfold DataPart.less
  omega

theorem less_merged_of_before_front {front t nw : DataPart} (h : Before front t)
    (hm : front.left_month = t.left_month) (f2 : front.left ≤ front.right)
    (n1 : nw.left = front.left) (n3 : nw.left_month = front.left_month) :
    DataPart.less nw t := by
  unfold Before DataPart.less at *
  omega

theorem before_merged_of_before_back {front back y nw : DataPart} (h : Before back y)
    (hm : front.left_month = back.left_month) (f2 : front.left ≤ front.right)
    (hfb : front.right < back.left) (b2 : back.left ≤ back.right)
    (n1 : nw.left = front.left) (n2 : nw.right = back.right)
    (n3 : nw.left_month = front.left_month) : Before nw y := by
  unfold Before DataPart.less at *
  omega

/-- The swap of `mergeParts` on an active set that satisfies the invariant, for source
parts that form a run of at least two parts of one month: the run is replaced by the
merged part, and the invariant is kept. -/
theorem inv_mergeParts (lut : DateLUT) (st1 : Storage) (parts pre post : List DataPart)
    (marks_count now : Nat) (st2 : Storage) (hinv : Inv lut st1)
    (hdp : st1.data_parts = pre ++ parts ++ post) (hlen : 2 ≤ parts.length)
    (hmonth : ∀ p ∈ parts, ∀ q ∈ parts, p.left_month = q.left_month)
    (h : mergeParts lut st1 parts (.ok marks_count) now = .ok st2) :
    Inv lut st2 ∧ ∃ new_data_part, st2.data_parts = pre ++ new_data_part :: post := by
  obtain ⟨hok, hpw⟩ := hinv
  match parts, hlen with
  | front :: second :: tail, _ =>
    obtain ⟨back, hback⟩ : ∃ b, (front :: second :: tail).getLast? = some b :=
      ⟨_, List.getLast?_eq_getLast _ (by simp)⟩
    have hbmem : back ∈ second :: tail := by
      rw [List.getLast?_cons_cons] at hback
      exact List.mem_of_getLast?_eq_some hback
    rw [hdp] at hok hpw
    rw [List.pairwise_append, List.pairwise_append] at hpw
    obtain ⟨⟨hpre, hrun, hprerun⟩, hpost, hrest⟩ := hpw
    rw [List.pairwise_cons] at hrun
    -- the facts about the first and the last part of the run
    have hfront := hok front (by simp)
    have hbk := hok back (by
      simp only [List.mem_append, List.mem_cons] at hbmem ⊢; tauto)
    have hfb : Before front back := hrun.1 back hbmem
    have hm : front.left_month = back.left_month :=
      hmonth front (by simp) back (List.mem_cons_of_mem _ hbmem)
    obtain ⟨f1, f2, f3, f4, f5⟩ := hfront
    obtain ⟨b1, b2, b3, b4, b5⟩ := hbk
    have hfb2 := hfb.2 hm
    -- the merged part
    generalize hnew : ({ mergedDataPart lut (front :: second :: tail) front back with
      size := marks_count, modification_time := now } : DataPart) = new_data_part at h
    have n1 : new_data_part.left = front.left := by rw [← hnew]; rfl
    have n2 : new_data_part.right = back.right := by rw [← hnew]; rfl
    have n3 : new_data_part.left_month = front.left_month := by rw [← hnew, f4]; rfl
    have n4 : new_data_part.right_month = back.right_month := by rw [← hnew, b5]; rfl
    have n5 : new_data_part.left_month = lut.toFirstDayNumOfMonth new_data_part.left_date := by
      rw [← hnew]; rfl
    have n6 : new_data_part.right_month = lut.toFirstDayNumOfMonth new_data_part.right_date := by
      rw [← hnew]; rfl
    have hprenew : ∀ a ∈ pre, Before a new_data_part := by
      intro a ha
      exact before_merged_of_before_front (hprerun a ha front (by simp))
        (hok a (by simp [ha])).2.1 n1 n3
    have hfrontnew : DataPart.less front new_data_part :=
      less_front_merged hfb2 b2 n1 n2 n3
    have hnewrun : ∀ t ∈ second :: tail, DataPart.less new_data_part t := by
      intro t ht
      exact less_merged_of_before_front (hrun.1 t ht)
        (hmonth front (by simp) t (List.mem_cons_of_mem _ ht)) f2 n1 n3
    have hnewpost : ∀ y ∈ post, Before new_data_part y := by
      intro y hy
      have h1 := hrest back (by
        simp only [List.mem_append, List.mem_cons] at hbmem ⊢; tauto) y hy
      exact before_merged_of_before_back h1 hm f2 hfb2 b2 n1 n2 n3
    -- the insertion of the merged part
    have hins : DataParts.insert new_data_part st1.data_parts =
        (pre ++ [front]) ++ new_data_part :: (second :: tail ++ post) := by
      rw [hdp]
      have e : pre ++ front :: second :: tail ++ post =
          (pre ++ [front]) ++ (second :: tail ++ post) := by simp
      rw [e]
      apply insert_append
      · intro x hx
        rcases List.mem_append.mp hx with hx | hx
        · exact (hprenew x hx).1
        · rw [List.mem_singleton.mp hx]; exact hfrontnew
      · intro y hy
        simp only [List.cons_append, List.head?_cons, Option.mem_def, Option.some.injEq] at hy
        subst hy
        exact hnewrun _ (by simp)
    -- the removal of the source parts
    have hera : eraseParts (front :: second :: tail)
        ((pre ++ [front]) ++ new_data_part :: (second :: tail ++ post)) =
        some (pre ++ new_data_part :: post) := by
      have e1 : (pre ++ [front]) ++ new_data_part :: (second :: tail ++ post) =
          pre ++ front :: (new_data_part :: (second :: tail ++ post)) := by simp
      rw [eraseParts, e1, eraseFound_append front front pre _
        (fun x hx => not_equiv_of_less (hprerun x hx front (by simp)).1) (equiv_refl front)]
      have e2 : pre ++ new_data_part :: (second :: tail ++ post) =
          (pre ++ [new_data_part]) ++ (second :: tail) ++ post := by simp
      have e3 : pre ++ new_data_part :: post = (pre ++ [new_data_part]) ++ post := by simp
      show eraseParts (second :: tail) (pre ++ new_data_part :: (second :: tail ++ post)) = _
      rw [e2, e3]
      apply eraseParts_run
      intro x hx t ht
      rcases List.mem_append.mp hx with hx | hx
      · exact not_equiv_of_less (hprerun x hx t (List.mem_cons_of_mem _ ht)).1
      · rw [List.mem_singleton.mp hx]; exact not_equiv_of_less (hnewrun t ht)
    -- the result of `mergeParts`
    have hfind : (front :: second :: tail).find?
        (fun p => (DataParts.find p st1.data_parts).isNone) = none := by
      rw [List.find?_eq_none]
      intro x hx
      have : x ∈ st1.data_parts := by
        rw [hdp]; exact List.mem_append_left _ (List.mem_append_right _ hx)
      have hs := find_isSome_of_mem this
      cases hf : DataParts.find x st1.data_parts with
      | none => rw [hf] at hs; simp at hs
      | some _ => simp
    have hst2 : st2 = { st1 with
        data_parts := pre ++ new_data_part :: post
        all_data_parts := DataParts.insert new_data_part st1.all_data_parts } := by
      unfold mergeParts at h
      simp only [List.head?_cons, hback] at h
      rw [hnew] at h
      unfold commitMerge at h
      rw [hfind] at h
      simp only [hins, hera] at h
      injection h with h
      exact h.symm
    subst hst2
    refine ⟨⟨?_, ?_⟩, new_data_part, rfl⟩
    · intro p hp
      simp only [List.mem_append, List.mem_cons] at hp
      rcases hp with hp | hp | hp
      · exact hok p (by simp [hp])
      · subst hp
        refine ⟨?_, ?_, ?_, n5, n6⟩
        · omega
        · omega
        · show p.right ≤ st1.increment; omega
      · exact hok p (by simp [hp])
    · show (pre ++ new_data_part :: post).Pairwise Before
      rw [List.pairwise_append, List.pairwise_cons]
      refine ⟨hpre, ⟨hnewpost, hpost⟩, ?_⟩
      intro a ha b hb
      rcases List.mem_cons.mp hb with hb | hb
      · subst hb; exact hprenew a ha
      · exact hrest a (by simp [ha]) b hb

theorem reachable_inv (lut : DateLUT) (index_granularity : Nat)
    (settings : StorageMergeTreeSettings) (st : Storage)
    (h : Reachable lut index_granularity settings st) : Inv lut st := by
  induction h with
  | empty => exact inv_empty lut
  | ingest st block b part_id now _ hblock hb hid ih =>
    exact inv_writePart lut index_granularity st part_id _ _ _ now ih hid
      (blocksByMonth_one_month lut block hblock b hb)
  | merge st parts0 parts st1 marks_count now st2 _ hsel hmerge ih =>
    have hinv1 := inv_select lut index_granularity settings st parts0 parts st1 ih hsel
    obtain ⟨pre, run, post, -, ⟨h2, -, ⟨month, hm⟩, -, -⟩, hparts, hst1⟩ :=
      selectPartsToMerge_found index_granularity settings st parts0 parts st1 hsel
    have hdp : st1.data_parts = pre ++ parts ++ post := by rw [hst1, hparts]
    refine (inv_mergeParts lut st1 parts pre post marks_count now st2 hinv1 hdp ?_ ?_ hmerge).1
    · rw [hparts, List.length_map]; exact h2
    · intro p hp q hq
      rw [hparts] at hp hq
      obtain ⟨p', hp', rfl⟩ := List.mem_map.mp hp
      obtain ⟨q', hq', rfl⟩ := List.mem_map.mp hq
      show p'.left_month = q'.left_month
      rw [(hm p' hp').2.2.2, (hm q' hq').2.2.2]
  | select st parts0 parts st1 _ hsel ih =>
    exact inv_select lut index_granularity settings st parts0 parts st1 ih hsel

/-- C1: in every state reachable from the empty table by ingests (`writePart` on a
block of `write`, under an id above all ids handed out before) and merges
(`selectPartsToMerge` followed by the swap of `mergeParts`), every active part has
`left_month = right_month`, and the id intervals `[left, right]` of two distinct active
parts of one month are disjoint: one lies entirely before the other. -/
theorem reachable_single_month_disjoint (lut : DateLUT) (index_granularity : Nat)
    (settings : StorageMergeTreeSettings) (st : Storage)
    (h : Reachable lut index_granularity settings st) :
    (∀ p ∈ st.data_parts, p.left_month = p.right_month) ∧
    (∀ p ∈ st.data_parts, ∀ q ∈ st.data_parts, p ≠ q → p.left_month = q.left_month →
      p.right < q.left ∨ q.right < p.left) := by
  obtain ⟨hok, hpw⟩ := reachable_inv lut index_granularity settings st h
  refine ⟨fun p hp => (hok p hp).1, ?_⟩
  have hsymm : Symmetric (fun p q : DataPart =>
      p.left_month = q.left_month → p.right < q.left ∨ q.right < p.left) := by
    intro p q hpq hm
    exact (hpq hm.symm).symm
  exact (hpw.imp (fun {p q} (hb : Before p q) hm => Or.inl (hb.2 hm))).forall hsymm

theorem reachable_exampleStorage : Reachable exampleLUT 2 exampleSettings exampleStorage :=
  Reachable.ingest _ exampleBlock2 (100, ⟨exampleBlock2, 104, 105⟩) 2 0
    (Reachable.ingest Storage.empty exampleBlock1 (100, ⟨exampleBlock1, 101, 103⟩) 1 0
      Reachable.empty (by decide) (by decide) (by decide))
    (by decide) (by decide) (by decide)

/-- C1, at the table of the example after two ingests and a merge. -/
theorem reachable_single_month_disjoint_witness :
    Reachable exampleLUT 2 exampleSettings exampleMerged ∧
    (∀ p ∈ exampleMerged.data_parts, p.left_month = p.right_month) ∧
    (∀ p ∈ exampleMerged.data_parts, ∀ q ∈ exampleMerged.data_parts, p ≠ q →
      p.left_month = q.left_month → p.right < q.left ∨ q.right < p.left) :=
  have hr : Reachable exampleLUT 2 exampleSettings exampleMerged :=
    Reachable.merge exampleStorage [] exampleChosen exampleSelected 3 0 exampleMerged
      reachable_exampleStorage (by decide) (by decide)
  ⟨hr, reachable_single_month_disjoint exampleLUT 2 exampleSettings exampleMerged hr⟩

/-! ## The swap of `mergeParts` -/

theorem equiv_less_left {a b c : DataPart} (h1 : DataPart.equiv a b) (h2 : DataPart.less a c) :
    DataPart.less b c := by
  unfold DataPart.equiv DataPart.less at *; omega

theorem equiv_trans {a b c : DataPart} (h1 : DataPart.equiv a b) (h2 : DataPart.equiv b c) :
    DataPart.equiv a c := by
  unfold DataPart.equiv DataPart.less at *; omega

theorem equiv_symm {a b : DataPart} (h : DataPart.equiv a b) : DataPart.equiv b a :=
  ⟨h.2, h.1⟩

theorem pairwise_less_insert (p : DataPart) (l : DataParts) (hl : l.Pairwise DataPart.less) :
    (DataParts.insert p l).Pairwise DataPart.less :=
  pairwise_insert p l (fun _ _ h => h) hl (fun _ _ => ⟨id, id⟩)

theorem mem_insert_iff (p : DataPart) (l : DataParts) (hl : l.Pairwise DataPart.less)
    (q : DataPart) :
    q ∈ DataParts.insert p l ↔ q ∈ l ∨ (q = p ∧ ∀ x ∈ l, ¬ DataPart.equiv x p) := by
  induction l with
  | nil => simp [DataParts.insert]
  | cons a rest ih =>
    rw [List.pairwise_cons] at hl
    rw [DataParts.insert]
    split_ifs with h1 h2
    · constructor
      · intro h
        rcases List.mem_cons.mp h with h | h
        · right
          refine ⟨h, ?_⟩
          intro x hx
          rcases List.mem_cons.mp hx with hx | hx
          · subst hx; exact not_equiv_of_less' h1
          · exact not_equiv_of_less' (less_trans h1 (hl.1 x hx))
        · exact Or.inl h
      · intro h
        rcases h with h | ⟨h, -⟩
        · exact List.mem_cons_of_mem _ h
        · subst h; exact List.mem_cons_self _ _
    · constructor
      · intro h
        rcases List.mem_cons.mp h with h | h
        · exact Or.inl (by simp [h])
        · rcases (ih hl.2).mp h with h | ⟨h, hx⟩
          · exact Or.inl (List.mem_cons_of_mem _ h)
          · right
            refine ⟨h, ?_⟩
            intro x hx'
            rcases List.mem_cons.mp hx' with hx' | hx'
            · subst hx'; exact not_equiv_of_less h2
            · exact hx x hx'
      · intro h
        rcases h with h | ⟨h, hx⟩
        · rcases List.mem_cons.mp h with h | h
          · exact h ▸ List.mem_cons_self _ _
          · exact List.mem_cons_of_mem _ ((ih hl.2).mpr (Or.inl h))
        · exact List.mem_cons_of_mem _
            ((ih hl.2).mpr (Or.inr ⟨h, fun x hx' => hx x (List.mem_cons_of_mem _ hx')⟩))
    · constructor
      · intro h; exact Or.inl h
      · intro h
        rcases h with h | ⟨-, hx⟩
        · exact h
        · exact absurd ⟨h2, h1⟩ (hx a (List.mem_cons_self _ _))

theorem find_eq_none_iff (p : DataPart) (l : DataParts) :
    DataParts.find p l = none ↔ ∀ x ∈ l, ¬ DataPart.equiv x p := by
  induction l with
  | nil => simp [DataParts.find]
  | cons a rest ih =>
    rw [DataParts.find]
    split_ifs with h
    · simp only [List.mem_cons, forall_eq_or_imp, false_iff, not_and, reduceCtorEq]
      intro hc; exact absurd h hc
    · rw [ih]; simp [h]

theorem eraseFound_spec (p : DataPart) (l : DataParts) (hl : l.Pairwise DataPart.less)
    (hp : ∃ e ∈ l, DataPart.equiv e p) :
    ∃ l1, DataParts.eraseFound p l = some l1 ∧ l1.Pairwise DataPart.less ∧
      ∀ q, q ∈ l1 ↔ q ∈ l ∧ ¬ DataPart.equiv q p := by
  induction l with
  | nil => simp at hp
  | cons a rest ih =>
    rw [List.pairwise_cons] at hl
    rw [DataParts.eraseFound]
    by_cases h : DataPart.equiv a p
    · rw [if_pos h]
      refine ⟨rest, rfl, hl.2, ?_⟩
      intro q
      constructor
      · intro hq
        refine ⟨List.mem_cons_of_mem _ hq, ?_⟩
        intro hqp
        have := hl.1 q hq
        exact (equiv_trans h (equiv_symm hqp)).1 this
      · rintro ⟨hq, hqp⟩
        rcases List.mem_cons.mp hq with hq | hq
        · subst hq; exact absurd h hqp
        · exact hq
    · rw [if_neg h]
      obtain ⟨e, he, hep⟩ := hp
      have he' : e ∈ rest := by
        rcases List.mem_cons.mp he with he | he
        · subst he; exact absurd hep h
        · exact he
      obtain ⟨l1, h1, h2, h3⟩ := ih hl.2 ⟨e, he', hep⟩
      refine ⟨a :: l1, by rw [h1]; rfl, ?_, ?_⟩
      · rw [List.pairwise_cons]
        exact ⟨fun x hx => hl.1 x ((h3 x).mp hx).1, h2⟩
      · intro q
        simp only [List.mem_cons, h3]
        constructor
        · rintro (hq | ⟨hq, hqp⟩)
          · subst hq; exact ⟨Or.inl rfl, h⟩
          · exact ⟨Or.inr hq, hqp⟩
        · rintro ⟨hq | hq, hqp⟩
          · exact Or.inl hq
          · exact Or.inr ⟨hq, hqp⟩

theorem eraseParts_spec (parts : List DataPart) :
    ∀ l : DataParts, l.Pairwise DataPart.less →
      parts.Pairwise (fun a b => ¬ DataPart.equiv a b) →
      (∀ p ∈ parts, ∃ e ∈ l, DataPart.equiv e p) →
      ∃ l1, eraseParts parts l = some l1 ∧ l1.Pairwise DataPart.less ∧
        ∀ q, q ∈ l1 ↔ q ∈ l ∧ ∀ p ∈ parts, ¬ DataPart.equiv q p := by
  induction parts with
  | nil => intro l hl _ _; exact ⟨l, rfl, hl, by simp⟩
  | cons p rest ih =>
    intro l hl hd hfound
    rw [List.pairwise_cons] at hd
    obtain ⟨l1, h1, h2, h3⟩ := eraseFound_spec p l hl (hfound p (List.mem_cons_self _ _))
    have hfound' : ∀ t ∈ rest, ∃ e ∈ l1, DataPart.equiv e t := by
      intro t ht
      obtain ⟨e, he, het⟩ := hfound t (List.mem_cons_of_mem _ ht)
      refine ⟨e, (h3 e).mpr ⟨he, ?_⟩, het⟩
      intro hep
      exact hd.1 t ht (equiv_trans (equiv_symm hep) het)
    obtain ⟨l2, h4, h5, h6⟩ := ih l1 h2 hd.2 hfound'
    refine ⟨l2, by rw [eraseParts, h1]; exact h4, h5, ?_⟩
    intro q
    rw [h6, h3]
    simp only [List.mem_cons, forall_eq_or_imp]
    tauto

/-- C6: the commit step of `mergeParts`, on part sets that are sets under the comparison
and for source parts that are pairwise distinct.  If every source part is found in the
active set, the step completes, the active set becomes `(active ∪ {new_part})` minus the
source parts and the set of all parts becomes `all ∪ {new_part}`, the sources staying
in it (the union being that of `std::set::insert`, which adds the part unless an
equivalent one is present).  If some source part is not found in the active set, the
step throws a `LogicalError` and leaves the state unchanged. -/
theorem commitMerge_swaps_or_throws (st : Storage) (new_data_part : DataPart)
    (parts : List DataPart)
    (hactive : st.data_parts.Pairwise DataPart.less)
    (hall : st.all_data_parts.Pairwise DataPart.less)
    (hdistinct : parts.Pairwise (fun a b => ¬ DataPart.equiv a b)) :
    ((∀ p ∈ parts, (DataParts.find p st.data_parts).isSome = true) →
      ∃ st1, commitMerge st new_data_part parts = .ok st1 ∧
        (∀ q, q ∈ st1.data_parts ↔
          (q ∈ st.data_parts ∨
            (q = new_data_part ∧ ∀ x ∈ st.data_parts, ¬ DataPart.equiv x new_data_part)) ∧
          ∀ p ∈ parts, ¬ DataPart.equiv q p) ∧
        (∀ q, q ∈ st1.all_data_parts ↔
          q ∈ st.all_data_parts ∨
            (q = new_data_part ∧ ∀ x ∈ st.all_data_parts, ¬ DataPart.equiv x new_data_part)) ∧
        st1.increment = st.increment ∧ st1.held = st.held) ∧
    ((∃ p ∈ parts, (DataParts.find p st.data_parts).isSome = false) →
      ∃ message, commitMerge st new_data_part parts = .thrown (.LOGICAL_ERROR message) st) := by
  constructor
  · intro hfound
    have hnone : parts.find? (fun p => (DataParts.find p st.data_parts).isNone) = none := by
      rw [List.find?_eq_none]
      intro x hx
      have := hfound x hx
      cases hf : DataParts.find x st.data_parts with
      | none => rw [hf] at this; simp at this
      | some _ => simp
    have hfound' : ∀ p ∈ parts, ∃ e ∈ DataParts.insert new_data_part st.data_parts,
        DataPart.equiv e p := by
      intro p hp
      have := hfound p hp
      by_contra hc
      push_neg at hc
      have hn : DataParts.find p st.data_parts = none := by
        rw [find_eq_none_iff]
        intro x hx
        exact hc x ((mem_insert_iff _ _ hactive x).mpr (Or.inl hx))
      rw [hn] at this
      simp at this
    obtain ⟨l1, h1, -, h3⟩ := eraseParts_spec parts _
      (pairwise_less_insert new_data_part _ hactive) hdistinct hfound'
    refine ⟨{ st with
        data_parts := l1
        all_data_parts := DataParts.insert new_data_part st.all_data_parts }, ?_, ?_, ?_, rfl, rfl⟩
    · unfold commitMerge
      rw [hnone]
      simp only [h1]
    · intro q
      show q ∈ l1 ↔ _
      rw [h3, mem_insert_iff _ _ hactive]
    · intro q
      exact mem_insert_iff _ _ hall q
  · rintro ⟨p, hp, hpn⟩
    unfold commitMerge
    cases hf : parts.find? (fun p => (DataParts.find p st.data_parts).isNone) with
    | some p1 => exact ⟨_, rfl⟩
    | none =>
      rw [List.find?_eq_none] at hf
      have := hf p hp
      cases hf2 : DataParts.find p st.data_parts with
      | none => rw [hf2] at this; simp at this
      | some _ => rw [hf2] at hpn; simp at hpn

/-- C6, at the example: the two parts chosen by `selectPartsToMerge` are found, and the
commit step completes. -/
theorem commitMerge_swaps_or_throws_witness :
    exampleSelected.data_parts.Pairwise DataPart.less ∧
      exampleSelected.all_data_parts.Pairwise DataPart.less ∧
      exampleChosen.Pairwise (fun a b => ¬ DataPart.equiv a b) ∧
      (∀ p ∈ exampleChosen, (DataParts.find p exampleSelected.data_parts).isSome = true) ∧
      ∃ st1, commitMerge exampleSelected exampleNewPart exampleChosen = .ok st1 ∧
        st1.increment = exampleSelected.increment :=
  ⟨by decide, by decide, by decide, by decide,
    ((commitMerge_swaps_or_throws exampleSelected exampleNewPart exampleChosen
      (by decide) (by decide) (by decide)).1 (by decide)).imp
        (fun _ h => ⟨h.1, h.2.2.2.1⟩)⟩

/-! ## Claims that fail on the code -/

/-- C7 on the code: for the source parts of `lateStorage`, of the dates `[110, 120]` and
`[101, 105]`, `mergeParts` builds a part with `left_date = 110` and `right_date = 105`,
the left date of the first source and the right date of the last one, while the
minimum of the left dates is 101 and the maximum of the right dates is 120. -/
theorem mergeParts_dates_failing_input :
    selectPartsToMerge 2 exampleSettings lateStorage [] = (true, lateChosen, lateSelected) ∧
      lateChosen.map (fun p => (p.left_date, p.right_date)) = [(110, 120), (101, 105)] ∧
      (lateChosen.map DataPart.left_date).min? = some 101 ∧
      (lateChosen.map DataPart.right_date).max? = some 120 ∧
      ∃ st2, mergeParts exampleLUT lateSelected lateChosen (.ok 4) 0 = .ok st2 ∧
        st2.data_parts.map (fun p => (p.left_date, p.right_date)) = [(110, 105)] := by
  refine ⟨by decide, by decide, by decide, by decide, ?_⟩
  exact ⟨match mergeParts exampleLUT lateSelected lateChosen (.ok 4) 0 with
    | .ok st => st
    | _ => Storage.empty, by decide, by decide⟩

/-- C5 on the code: with two rows to a mark, three blocks of one row each leave the
writer with one mark and one index entry, that of row 0; the global rows 0 and 2 and
`ceil (3 / 2) = 2` marks are what the claim states. -/
theorem write_marks_failing_input :
    MergedBlockOutputStream.writeAll 2 (MergedBlockOutputStream.init Nat) [[10], [20], [30]] =
        some ⟨1, 1, [10]⟩ ∧
      MergedBlockOutputStream.writeAll 2 (MergedBlockOutputStream.init Nat) [[10, 20, 30]] =
        some ⟨2, 1, [10, 30]⟩ ∧
      (3 + 2 - 1) / 2 = 2 := by
  decide

/-- C4 on the code: a part of the six rows with the keys 1 to 6, two rows to a mark, has
the index `[1, 3, 5]`.  Under the condition `key = 2 or key = 6`, whose
`mayBeTrueInRange` is true whenever a key of the range satisfies it,
`markRangeFromPkRange` returns the range `[0, 0]`, and the row with the key 6, which
satisfies the condition, lies in the granule 2. -/
theorem markRangeFromPkRange_failing_input :
    List.Pairwise (· ≤ ·) [1, 2, 3, 4, 5, 6] ∧
      MergedBlockOutputStream.writeAll 2 (MergedBlockOutputStream.init Nat) [[1, 2, 3, 4, 5, 6]] =
        some ⟨3, 0, [1, 3, 5]⟩ ∧
      twoOrSix.alwaysTrue = false ∧
      (∀ lo hi k : Nat, lo ≤ k → k ≤ hi → (k = 2 ∨ k = 6) →
        twoOrSix.mayBeTrueInRange lo hi = true) ∧
      markRangeFromPkRange 3 [1, 3, 5] twoOrSix = some (0, 0) ∧
      [1, 2, 3, 4, 5, 6].get? 5 = some 6 ∧ 5 / 2 = 2 ∧ ¬ (2 ≤ 0) := by
  refine ⟨by decide, by decide, rfl, ?_, by decide, by decide, by decide, by decide⟩
  intro lo hi k h1 h2 h3
  simp only [twoOrSix, decide_eq_true_eq]
  omega

/-! ## Index-range pruning -/

theorem scanIndex_no_match {K : Type} (key_condition : PkCondition K) (index : List K) :
    ∀ (current_mark_number : Nat) (s : MarkScan K),
      (∀ prev_pk ∈ s.prev_pk,
        List.Chain (fun a b => key_condition.mayBeTrueInRange a b = false) prev_pk index) →
      (s.prev_pk = none →
        List.Chain' (fun a b => key_condition.mayBeTrueInRange a b = false) index) →
      (scanIndex key_condition index current_mark_number s).min_mark_number =
          s.min_mark_number ∧
        (scanIndex key_condition index current_mark_number s).max_mark_number =
          s.max_mark_number ∧
        (index ≠ [] →
          (scanIndex key_condition index current_mark_number s).last_read_mark =
            some (((current_mark_number + index.length : Nat) : Int) - 1)) := by
  induction index with
  | nil => intro c s _ _; simp [scanIndex]
  | cons pk rest ih =>
    intro c s h1 h2
    rw [scanIndex]
    have hs1 : (match s.prev_pk with
        | some prev_pk =>
          if c > 0 ∧ key_condition.mayBeTrueInRange prev_pk pk = true then
            { s with
              min_mark_number := if s.min_mark_number = -1 then (c : Int) - 1 else s.min_mark_number
              max_mark_number := (c : Int) - 1 }
          else s
        | none => s) = s := by
      cases hp : s.prev_pk with
      | none => rfl
      | some prev_pk =>
        have := h1 prev_pk (by rw [hp]; rfl)
        rw [List.chain_cons] at this
        simp [this.1]
    simp only [hs1]
    have hchain : List.Chain (fun a b => key_condition.mayBeTrueInRange a b = false) pk rest := by
      cases hp : s.prev_pk with
      | none => exact h2 hp
      | some prev_pk =>
        have := h1 prev_pk (by rw [hp]; rfl)
        rw [List.chain_cons] at this
        exact this.2
    obtain ⟨i1, i2, i3⟩ := ih (c + 1)
      { s with prev_pk := some pk, last_read_mark := some (c : Int) }
      (by intro p hp; simp only [Option.mem_def, Option.some.injEq] at hp; subst hp; exact hchain)
      (by intro hc; simp at hc)
    refine ⟨i1, i2, ?_⟩
    intro _
    cases rest with
    | nil => simp [scanIndex]
    | cons pk2 rest2 =>
      rw [i3 (by simp)]
      simp only [List.length_cons, Nat.cast_add, Nat.cast_one]
      congr 1
      omega

/-- The range that `markRangeFromPkRange` returns when no pair of adjacent index entries
may hold the condition: the whole part. -/
theorem markRangeFromPkRange_no_match {K : Type} (marks_count : Nat) (index : List K)
    (key_condition : PkCondition K) (hlen : index.length = marks_count)
    (h2 : 2 ≤ marks_count) (halways : key_condition.alwaysTrue = false)
    (hnone : List.Chain' (fun a b => key_condition.mayBeTrueInRange a b = false) index) :
    markRangeFromPkRange marks_count index key_condition = some (0, marks_count - 1) := by
  have hne : index ≠ [] := by
    intro h; rw [h] at hlen; simp at hlen; omega
  obtain ⟨i1, i2, i3⟩ := scanIndex_no_match key_condition index 0 ⟨-1, -1, none, none⟩
    (by intro p hp; simp at hp) (fun _ => hnone)
  unfold markRangeFromPkRange
  simp only [halways, Bool.false_eq_true, if_false, i3 hne, i1, i2]
  have e1 : ¬ ((-1 : Int) = (index.length : Int) - 1 - 1) := by omega
  have e2 : marks_count ≠ 0 := by omega
  simp [e1, e2]

theorem selectRanges_mem {K : Type} (env : ReadEnv K) (l : List DataPartRange) :
    ∀ (parts : List DataPartRange) (sum_marks : Nat),
      selectRanges env l = some (parts, sum_marks) →
      ∀ r ∈ l, ∃ first_mark last_mark,
        markRangeFromPkRange r.data_part.size (env.primary_idx r.data_part) env.key_condition =
          some (first_mark, last_mark) ∧
        (⟨r.data_part, first_mark, last_mark⟩ : DataPartRange) ∈ parts := by
  induction l with
  | nil => intro _ _ _ r hr; simp at hr
  | cons a rest ih =>
    intro parts sum_marks h r hr
    rw [selectRanges] at h
    cases hm : markRangeFromPkRange a.data_part.size (env.primary_idx a.data_part)
        env.key_condition with
    | none => rw [hm] at h; simp at h
    | some fl =>
      obtain ⟨f, la⟩ := fl
      rw [hm] at h
      cases hrest : selectRanges env rest with
      | none => rw [hrest] at h; simp at h
      | some ps =>
        obtain ⟨parts1, sum1⟩ := ps
        rw [hrest] at h
        simp only [Option.some.injEq, Prod.mk.injEq] at h
        obtain ⟨hparts, -⟩ := h
        subst hparts
        rcases List.mem_cons.mp hr with hr | hr
        · subst hr
          exact ⟨f, la, hm, List.mem_cons_self _ _⟩
        · obtain ⟨f1, l1, h3, h4⟩ := ih parts1 sum1 hrest r hr
          exact ⟨f1, l1, h3, List.mem_cons_of_mem _ h4⟩

/-! ## The read planner -/

/-- C8 fails as stated: the first part of the example has two marks and the index
`[10, 30]`, the key condition is not always true and holds in no range, and `read`
still creates a stream for the part, from mark 0 over all its `2 * 2` rows. -/
theorem read_no_match_counterexample :
    examplePart1 ∈ exampleStorage.data_parts ∧ 2 ≤ examplePart1.size ∧
      exampleReadEnv.primary_idx examplePart1 = [10, 30] ∧
      exampleReadEnv.key_condition.alwaysTrue = false ∧
      exampleReadEnv.key_condition.mayBeTrueInRange 10 30 = false ∧
      ∃ streams, read 2 exampleSettings exampleReadEnv exampleStorage 1 =
          .ok [BlockInputStream.concat streams] ∧
        (⟨examplePart1, 0, 4⟩ : MergeTreeBlockInputStream) ∈ streams := by
  refine ⟨by decide, by decide, by decide, rfl, rfl,
    [⟨examplePart1, 0, 4⟩, ⟨exampleStorage.data_parts.getLast (by decide), 0, 2⟩], by decide,
    by decide⟩

/-- C8 as amended: for a part of at least two marks that passes the date condition, and
a key condition that is not always true and may hold for no pair of adjacent index
entries, `markRangeFromPkRange` returns the whole part, `out_first_mark = 0` and
`out_last_mark = size - 1`, and `read` keeps the part in its plan with that range. -/
theorem read_keeps_part_without_match {K : Type} (env : ReadEnv K) (st : Storage)
    (p : DataPart) (hp : p ∈ st.data_parts)
    (hdate : env.date_condition.mayBeTrueInRange p.left_date p.right_date = true)
    (hlen : (env.primary_idx p).length = p.size) (h2 : 2 ≤ p.size)
    (halways : env.key_condition.alwaysTrue = false)
    (hnone : List.Chain' (fun a b => env.key_condition.mayBeTrueInRange a b = false)
      (env.primary_idx p)) :
    markRangeFromPkRange p.size (env.primary_idx p) env.key_condition =
        some (0, p.size - 1) ∧
      ∀ parts sum_marks,
        selectRanges env (selectByDate env.date_condition st.data_parts) =
          some (parts, sum_marks) →
        (⟨p, 0, p.size - 1⟩ : DataPartRange) ∈ parts := by
  have hrange := markRangeFromPkRange_no_match p.size (env.primary_idx p) env.key_condition
    hlen h2 halways hnone
  refine ⟨hrange, ?_⟩
  intro parts sum_marks hsel
  have hmem : (⟨p, 0, 0⟩ : DataPartRange) ∈ selectByDate env.date_condition st.data_parts := by
    unfold selectByDate
    exact List.mem_map.mpr ⟨p, List.mem_filter.mpr ⟨hp, hdate⟩, rfl⟩
  obtain ⟨f, la, h3, h4⟩ := selectRanges_mem env _ parts sum_marks hsel _ hmem
  simp only at h3 h4
  rw [hrange] at h3
  simp only [Option.some.injEq, Prod.mk.injEq] at h3
  rw [← h3.1, ← h3.2] at h4
  exact h4

/-- C8 as amended, at the first part of the example. -/
theorem read_keeps_part_without_match_witness :
    examplePart1 ∈ exampleStorage.data_parts ∧
      (exampleReadEnv.primary_idx examplePart1).length = examplePart1.size ∧
      2 ≤ examplePart1.size ∧
      markRangeFromPkRange examplePart1.size (exampleReadEnv.primary_idx examplePart1)
        exampleReadEnv.key_condition = some (0, examplePart1.size - 1) :=
  ⟨by decide, by decide, by decide,
    (read_keeps_part_without_match exampleReadEnv exampleStorage examplePart1 (by decide) rfl
      (by decide) (by decide) rfl
      (by simp [exampleReadEnv, examplePart1, neverTrue])).1⟩

/-! ## The merge thread -/

theorem mergeParts_thrown_state (lut : DateLUT) (st : Storage) (parts : List DataPart)
    (copied : Except Exception Nat) (now : Nat) (e : Exception) (st2 : Storage)
    (h : mergeParts lut st parts copied now = .thrown e st2) : st2 = st := by
  unfold mergeParts at h
  split at h
  · cases copied with
    | error e1 =>
      simp only [Outcome.thrown.injEq] at h
      exact h.2.symm
    | ok marks_count =>
      simp only at h
      unfold commitMerge at h
      split at h
      · simp only [Outcome.thrown.injEq] at h
        exact h.2.symm
      · split at h <;> simp at h
  · simp at h

theorem selectPartsToMerge_found_any (index_granularity : Nat)
    (settings : StorageMergeTreeSettings) (st : Storage) (parts0 parts : List DataPart)
    (st1 : Storage)
    (h : selectPartsToMerge index_granularity settings st parts0 = (true, parts, st1))
    (parts0' : List DataPart) :
    selectPartsToMerge index_granularity settings st parts0' = (true, parts, st1) := by
  unfold selectPartsToMerge at h ⊢
  by_cases hf : (selectLoop index_granularity settings st.data_parts 0 SelectState.init).found
      = true
  · simp only [hf, if_true] at h ⊢
    exact h
  · simp [hf] at h

/-- C9 fails as stated: on the table of the example, with a merge whose copy of the data
throws, `mergeThread` returns with the two chosen parts still in the active set and
with `currently_merging = true` on both, and the next `selectPartsToMerge` finds
nothing to merge. -/
theorem mergeThread_flag_counterexample :
    selectPartsToMerge 2 exampleSettings exampleStorage [] =
        (true, exampleChosen, exampleSelected) ∧
      mergeParts exampleLUT exampleSelected exampleChosen (failingEnv.copyData exampleChosen)
          failingEnv.now =
        .thrown (.external "cannot read part") exampleSelected ∧
      mergeThread exampleLUT 2 exampleSettings failingEnv false exampleStorage =
        some (.ok (exampleSelected, some (.external "cannot read part"))) ∧
      (∀ p ∈ exampleChosen, p ∈ exampleSelected.data_parts ∧ p.currently_merging = true) ∧
      (selectPartsToMerge 2 exampleSettings exampleSelected []).1 = false := by
  refine ⟨by decide, by decide, by decide, by decide, by decide⟩

/-- C9 as amended: when `selectPartsToMerge` has chosen parts and the `mergeParts` that
follows throws, the loop of `mergeThread` ends with that exception, `mergeThread` catches
it and returns, and then the chosen parts are still in the active set and each of them
has `currently_merging = true`; a later `selectPartsToMerge` takes none of them into the
run it chooses. -/
theorem mergeThread_failed_merge_keeps_flag (lut : DateLUT) (index_granularity : Nat)
    (settings : StorageMergeTreeSettings) (env : MergeEnv) (while_can : Bool) (st : Storage)
    (parts0 parts : List DataPart) (st1 : Storage) (e : Exception) (st2 : Storage)
    (hsel : selectPartsToMerge index_granularity settings st parts0 = (true, parts, st1))
    (hmerge : mergeParts lut st1 parts (env.copyData parts) env.now = .thrown e st2) :
    (∀ fuel, mergeThreadLoop lut index_granularity settings env while_can (fuel + 1) st parts0 =
      some (.thrown e st2)) ∧
    mergeThread lut index_granularity settings env while_can st = some (.ok (st2, some e)) ∧
    (∀ p ∈ parts, p ∈ st2.data_parts ∧ p.currently_merging = true) ∧
    (∀ parts0' parts' st3,
      selectPartsToMerge index_granularity settings st2 parts0' = (true, parts', st3) →
      ∃ pre run post, st2.data_parts = pre ++ run ++ post ∧
        parts' = run.map DataPart.setMerging ∧ ∀ p ∈ parts, p ∉ run) := by
  have hst2 := mergeParts_thrown_state lut st1 parts _ _ e st2 hmerge
  have hloop : ∀ (fuel : Nat) (parts0' : List DataPart),
      mergeThreadLoop lut index_granularity settings env while_can (fuel + 1) st parts0' =
        some (.thrown e st2) := by
    intro fuel parts0'
    rw [mergeThreadLoop,
      selectPartsToMerge_found_any index_granularity settings st parts0 parts st1 hsel parts0']
    simp only [hmerge]
  have hflag : ∀ p ∈ parts, p ∈ st2.data_parts ∧ p.currently_merging = true := by
    obtain ⟨pre, run, post, -, -, hparts, hst1⟩ :=
      selectPartsToMerge_found index_granularity settings st parts0 parts st1 hsel
    intro p hp
    rw [hst2, hst1, ← hparts]
    refine ⟨by simp [hp], ?_⟩
    rw [hparts] at hp
    obtain ⟨q, -, rfl⟩ := List.mem_map.mp hp
    rfl
  refine ⟨fun fuel => hloop fuel parts0, ?_, hflag, ?_⟩
  · unfold mergeThread
    rw [hloop]
  · intro parts0' parts' st3 hsel'
    obtain ⟨pre, run, post, hdp, ⟨-, -, ⟨month, hm⟩, -, -⟩, hparts', -⟩ :=
      selectPartsToMerge_found index_granularity settings st2 parts0' parts' st3 hsel'
    refine ⟨pre, run, post, hdp, hparts', ?_⟩
    intro p hp hrun
    have h1 := (hm p hrun).1
    have h2 := (hflag p hp).2
    rw [h1] at h2
    simp at h2

/-- C9 as amended, at the table of the example with a copy that throws. -/
theorem mergeThread_failed_merge_keeps_flag_witness :
    selectPartsToMerge 2 exampleSettings exampleStorage [] =
        (true, exampleChosen, exampleSelected) ∧
      mergeParts exampleLUT exampleSelected exampleChosen (failingEnv.copyData exampleChosen)
          failingEnv.now =
        .thrown (.external "cannot read part") exampleSelected ∧
      ∀ p ∈ exampleChosen, p ∈ exampleSelected.data_parts ∧ p.currently_merging = true :=
  ⟨by decide, by decide,
    (mergeThread_failed_merge_keeps_flag exampleLUT 2 exampleSettings failingEnv false
      exampleStorage [] exampleChosen exampleSelected (.external "cannot read part")
      exampleSelected (by decide) (by decide)).2.2.1⟩

/-! ## Loading the parts -/

theorem removeContained_subset (rest : List DataPart) :
    ∀ (prev x : DataPart), x ∈ removeContained prev rest → x = prev ∨ x ∈ rest := by
  induction rest with
  | nil => intro prev x h; simp [removeContained] at h; exact Or.inl h
  | cons curr rest ih =>
    intro prev x h
    rw [removeContained] at h
    split_ifs at h with h1 h2 h3
    · rcases List.mem_cons.mp h with h | h
      · exact Or.inl h
      · rcases ih curr x h with h | h
        · exact Or.inr (by simp [h])
        · exact Or.inr (by simp [h])
    · rcases ih curr x h with h | h
      · exact Or.inr (by simp [h])
      · exact Or.inr (by simp [h])
    · rcases ih prev x h with h | h
      · exact Or.inl h
      · exact Or.inr (by simp [h])
    · rcases List.mem_cons.mp h with h | h
      · exact Or.inl h
      · rcases ih curr x h with h | h
        · exact Or.inr (by simp [h])
        · exact Or.inr (by simp [h])

theorem not_mem_of_pairwise_less (a : DataPart) (l : List DataPart)
    (h : (a :: l).Pairwise DataPart.less) : a ∉ l := by
  intro ha
  exact less_irrefl a ((List.pairwise_cons.mp h).1 a ha)

/-- A part under `prev_jt` that a later part of its month contains is removed. -/
theorem removeContained_later (b a : DataPart) (rest : List DataPart)
    (hs : (b :: rest).Pairwise DataPart.less) (ha : a ∈ rest)
    (hsingle : ∀ p ∈ b :: rest, p.left_month = b.left_month → p.left_month = p.right_month)
    (hm : a.left_month = b.left_month) (hl : a.left ≤ b.left) (hr : a.right ≥ b.right) :
    b ∉ removeContained b rest := by
  cases rest with
  | nil => simp at ha
  | cons curr rest =>
    rw [List.pairwise_cons, List.pairwise_cons] at hs
    obtain ⟨hb, hc, hrest⟩ := hs
    have hbc := hb curr (by simp)
    have hba := hb a ha
    have hca : curr = a ∨ DataPart.less curr a := by
      rcases List.mem_cons.mp ha with h | h
      · exact Or.inl h.symm
      · exact Or.inr (hc a h)
    have hcm : curr.left_month = b.left_month := by
      rcases hca with h | h
      · rw [h]; exact hm
      · unfold DataPart.less at hbc h; omega
    have hcs := hsingle curr (by simp) hcm
    have hbs := hsingle b (by simp) rfl
    have hcont : curr.contains b := by
      unfold DataPart.contains
      rcases hca with h | h
      · rw [h]; exact ⟨hl, hr⟩
      · unfold DataPart.less at hbc h; omega
    rw [removeContained, if_neg (by omega), if_pos hcont]
    intro hmem
    rcases removeContained_subset rest curr b hmem with h | h
    · rw [h] at hbc; exact less_irrefl _ hbc
    · exact less_irrefl _ (hb b (by simp [h]))

/-- A part of the month of `prev_jt` whose ids the part under `prev_jt` contains, with
another id interval, is removed. -/
theorem removeContained_dominated (b : DataPart) (rest : List DataPart) :
    ∀ prev : DataPart, (prev :: rest).Pairwise DataPart.less →
      (∀ p ∈ prev :: rest, p.left_month = b.left_month → p.left_month = p.right_month) →
      prev.left_month = b.left_month → b ∈ rest → prev.right ≥ b.right →
      ¬ (prev.left = b.left ∧ prev.right = b.right) →
      b ∉ removeContained prev rest := by
  induction rest with
  | nil => intro _ _ _ _ hb; simp at hb
  | cons curr rest ih =>
    intro prev hs hsingle hpm hb hright hstrict
    have hs' := hs
    rw [List.pairwise_cons, List.pairwise_cons] at hs
    obtain ⟨hp, hc, hrest⟩ := hs
    have hpc := hp curr (by simp)
    have hpb := hp b hb
    have hcb : curr = b ∨ DataPart.less curr b := by
      rcases List.mem_cons.mp hb with h | h
      · exact Or.inl h.symm
      · exact Or.inr (hc b h)
    have hcm : curr.left_month = b.left_month := by
      rcases hcb with h | h
      · rw [h]
      · unfold DataPart.less at hpc h; omega
    have hcs := hsingle curr (by simp) hcm
    have hps := hsingle prev (by simp) hpm
    have hsc : (curr :: rest).Pairwise DataPart.less := List.pairwise_cons.mpr ⟨hc, hrest⟩
    have hsp : (prev :: rest).Pairwise DataPart.less :=
      List.pairwise_cons.mpr ⟨fun x hx => hp x (by simp [hx]), hrest⟩
    rw [removeContained, if_neg (by omega)]
    by_cases h2 : curr.contains prev
    · rw [if_pos h2]
      rcases List.mem_cons.mp hb with h | h
      · exfalso
        subst h
        unfold DataPart.contains at h2
        unfold DataPart.less at hpc
        omega
      · apply ih curr hsc (fun p hp' => hsingle p (by simp [List.mem_cons.mp hp'])) hcm h
        · unfold DataPart.contains at h2; omega
        · unfold DataPart.contains at h2
          unfold DataPart.less at hpc
          omega
    · rw [if_neg h2]
      by_cases h3 : prev.contains curr
      · rw [if_pos h3]
        rcases List.mem_cons.mp hb with h | h
        · subst h
          intro hmem
          rcases removeContained_subset rest prev b hmem with h | h
          · rw [h] at hpc; exact less_irrefl _ hpc
          · exact not_mem_of_pairwise_less b rest hsc h
        · exact ih prev hsp (fun p hp' => hsingle p (by
            rcases List.mem_cons.mp hp' with h | h
            · simp [h]
            · simp [h])) hpm h hright hstrict
      · rw [if_neg h3]
        intro hmem
        rcases List.mem_cons.mp hmem with h | hmem
        · rw [h] at hpb; exact less_irrefl _ hpb
        · rcases List.mem_cons.mp hb with h | h
          · subst h
            unfold DataPart.contains at h3
            unfold DataPart.less at hpc
            omega
          · refine ih curr hsc (fun p hp' => hsingle p (by simp [List.mem_cons.mp hp'])) hcm h
              ?_ ?_ hmem
            · unfold DataPart.contains at h3
              unfold DataPart.less at hpc
              omega
            · unfold DataPart.contains at h3
              unfold DataPart.less at hpc
              omega

theorem removeContained_contained (a b : DataPart) (rest : List DataPart) :
    ∀ prev : DataPart, (prev :: rest).Pairwise DataPart.less →
      (∀ p ∈ prev :: rest, p.left_month = b.left_month → p.left_month = p.right_month) →
      a ∈ prev :: rest → b ∈ prev :: rest → a.left_month = b.left_month →
      a.left ≤ b.left → a.right ≥ b.right →
      (¬ (a.left = b.left ∧ a.right = b.right) ∨ b.level < a.level) →
      b ∉ removeContained prev rest := by
  induction rest with
  | nil =>
    intro prev _ _ ha hb _ _ _ hstrict
    simp only [List.mem_singleton] at ha hb
    subst ha; subst hb
    omega
  | cons curr rest ih =>
    intro prev hs hsingle ha hb hm hl hr hstrict
    have hs' := hs
    rw [List.pairwise_cons, List.pairwise_cons] at hs
    obtain ⟨hp, hc, hrest⟩ := hs
    have hsc : (curr :: rest).Pairwise DataPart.less := List.pairwise_cons.mpr ⟨hc, hrest⟩
    have hsp : (prev :: rest).Pairwise DataPart.less :=
      List.pairwise_cons.mpr ⟨fun x hx => hp x (by simp [hx]), hrest⟩
    have hsingle_c : ∀ p ∈ curr :: rest, p.left_month = b.left_month →
        p.left_month = p.right_month := fun p hp' => hsingle p (by simp [List.mem_cons.mp hp'])
    have hsingle_p : ∀ p ∈ prev :: rest, p.left_month = b.left_month →
        p.left_month = p.right_month := fun p hp' => hsingle p (by
      rcases List.mem_cons.mp hp' with h | h
      · simp [h]
      · simp [h])
    have hab : a ≠ b := by
      intro h; subst h; omega
    rcases List.mem_cons.mp hb with hb1 | hb1
    · -- the contained part is under `prev_jt`
      subst hb1
      have ha' : a ∈ curr :: rest := by
        rcases List.mem_cons.mp ha with h | h
        · exact absurd h hab
        · exact h
      exact removeContained_later b a (curr :: rest) hs' ha' hsingle hm hl hr
    clear hb
    rename' hb1 => hb
    rcases List.mem_cons.mp ha with ha1 | ha1
    · -- the containing part is under `prev_jt`
      subst ha1
      have hless := hp b hb
      refine removeContained_dominated b (curr :: rest) a hs' hsingle hm hb hr ?_
      unfold DataPart.less at hless
      omega
    clear ha
    rename' ha1 => ha
    -- both parts come later
    have hpb := hp b hb
    have hbp : b ≠ prev := by
      intro h; rw [h] at hpb; exact less_irrefl _ hpb
    rw [removeContained]
    by_cases h1 : curr.left_month ≠ curr.right_month ∨ curr.right_month ≠ prev.left_month ∨
        prev.left_month ≠ prev.right_month
    · rw [if_pos h1]
      intro hmem
      rcases List.mem_cons.mp hmem with h | h
      · exact hbp h
      · exact ih curr hsc hsingle_c ha hb hm hl hr hstrict h
    rw [if_neg h1]
    by_cases h2 : curr.contains prev
    · rw [if_pos h2]
      exact ih curr hsc hsingle_c ha hb hm hl hr hstrict
    rw [if_neg h2]
    by_cases h3 : prev.contains curr
    · rw [if_pos h3]
      rcases List.mem_cons.mp hb with hbc | hbr
      · subst hbc
        intro hmem
        rcases removeContained_subset rest prev b hmem with h | h
        · exact hbp h
        · exact not_mem_of_pairwise_less b rest hsc h
      · rcases List.mem_cons.mp ha with hac | har
        · subst hac
          have hless := hc b hbr
          refine removeContained_dominated b rest prev hsp hsingle_p ?_ hbr ?_ ?_
          · omega
          · unfold DataPart.contains at h3; omega
          · have hpa := hp a (by simp)
            unfold DataPart.contains at h3
            unfold DataPart.less at hless hpa
            omega
        · exact ih prev hsp hsingle_p (by simp [har]) (by simp [hbr]) hm hl hr hstrict
    · rw [if_neg h3]
      intro hmem
      rcases List.mem_cons.mp hmem with h | h
      · exact hbp h
      · exact ih curr hsc hsingle_c ha hb hm hl hr hstrict h

theorem mem_insert_of_mem {p x : DataPart} {l : DataParts} (h : x ∈ l) :
    x ∈ DataParts.insert p l := by
  induction l with
  | nil => simp at h
  | cons q rest ih =>
    rw [DataParts.insert]
    split_ifs with h1 h2
    · exact List.mem_cons_of_mem _ h
    · rcases List.mem_cons.mp h with h | h
      · simp [h]
      · exact List.mem_cons_of_mem _ (ih h)
    · exact h

theorem exists_equiv_insert (p : DataPart) (l : DataParts) :
    ∃ q ∈ DataParts.insert p l, DataPart.equiv q p := by
  induction l with
  | nil => exact ⟨p, by simp [DataParts.insert], equiv_refl p⟩
  | cons a rest ih =>
    rw [DataParts.insert]
    split_ifs with h1 h2
    · exact ⟨p, by simp, equiv_refl p⟩
    · obtain ⟨q, hq, he⟩ := ih
      exact ⟨q, List.mem_cons_of_mem _ hq, he⟩
    · exact ⟨a, by simp, ⟨h2, h1⟩⟩

theorem loadedParts_spec (lut : DateLUT) (dir : Directory) (names : List String) :
    ∀ acc acc1 : DataParts, acc.Pairwise DataPart.less →
      loadedParts lut dir names acc = .ok acc1 →
      acc1.Pairwise DataPart.less ∧
      (∀ x ∈ acc, x ∈ acc1) ∧
      (∀ file_name ∈ names, ∀ part, loadPart lut dir file_name = .part part →
        ∃ q ∈ acc1, DataPart.equiv q part) ∧
      (∀ x ∈ acc1, x ∈ acc ∨ ∃ file_name ∈ names, loadPart lut dir file_name = .part x) := by
  induction names with
  | nil =>
    intro acc acc1 h hload
    rw [loadedParts] at hload
    simp only [Outcome.ok.injEq] at hload
    subst hload
    exact ⟨h, fun x hx => hx, by simp, fun x hx => Or.inl hx⟩
  | cons n rest ih =>
    intro acc acc1 h hload
    rw [loadedParts] at hload
    cases hl : loadPart lut dir n with
    | skipped =>
      rw [hl] at hload
      obtain ⟨i1, i2, i3, i4⟩ := ih acc acc1 h hload
      refine ⟨i1, i2, ?_, ?_⟩
      · intro f hf part hpart
        rcases List.mem_cons.mp hf with hf | hf
        · subst hf; rw [hl] at hpart; simp at hpart
        · exact i3 f hf part hpart
      · intro x hx
        rcases i4 x hx with h4 | ⟨f, hf, hfe⟩
        · exact Or.inl h4
        · exact Or.inr ⟨f, List.mem_cons_of_mem _ hf, hfe⟩
    | unparsed =>
      rw [hl] at hload
      simp at hload
    | part p =>
      rw [hl] at hload
      obtain ⟨i1, i2, i3, i4⟩ :=
        ih (DataParts.insert p acc) acc1 (pairwise_less_insert p acc h) hload
      refine ⟨i1, fun x hx => i2 x (mem_insert_of_mem hx), ?_, ?_⟩
      · intro f hf part hpart
        rcases List.mem_cons.mp hf with hf | hf
        · subst hf
          rw [hl] at hpart
          simp only [LoadedEntry.part.injEq] at hpart
          subst hpart
          obtain ⟨q, hq, he⟩ := exists_equiv_insert p acc
          exact ⟨q, i2 q hq, he⟩
        · exact i3 f hf part hpart
      · intro x hx
        rcases i4 x hx with h4 | ⟨f, hf, hfe⟩
        · rcases (mem_insert_iff p acc h x).1 h4 with h5 | ⟨h5, -⟩
          · exact Or.inl h5
          · exact Or.inr ⟨n, List.mem_cons_self _ _, by rw [hl, h5]⟩
        · exact Or.inr ⟨f, List.mem_cons_of_mem _ hf, hfe⟩

/-- What `loadDataParts` returns: the set of all parts is the set that the first loop
builds, and the active set is what the sweep leaves of it. -/
theorem loadDataParts_ok (lut : DateLUT) (dir : Directory) (st st1 : Storage)
    (h : loadDataParts lut dir st = .ok st1) :
    loadedParts lut dir dir.names [] = .ok st1.all_data_parts ∧
      st1.data_parts =
        (match st1.all_data_parts with
          | prev :: curr :: rest => removeContained prev (curr :: rest)
          | _ => st1.all_data_parts) := by
  unfold loadDataParts at h
  cases hl : loadedParts lut dir dir.names [] with
  | undefined => rw [hl] at h; simp at h
  | thrown e data_parts => rw [hl] at h; simp at h
  | ok data_parts =>
    rw [hl] at h
    simp only [Outcome.ok.injEq] at h
    subst h
    exact ⟨rfl, rfl⟩

/-- C10 fails as stated, in two ways.  After `loadDataParts` over `recoveryDirectory` the
set of all parts holds the five parts and the active set four of them.  The part of
the ids `[3, 4]` is still active although the part of the ids `[1, 10]` of the same
month contains it: a part that spans two months stands between them.  And the part of
the ids `[20, 25]` and level 2 is still active although the part of the same ids and
level 1 has `left ≤` and `right ≥` its own. -/
theorem loadDataParts_contained_counterexample :
    loadDataParts exampleLUT recoveryDirectory Storage.empty = .ok recoveryLoaded ∧
    recoveryLoaded.all_data_parts.map
        (fun p => (p.left_month, p.right_month, p.left, p.right, p.level)) =
      [(100, 100, 1, 10, 2), (100, 200, 2, 2, 0), (100, 100, 3, 4, 1), (100, 100, 20, 25, 1),
        (100, 100, 20, 25, 2)] ∧
    recoveryLoaded.data_parts.map
        (fun p => (p.left_month, p.right_month, p.left, p.right, p.level)) =
      [(100, 100, 1, 10, 2), (100, 200, 2, 2, 0), (100, 100, 3, 4, 1), (100, 100, 20, 25, 2)] ∧
    ¬ (∀ a ∈ recoveryLoaded.all_data_parts, ∀ b ∈ recoveryLoaded.all_data_parts, a ≠ b →
        a.left_month = a.right_month → b.left_month = b.right_month →
        a.left_month = b.left_month → a.left ≤ b.left → a.right ≥ b.right →
        b ∉ recoveryLoaded.data_parts) := by
  refine ⟨by decide, by decide, by decide, ?_⟩
  intro h
  exact h
    { left_date := 101, right_date := 110, left := 1, right := 10, level := 2,
      name := "20240101_20240110_1_10_2", size := 2, modification_time := 0,
      left_month := 100, right_month := 100, currently_merging := false } (by decide)
    { left_date := 102, right_date := 109, left := 3, right := 4, level := 1,
      name := "20240102_20240109_3_4_1", size := 2, modification_time := 0,
      left_month := 100, right_month := 100, currently_merging := false } (by decide)
    (by decide) (by decide) (by decide) (by decide) (by decide) (by decide) (by decide)

/-- C10 as amended: let `A` and `B` be two parts that `loadDataParts` has loaded, of the
same month, with `A.left ≤ B.left` and `A.right ≥ B.right`, whose id intervals differ or
else with `A` of the higher level, and let no loaded part that starts in this month span
more than one month.  Then after `loadDataParts` the part `B` is not in the active set,
while the set of all parts is the set of the loaded parts and holds `A` and `B`; and for
every directory entry whose name matches, the set of all parts holds its part or a part
equivalent to it. -/
theorem loadDataParts_removes_contained (lut : DateLUT) (dir : Directory) (st st1 : Storage)
    (a b : DataPart) (hload : loadDataParts lut dir st = .ok st1)
    (ha : a ∈ st1.all_data_parts) (hb : b ∈ st1.all_data_parts)
    (hsingle : ∀ p ∈ st1.all_data_parts, p.left_month = b.left_month →
      p.left_month = p.right_month)
    (hm : a.left_month = b.left_month) (hl : a.left ≤ b.left) (hr : a.right ≥ b.right)
    (hstrict : ¬ (a.left = b.left ∧ a.right = b.right) ∨ b.level < a.level) :
    b ∉ st1.data_parts ∧
      loadedParts lut dir dir.names [] = .ok st1.all_data_parts ∧
      a ∈ st1.all_data_parts ∧
      b ∈ st1.all_data_parts ∧
      (∀ file_name ∈ dir.names, ∀ part, loadPart lut dir file_name = .part part →
        ∃ q ∈ st1.all_data_parts, DataPart.equiv q part) := by
  obtain ⟨hall, hdata⟩ := loadDataParts_ok lut dir st st1 hload
  obtain ⟨hsorted, -, hequiv, -⟩ :=
    loadedParts_spec lut dir dir.names [] st1.all_data_parts List.Pairwise.nil hall
  refine ⟨?_, hall, ha, hb, hequiv⟩
  rw [hdata]
  have hab : a ≠ b := by
    intro h; subst h; omega
  generalize st1.all_data_parts = l at ha hb hsingle hsorted
  match l, ha, hb, hsingle, hsorted with
  | [], ha, _, _, _ => simp at ha
  | [x], ha, hb, _, _ =>
    simp only [List.mem_singleton] at ha hb
    exact absurd (ha.trans hb.symm) hab
  | prev :: curr :: rest, ha, hb, hsingle, hsorted =>
    exact removeContained_contained a b (curr :: rest) prev hsorted hsingle ha hb hm hl hr hstrict

/-- C10 as amended, at the recovery scenario of the spec: the part of the ids `[2, 4]`
leaves the active set and both parts stay in the set of all parts. -/
theorem loadDataParts_removes_contained_witness :
    loadDataParts exampleLUT scenarioDirectory Storage.empty = .ok scenarioLoaded ∧
      scenarioOuter ∈ scenarioLoaded.all_data_parts ∧
      scenarioInner ∈ scenarioLoaded.all_data_parts ∧
      scenarioInner ∉ scenarioLoaded.data_parts ∧
      loadedParts exampleLUT scenarioDirectory scenarioDirectory.names [] =
        .ok scenarioLoaded.all_data_parts :=
  ⟨by decide, by decide, by decide,
    (loadDataParts_removes_contained exampleLUT scenarioDirectory Storage.empty scenarioLoaded
      scenarioOuter scenarioInner (by decide) (by decide) (by decide) (by decide) (by decide)
      (by decide) (by decide) (by decide)).1,
    (loadDataParts_removes_contained exampleLUT scenarioDirectory Storage.empty scenarioLoaded
      scenarioOuter scenarioInner (by decide) (by decide) (by decide) (by decide) (by decide)
      (by decide) (by decide) (by decide)).2.1⟩

/-! ## The ids of the chosen parts -/

/-- C15 on the code: the active set loaded from `overlapDirectory` holds the parts of the
ids `[1, 5]` and `[5, 8]`; `selectPartsToMerge` returns both, the second after the first,
although the left id 5 of the second is not greater than the right id 5 of the first:
the loop breaks on `left < cur_id` only. -/
theorem selectPartsToMerge_overlap_failing_input :
    loadDataParts exampleLUT overlapDirectory Storage.empty = .ok overlapLoaded ∧
    overlapLoaded.data_parts.map (fun p => (p.left_month, p.left, p.right)) =
        [(100, 1, 5), (100, 5, 8)] ∧
      (selectPartsToMerge 2 exampleSettings overlapLoaded []).1 = true ∧
      (selectPartsToMerge 2 exampleSettings overlapLoaded []).2.1.map
          (fun p => (p.left, p.right)) = [(1, 5), (5, 8)] ∧
      ¬ (5 > 5) := by
  decide

/-! ## The reclamation of old parts -/

theorem find_isSome_iff (p : DataPart) (l : DataParts) :
    (DataParts.find p l).isSome = true ↔ ∃ x ∈ l, DataPart.equiv x p := by
  constructor
  · intro h
    by_contra hc
    push_neg at hc
    rw [(find_eq_none_iff p l).mpr hc] at h
    simp at h
  · rintro ⟨x, hx, he⟩
    cases hf : DataParts.find p l with
    | none => exact absurd he ((find_eq_none_iff p l).mp hf x hx)
    | some _ => rfl

/-- C17: counting one reference for each of the two sets that holds a part and one for
each reader that holds it, `clearOldParts` with the lock obtained removes from the set of
all parts exactly the parts whose reference count is 1, which are the parts that the
active set does not hold and no reader holds, and keeps every other part in its place;
the active set is not changed.  When the lock is already held the call changes
nothing. -/
theorem clearOldParts_removes_unreferenced (st : Storage) :
    (∀ q, q ∈ (clearOldParts true st).all_data_parts ↔
      q ∈ st.all_data_parts ∧ referenceCount st q ≠ 1) ∧
    (∀ q, referenceCount st q = 1 ↔
      ((¬ ∃ x ∈ st.data_parts, DataPart.equiv x q) ∧ ∀ r ∈ st.held, ¬ DataPart.equiv r q)) ∧
    (clearOldParts true st).all_data_parts.Sublist st.all_data_parts ∧
    (clearOldParts true st).data_parts = st.data_parts ∧
    (clearOldParts true st).held = st.held ∧
    clearOldParts false st = st := by
  refine ⟨?_, ?_, ?_, rfl, rfl, rfl⟩
  · intro q
    simp [clearOldParts, List.mem_filter]
  · intro q
    unfold referenceCount
    rw [← find_isSome_iff]
    have hc : List.countP (fun r => decide (DataPart.equiv r q)) st.held = 0 ↔
        ∀ r ∈ st.held, ¬ DataPart.equiv r q := by
      rw [List.countP_eq_zero]
      simp
    rw [← hc]
    cases hf : (DataParts.find q st.data_parts).isSome with
    | true => simp only [if_true, Bool.true_eq_false, not_true_eq_false, false_and, iff_false]; omega
    | false => simp only [Bool.false_eq_true, if_false, not_false_eq_true, true_and]; omega
  · simp only [clearOldParts, if_neg (by decide : ¬ (true = false))]
    exact List.filter_sublist _

/-! ## The range of marks of a condition that matches -/

theorem getElem?_of_drop_eq_cons {α : Type} (l : List α) (c : Nat) (a : α) (rest : List α)
    (h : l.drop c = a :: rest) : l[c]? = some a ∧ l.drop (c + 1) = rest := by
  constructor
  · have := List.getElem?_drop l c 0
    rw [h] at this
    simpa using this.symm
  · rw [← List.drop_drop, h]; rfl

theorem scanIndex_last_read_mark {K : Type} (key_condition : PkCondition K) (suffix : List K) :
    ∀ (c : Nat) (s : MarkScan K), suffix ≠ [] →
      (scanIndex key_condition suffix c s).last_read_mark =
        some (((c + suffix.length : Nat) : Int) - 1) := by
  induction suffix with
  | nil => intro _ _ h; exact absurd rfl h
  | cons pk rest ih =>
    intro c s _
    rw [scanIndex]
    cases rest with
    | nil => simp [scanIndex]
    | cons pk2 rest2 =>
      rw [ih (c + 1) _ (by simp)]
      simp only [List.length_cons]
      congr 2
      omega

theorem scanIndex_scanOK {K : Type} (key_condition : PkCondition K) (index : List K)
    (suffix : List K) :
    ∀ (c : Nat) (s : MarkScan K), index.drop c = suffix →
      (s.prev_pk = if c = 0 then none else index[c - 1]?) →
      ScanOK key_condition index c s →
      ScanOK key_condition index index.length (scanIndex key_condition suffix c s) := by
  induction suffix with
  | nil =>
    intro c s hdrop _ hok
    have hc : index.length ≤ c := List.drop_eq_nil_iff.mp hdrop
    rw [scanIndex]
    rcases hok with ⟨h1, h2, h3⟩ | ⟨lo, hi, h1, h2, h3, h4, h5, h6, h7⟩
    · left
      refine ⟨h1, h2, ?_⟩
      intro j hj hm
      exact h3 j (by omega) hm
    · right
      have : hi + 1 < index.length := by
        obtain ⟨a, b, -, hb, -⟩ := h6
        by_contra hcon
        rw [List.getElem?_eq_none (by omega)] at hb
        simp at hb
      exact ⟨lo, hi, h1, h2, h3, this, h5, h6, fun j hj hm => h7 j (by omega) hm⟩
  | cons pk rest ih =>
    intro c s hdrop hprev hok
    obtain ⟨hget, hdrop'⟩ := getElem?_of_drop_eq_cons index c pk rest hdrop
    have hclt : c < index.length := by
      by_contra hcon
      rw [List.getElem?_eq_none (by omega)] at hget
      simp at hget
    rw [scanIndex]
    refine ih (c + 1) _ hdrop' ?_ ?_
    · simp [hget]
    · -- the invariant after the pair `(c - 1, c)`
      by_cases hc0 : c = 0
      · subst hc0
        simp only [if_true] at hprev
        simp only [hprev]
        rcases hok with ⟨h1, h2, h3⟩ | ⟨lo, hi, h1, h2, h3, h4, h5, h6, h7⟩
        · left; exact ⟨h1, h2, fun j hj => by omega⟩
        · omega
      · simp only [if_neg hc0] at hprev
        obtain ⟨p, hp⟩ : ∃ p, index[c - 1]? = some p := by
          cases hq : index[c - 1]? with
          | none => rw [List.getElem?_eq_none_iff] at hq; omega
          | some p => exact ⟨p, rfl⟩
        rw [hp] at hprev
        simp only [hprev]
        have hmatch : PairMatches key_condition index (c - 1) ↔
            key_condition.mayBeTrueInRange p pk = true := by
          unfold PairMatches
          have e : c - 1 + 1 = c := by omega
          rw [e, hp, hget]
          simp
        by_cases hm : key_condition.mayBeTrueInRange p pk = true
        · rw [if_pos ⟨by omega, hm⟩]
          right
          rcases hok with ⟨h1, h2, h3⟩ | ⟨lo, hi, h1, h2, h3, h4, h5, h6, h7⟩
          · refine ⟨c - 1, c - 1, ?_, ?_, le_refl _, by omega, hmatch.mpr hm, hmatch.mpr hm, ?_⟩
            · simp only [h1, if_true]; omega
            · show (c : Int) - 1 = _; omega
            · intro j hj hmj
              by_cases hjc : j + 1 < c
              · exact absurd hmj (h3 j hjc)
              · omega
          · refine ⟨lo, c - 1, ?_, ?_, by omega, by omega, h5, hmatch.mpr hm, ?_⟩
            · have : ¬ s.min_mark_number = -1 := by omega
              simp only [if_neg this]; exact h1
            · show (c : Int) - 1 = _; omega
            · intro j hj hmj
              by_cases hjc : j + 1 < c
              · have := h7 j hjc hmj; omega
              · have := h7 lo (by omega) h5; omega
        · have : ¬ (c > 0 ∧ key_condition.mayBeTrueInRange p pk = true) := fun h => hm h.2
          rw [if_neg this]
          rcases hok with ⟨h1, h2, h3⟩ | ⟨lo, hi, h1, h2, h3, h4, h5, h6, h7⟩
          · left
            refine ⟨h1, h2, ?_⟩
            intro j hj hmj
            by_cases hjc : j + 1 < c
            · exact h3 j hjc hmj
            · have : j = c - 1 := by omega
              rw [this] at hmj
              exact hm (hmatch.mp hmj)
          · right
            refine ⟨lo, hi, h1, h2, h3, by omega, h5, h6, ?_⟩
            intro j hj hmj
            by_cases hjc : j + 1 < c
            · exact h7 j hjc hmj
            · have : j = c - 1 := by omega
              rw [this] at hmj
              exact absurd (hmatch.mp hmj) hm

/-- C16: for an index of at least two entries and a key condition that is not always
true and may hold for at least one pair of adjacent entries, `markRangeFromPkRange`
returns as `out_first_mark` the smallest index `i - 1` whose pair `(pk[i-1], pk[i])`
may hold the condition, and as `out_last_mark` the largest such index, increased by one
exactly when it is the index of the last pair (`i = size - 1`). -/
theorem markRangeFromPkRange_first_last_match {K : Type} (marks_count : Nat) (index : List K)
    (key_condition : PkCondition K) (h2 : 2 ≤ index.length)
    (halways : key_condition.alwaysTrue = false)
    (hmatch : ∃ j, PairMatches key_condition index j) :
    ∃ lo hi, lo ≤ hi ∧ hi + 1 < index.length ∧ PairMatches key_condition index lo ∧
      PairMatches key_condition index hi ∧
      (∀ j, PairMatches key_condition index j → lo ≤ j ∧ j ≤ hi) ∧
      markRangeFromPkRange marks_count index key_condition =
        some (lo, if hi + 1 = index.length - 1 then hi + 1 else hi) := by
  have hne : index ≠ [] := by
    intro h; rw [h] at h2; simp at h2
  have hbound : ∀ j, PairMatches key_condition index j → j + 1 < index.length := by
    rintro j ⟨a, b, -, hb, -⟩
    by_contra hcon
    rw [List.getElem?_eq_none (by omega)] at hb
    simp at hb
  have hok := scanIndex_scanOK key_condition index index 0 ⟨-1, -1, none, none⟩ rfl rfl
    (Or.inl ⟨rfl, rfl, fun j hj => by omega⟩)
  have hlast := scanIndex_last_read_mark key_condition index 0 ⟨-1, -1, none, none⟩ hne
  obtain ⟨j0, hj0⟩ := hmatch
  rcases hok with ⟨-, -, h3⟩ | ⟨lo, hi, h1, h2', h3, h4, h5, h6, h7⟩
  · exact absurd hj0 (h3 j0 (hbound j0 hj0))
  · refine ⟨lo, hi, h3, h4, h5, h6, fun j hj => h7 j (hbound j hj) hj, ?_⟩
    unfold markRangeFromPkRange
    simp only [halways, Bool.false_eq_true, if_false, hlast, h1, h2']
    have e1 : ¬ ((lo : Int) = -1) := by omega
    by_cases hl : hi + 1 = index.length - 1
    · have e2 : (hi : Int) = ((0 + index.length : Nat) : Int) - 1 - 1 := by omega
      have e3 : ¬ ((hi : Int) + 1 = -1) := by omega
      simp only [if_pos e2, if_neg e1, if_neg e3, if_pos hl, Int.toNat_ofNat]
      congr 2
    · have e2 : ¬ ((hi : Int) = ((0 + index.length : Nat) : Int) - 1 - 1) := by omega
      have e3 : ¬ ((hi : Int) = -1) := by omega
      simp only [if_neg e2, if_neg e1, if_neg e3, if_neg hl, Int.toNat_ofNat]

/-- C16, at the index `[1, 3, 5, 7]` and the condition `2 ≤ key ≤ 4`: the pairs 0 and 1
match, the last pair does not, and the range is `[0, 1]`. -/
theorem markRangeFromPkRange_first_last_match_witness :
    2 ≤ exampleIndex.length ∧ twoToFour.alwaysTrue = false ∧
      PairMatches twoToFour exampleIndex 0 ∧
      markRangeFromPkRange 4 exampleIndex twoToFour = some (0, 1) ∧
      ∃ lo hi, lo ≤ hi ∧ hi + 1 < exampleIndex.length ∧ PairMatches twoToFour exampleIndex lo ∧
        PairMatches twoToFour exampleIndex hi ∧
        (∀ j, PairMatches twoToFour exampleIndex j → lo ≤ j ∧ j ≤ hi) ∧
        markRangeFromPkRange 4 exampleIndex twoToFour =
          some (lo, if hi + 1 = exampleIndex.length - 1 then hi + 1 else hi) :=
  ⟨by decide, rfl, ⟨1, 3, rfl, rfl, by decide⟩, by decide,
    markRangeFromPkRange_first_last_match 4 exampleIndex twoToFour (by decide) rfl
      ⟨0, 1, 3, rfl, rfl, by decide⟩⟩

/-! ## The choice of the merge planner -/

theorem selectLoop_step (index_granularity : Nat) (settings : StorageMergeTreeSettings)
    (first_part : DataPart) (rest : List DataPart) (pos : Nat) (s : SelectState) :
    selectLoop index_granularity settings (first_part :: rest) pos s =
      match longestAt index_granularity settings (first_part :: rest) with
      | none =>
        selectLoop index_granularity settings rest (pos + 1)
          { s with max_count_from_left := max 0 (s.max_count_from_left - 1) }
      | some r =>
        if r.cur_longest_len > max 0 (s.max_count_from_left - 1) then
          if s.found = false ∨
              pairLess ((r.cur_longest_max, r.cur_longest_min), -r.cur_longest_len)
                ((s.min_max, s.min_min), -s.max_len) then
            selectLoop index_granularity settings rest (pos + 1)
              { min_max := r.cur_longest_max
                min_min := r.cur_longest_min
                max_len := r.cur_longest_len
                best_begin := pos
                found := true
                max_count_from_left := r.cur_longest_len }
          else
            selectLoop index_granularity settings rest (pos + 1)
              { s with max_count_from_left := r.cur_longest_len }
        else
          selectLoop index_granularity settings rest (pos + 1)
            { s with max_count_from_left := max 0 (s.max_count_from_left - 1) } := by
  rw [selectLoop_cons, longestAt]
  by_cases h1 : first_part.currently_merging = true ∨
      sizeMul first_part.size index_granularity > settings.max_rows_to_merge_parts
  · rw [if_pos h1, if_pos h1]
  · rw [if_neg h1, if_neg h1]
    by_cases h2 : first_part.left_month ≠ first_part.right_month
    · rw [if_pos h2, if_pos h2]
    · rw [if_neg h2, if_neg h2]

theorem pairLess_trans {a b c : (Nat × Nat) × Int} (h1 : pairLess a b) (h2 : ¬ pairLess c b) :
    pairLess a c := by
  unfold pairLess at *
  omega

theorem candidate_iff (index_granularity : Nat) (settings : StorageMergeTreeSettings)
    (l : List DataPart) (i : Nat) (s : SelectState)
    (hinv : SelectInv index_granularity settings l i s) :
    lenAt index_granularity settings (l.drop i) > max 0 (s.max_count_from_left - 1) ↔
      Candidate index_granularity settings l i := by
  obtain ⟨h1, h2, h3, -, -⟩ := hinv
  unfold Candidate
  constructor
  · intro h
    refine ⟨by omega, ?_⟩
    intro j hj
    have := h2 j hj
    omega
  · rintro ⟨h0, hall⟩
    rcases h3 with h3 | ⟨j, hj, h3⟩
    · omega
    · have := hall j hj
      omega

theorem selectInv_step_skip (index_granularity : Nat) (settings : StorageMergeTreeSettings)
    (l : List DataPart) (i : Nat) (s : SelectState)
    (hinv : SelectInv index_granularity settings l i s)
    (hnot : ¬ Candidate index_granularity settings l i) :
    SelectInv index_granularity settings l (i + 1)
      { s with max_count_from_left := max 0 (s.max_count_from_left - 1) } := by
  have hc := candidate_iff index_granularity settings l i s hinv
  have hle : lenAt index_granularity settings (l.drop i) ≤ max 0 (s.max_count_from_left - 1) := by
    by_contra hcon
    exact hnot (hc.mp (by omega))
  obtain ⟨h1, h2, h3, h4, h5⟩ := hinv
  refine ⟨?_, ?_, ?_, ?_, ?_⟩
  · show 0 ≤ max 0 (s.max_count_from_left - 1)
    omega
  · intro j hj
    show _ ≤ max 0 (s.max_count_from_left - 1) - 1
    by_cases hji : j < i
    · have := h2 j hji
      push_cast
      omega
    · have : j = i := by omega
      subst this
      push_cast
      omega
  · show max 0 (s.max_count_from_left - 1) = 0 ∨ ∃ j, j < i + 1 ∧
      max 0 (s.max_count_from_left - 1) - 1 = _
    rcases h3 with h3 | ⟨j, hj, h3⟩
    · left; omega
    · by_cases hpos : 0 < s.max_count_from_left - 1
      · right
        refine ⟨j, by omega, ?_⟩
        push_cast
        omega
      · left; omega
  · intro hf
    obtain ⟨b1, b2, b3, b4, b5⟩ := h4 hf
    refine ⟨by show s.best_begin < i + 1; omega, b2, b3, b4, ?_⟩
    intro j hj hcand
    by_cases hji : j < i
    · exact b5 j hji hcand
    · have : j = i := by omega
      subst this
      exact absurd hcand hnot
  · intro hf j hj hcand
    by_cases hji : j < i
    · exact h5 hf j hji hcand
    · have : j = i := by omega
      subst this
      exact absurd hcand hnot

theorem selectInv_step_keep (index_granularity : Nat) (settings : StorageMergeTreeSettings)
    (l : List DataPart) (i : Nat) (s : SelectState)
    (hinv : SelectInv index_granularity settings l i s)
    (hcand : Candidate index_granularity settings l i)
    (hfound : s.found = true)
    (hnotless : ¬ pairLess (keyAt index_granularity settings (l.drop i))
      ((s.min_max, s.min_min), -s.max_len)) :
    SelectInv index_granularity settings l (i + 1)
      { s with max_count_from_left := lenAt index_granularity settings (l.drop i) } := by
  have hc := candidate_iff index_granularity settings l i s hinv
  have hgt := hc.mpr hcand
  obtain ⟨h1, h2, h3, h4, h5⟩ := hinv
  refine ⟨?_, ?_, ?_, ?_, ?_⟩
  · show 0 ≤ lenAt index_granularity settings (l.drop i)
    omega
  · intro j hj
    show _ ≤ lenAt index_granularity settings (l.drop i) - 1
    by_cases hji : j < i
    · have := h2 j hji
      push_cast
      omega
    · have : j = i := by omega
      subst this
      push_cast
      omega
  · right
    refine ⟨i, by omega, ?_⟩
    show lenAt index_granularity settings (l.drop i) - 1 = _
    push_cast
    omega
  · intro _
    obtain ⟨b1, b2, b3, b4, b5⟩ := h4 hfound
    refine ⟨by show s.best_begin < i + 1; omega, b2, b3, b4, ?_⟩
    intro j hj hcj
    by_cases hji : j < i
    · exact b5 j hji hcj
    · have : j = i := by omega
      subst this
      show ¬ pairLess _ (keyAt index_granularity settings (l.drop s.best_begin))
      rw [← b4]
      exact hnotless
  · intro hf
    rw [hfound] at hf
    exact absurd hf (by decide)

theorem selectInv_step_take (index_granularity : Nat) (settings : StorageMergeTreeSettings)
    (l : List DataPart) (i : Nat) (s : SelectState) (r : RunState)
    (hinv : SelectInv index_granularity settings l i s)
    (hr : longestAt index_granularity settings (l.drop i) = some r)
    (hcand : Candidate index_granularity settings l i)
    (hless : s.found = false ∨
      pairLess ((r.cur_longest_max, r.cur_longest_min), -r.cur_longest_len)
        ((s.min_max, s.min_min), -s.max_len)) :
    SelectInv index_granularity settings l (i + 1)
      { min_max := r.cur_longest_max
        min_min := r.cur_longest_min
        max_len := r.cur_longest_len
        best_begin := i
        found := true
        max_count_from_left := r.cur_longest_len } := by
  have hlen : lenAt index_granularity settings (l.drop i) = r.cur_longest_len := by
    unfold lenAt; rw [hr]
  have hkey : keyAt index_granularity settings (l.drop i) =
      ((r.cur_longest_max, r.cur_longest_min), -r.cur_longest_len) := by
    unfold keyAt; rw [hr]
  have hc := candidate_iff index_granularity settings l i s hinv
  have hgt := hc.mpr hcand
  obtain ⟨h1, h2, h3, h4, h5⟩ := hinv
  refine ⟨?_, ?_, ?_, ?_, ?_⟩
  · show 0 ≤ r.cur_longest_len
    omega
  · intro j hj
    show _ ≤ r.cur_longest_len - 1
    by_cases hji : j < i
    · have := h2 j hji
      push_cast
      omega
    · have : j = i := by omega
      subst this
      push_cast
      omega
  · right
    refine ⟨i, by omega, ?_⟩
    show r.cur_longest_len - 1 = _
    push_cast
    omega
  · intro _
    refine ⟨by show i < i + 1; omega, hcand, hlen.symm, hkey.symm, ?_⟩
    intro j hj hcj
    show ¬ pairLess _ (keyAt index_granularity settings (l.drop i))
    by_cases hji : j < i
    · rcases hless with hf | hl
      · exact absurd hcj (h5 hf j hji)
      · cases hfo : s.found with
        | false => exact absurd hcj (h5 hfo j hji)
        | true =>
          obtain ⟨b1, b2, b3, b4, b5⟩ := h4 hfo
          have hb := b5 j hji hcj
          rw [← b4] at hb
          rw [hkey]
          intro hcon
          exact hb (pairLess_trans hcon (fun h => by
            unfold pairLess at h hl; omega))
    · have : j = i := by omega
      subst this
      unfold pairLess
      omega
  · intro hf
    simp at hf

theorem selectLoop_selectInv (index_granularity : Nat) (settings : StorageMergeTreeSettings)
    (l : List DataPart) (suffix : List DataPart) :
    ∀ (pos : Nat) (s : SelectState), l.drop pos = suffix → pos ≤ l.length →
      SelectInv index_granularity settings l pos s →
      SelectInv index_granularity settings l l.length
        (selectLoop index_granularity settings suffix pos s) := by
  induction suffix with
  | nil =>
    intro pos s hdrop hle hinv
    have : l.length ≤ pos := List.drop_eq_nil_iff.mp hdrop
    have : pos = l.length := by omega
    subst this
    simpa [selectLoop] using hinv
  | cons first_part rest ih =>
    intro pos s hdrop hle hinv
    have hdrop' : l.drop (pos + 1) = rest := by
      rw [← List.drop_drop, hdrop]; rfl
    have hlt : pos < l.length := by
      by_contra hcon
      rw [List.drop_eq_nil_iff.mpr (by omega)] at hdrop
      simp at hdrop
    have hc := candidate_iff index_granularity settings l pos s hinv
    rw [selectLoop_step]
    cases hr : longestAt index_granularity settings (first_part :: rest) with
    | none =>
      simp only
      apply ih _ _ hdrop' (by omega)
      apply selectInv_step_skip _ _ _ _ _ hinv
      intro hcand
      have := hcand.1
      rw [hdrop] at this
      unfold lenAt at this
      rw [hr] at this
      simp at this
    | some r =>
      have hlen : lenAt index_granularity settings (l.drop pos) = r.cur_longest_len := by
        rw [hdrop]; unfold lenAt; rw [hr]
      have hkey : keyAt index_granularity settings (l.drop pos) =
          ((r.cur_longest_max, r.cur_longest_min), -r.cur_longest_len) := by
        rw [hdrop]; unfold keyAt; rw [hr]
      simp only
      rw [hlen] at hc
      by_cases h3 : r.cur_longest_len > max 0 (s.max_count_from_left - 1)
      · rw [if_pos h3]
        by_cases h4 : s.found = false ∨
            pairLess ((r.cur_longest_max, r.cur_longest_min), -r.cur_longest_len)
              ((s.min_max, s.min_min), -s.max_len)
        · rw [if_pos h4]
          apply ih _ _ hdrop' (by omega)
          exact selectInv_step_take _ _ _ _ _ r hinv (by rw [hdrop]; exact hr) (hc.mp h3) h4
        · rw [if_neg h4]
          apply ih _ _ hdrop' (by omega)
          rw [← hlen]
          refine selectInv_step_keep _ _ _ _ _ hinv (hc.mp h3) ?_ ?_
          · cases hf : s.found with
            | true => rfl
            | false => exact absurd (Or.inl hf) h4
          · rw [hkey]
            exact fun h => h4 (Or.inr h)
      · rw [if_neg h3]
        apply ih _ _ hdrop' (by omega)
        exact selectInv_step_skip _ _ _ _ _ hinv (fun hcand => h3 (hc.mpr hcand))

theorem selectInv_init (index_granularity : Nat) (settings : StorageMergeTreeSettings)
    (l : List DataPart) : SelectInv index_granularity settings l 0 SelectState.init := by
  refine ⟨by simp [SelectState.init], fun j hj => by omega, Or.inl rfl, ?_, fun _ j hj => by omega⟩
  intro h
  simp [SelectState.init] at h

/-- The longest valid run recorded for a position is a valid run, and its triple is made
of the largest size, the smallest size and the length of the run. -/
theorem longestAt_sound (index_granularity : Nat) (settings : StorageMergeTreeSettings)
    (suffix : List DataPart) :
    0 ≤ lenAt index_granularity settings suffix ∧
    (0 < lenAt index_granularity settings suffix →
      ValidRun index_granularity settings
          (suffix.take (lenAt index_granularity settings suffix).toNat) ∧
        lenAt index_granularity settings suffix =
          ((suffix.take (lenAt index_granularity settings suffix).toNat).length : Nat) ∧
        keyAt index_granularity settings suffix =
          ((maxSize (suffix.take (lenAt index_granularity settings suffix).toNat),
            minSize (suffix.take (lenAt index_granularity settings suffix).toNat)),
            -lenAt index_granularity settings suffix)) := by
  cases suffix with
  | nil => simp [lenAt, longestAt]
  | cons first_part rest =>
    unfold lenAt keyAt
    rw [longestAt]
    by_cases h1 : first_part.currently_merging = true ∨
        sizeMul first_part.size index_granularity > settings.max_rows_to_merge_parts
    · simp [h1]
    rw [if_neg h1]
    by_cases h2 : first_part.left_month ≠ first_part.right_month
    · simp [h2]
    rw [if_neg h2]
    have hlong := extendRight_first_longestOK index_granularity settings first_part rest h1 h2
    simp only
    generalize extendRight index_granularity settings first_part.left_month rest
        ⟨first_part.size, first_part.size, first_part.size, 1, first_part.right,
          minusOneU, minusOneU, 0⟩ = r at hlong ⊢
    rcases hlong with h0 | ⟨hv, hl, hmax, hmin⟩
    · rw [h0]; simp
    · refine ⟨by omega, fun _ => ⟨hv, hl, ?_⟩⟩
      rw [← hmax, ← hmin]

theorem extendRight_longest_mono (index_granularity : Nat) (settings : StorageMergeTreeSettings)
    (month : Nat) (rest : List DataPart) :
    ∀ r : RunState, r.cur_longest_len ≤ r.cur_len →
      r.cur_longest_len ≤
        (extendRight index_granularity settings month rest r).cur_longest_len := by
  induction rest with
  | nil => intro r _; simp [extendRight]
  | cons last_part rest ih =>
    intro r hr
    rw [extendRight_cons]
    by_cases h1 : r.cur_len < toInt32 settings.max_parts_to_merge_at_once
    swap
    · rw [if_pos h1]
    rw [if_neg (not_not.mpr h1)]
    by_cases h2 : last_part.currently_merging = true ∨
          sizeMul last_part.size index_granularity > settings.max_rows_to_merge_parts ∨
          last_part.left_month ≠ last_part.right_month ∨
          last_part.left_month ≠ month
    · rw [if_pos h2]
    rw [if_neg h2]
    by_cases h3 : last_part.left < r.cur_id
    · rw [if_pos h3]
    rw [if_neg h3]
    by_cases h4 : 2 ≤ r.cur_len + 1 ∧ settings.size_ratio_lt (max r.cur_max last_part.size)
          (sizeSub (sizeAdd r.cur_sum last_part.size) (max r.cur_max last_part.size)) = true
    · rw [if_pos h4]
      have := ih ⟨max r.cur_max last_part.size, min r.cur_min last_part.size,
        sizeAdd r.cur_sum last_part.size, r.cur_len + 1, last_part.right,
        max r.cur_max last_part.size, min r.cur_min last_part.size, r.cur_len + 1⟩ (le_refl _)
      simp only at this
      omega
    · rw [if_neg h4]
      have := ih ⟨max r.cur_max last_part.size, min r.cur_min last_part.size,
        sizeAdd r.cur_sum last_part.size, r.cur_len + 1, last_part.right,
        r.cur_longest_max, r.cur_longest_min, r.cur_longest_len⟩ (by simp only; omega)
      exact this

theorem extendRight_complete (index_granularity : Nat) (settings : StorageMergeTreeSettings)
    (month : Nat) (w : List DataPart) :
    ∀ (tail : List DataPart) (first : DataPart) (mid : List DataPart) (r : RunState),
      w ≠ [] → RunInv (first :: mid) r → r.cur_longest_len ≤ r.cur_len →
      (∀ p ∈ first :: mid ++ w, Mergeable index_granularity settings month p) →
      List.Chain' (fun a b : DataPart => ¬ b.left < a.right) (first :: mid ++ w) →
      (((first :: mid ++ w).length : Nat) : Int) ≤ toInt32 settings.max_parts_to_merge_at_once →
      settings.size_ratio_lt (maxSize (first :: mid ++ w))
        (sizeSub (sumSize (first :: mid ++ w)) (maxSize (first :: mid ++ w))) = true →
      (((first :: mid ++ w).length : Nat) : Int) ≤
        (extendRight index_granularity settings month (w ++ tail) r).cur_longest_len := by
  induction w with
  | nil => intro _ _ _ _ h; exact absurd rfl h
  | cons last_part w ih =>
    intro tail first mid r _ hinv hlong hall hchain hcap hratio
    have hlist : first :: mid ++ last_part :: w = first :: (mid ++ [last_part]) ++ w := by simp
    have hlen : ((first :: mid ++ last_part :: w).length : Nat) =
        (first :: mid).length + 1 + w.length := by
      simp only [List.length_cons, List.length_append]; omega
    have hm := hall last_part (by simp)
    have econs : (last_part :: w) ++ tail = last_part :: (w ++ tail) := rfl
    rw [econs, extendRight_cons]
    have h1 : r.cur_len < toInt32 settings.max_parts_to_merge_at_once := by
      rw [hinv.hlen]; rw [hlen] at hcap; push_cast at hcap ⊢; omega
    rw [if_neg (not_not.mpr h1)]
    have h2 : ¬ (last_part.currently_merging = true ∨
        sizeMul last_part.size index_granularity > settings.max_rows_to_merge_parts ∨
        last_part.left_month ≠ last_part.right_month ∨ last_part.left_month ≠ month) := by
      obtain ⟨m1, m2, m3, m4⟩ := hm
      rw [m1]
      intro h
      rcases h with h | h | h | h
      · exact absurd h (by decide)
      · omega
      · exact h m3
      · exact h m4
    rw [if_neg h2]
    have h3 : ¬ last_part.left < r.cur_id := by
      have hc : List.Chain' (fun a b : DataPart => ¬ b.left < a.right)
          ((first :: mid) ++ last_part :: w) := hchain
      rw [List.chain'_append] at hc
      obtain ⟨-, -, hc⟩ := hc
      obtain ⟨x, hx⟩ : ∃ x, (first :: mid).getLast? = some x :=
        ⟨_, List.getLast?_eq_getLast _ (by simp)⟩
      have := hc x hx last_part (by simp)
      rw [hinv.hid x hx]
      exact this
    rw [if_neg h3]
    by_cases hw : w = []
    · subst hw
      have hr : 2 ≤ r.cur_len + 1 ∧ settings.size_ratio_lt (max r.cur_max last_part.size)
          (sizeSub (sizeAdd r.cur_sum last_part.size) (max r.cur_max last_part.size)) = true := by
        refine ⟨?_, ?_⟩
        · rw [hinv.hlen]; simp only [List.length_cons]; omega
        · have e : first :: mid ++ [last_part] = (first :: mid) ++ [last_part] := rfl
          rw [e, maxSize_append_singleton, ← sizeAdd_sumSize, ← hinv.hmax, ← hinv.hsum] at hratio
          have e2 : sizeAdd (r.cur_sum % 2 ^ 64) last_part.size =
              sizeAdd r.cur_sum last_part.size := by
            simp [sizeAdd, Nat.add_mod]
          rw [e2] at hratio
          exact hratio
      rw [if_pos hr]
      have := extendRight_longest_mono index_granularity settings month ([] ++ tail)
        ⟨max r.cur_max last_part.size, min r.cur_min last_part.size,
          sizeAdd r.cur_sum last_part.size, r.cur_len + 1, last_part.right,
          max r.cur_max last_part.size, min r.cur_min last_part.size, r.cur_len + 1⟩ (le_refl _)
      simp only at this
      have hl := hinv.hlen
      rw [hlen]
      simp only [List.length_nil] at *
      push_cast
      omega
    · rw [hlist] at hall hchain hcap hratio ⊢
      split_ifs with h4
      · exact ih tail first (mid ++ [last_part]) _ hw
          (runInv_extend first mid r last_part _ _ _ hinv) (le_refl _) hall hchain hcap hratio
      · exact ih tail first (mid ++ [last_part]) _ hw
          (runInv_extend first mid r last_part _ _ _ hinv) (by simp only; omega) hall hchain
          hcap hratio

/-- Every valid run at the start of `run ++ tail` is at most as long as the longest valid
run that the planner records there. -/
theorem longestAt_complete (index_granularity : Nat) (settings : StorageMergeTreeSettings)
    (run tail : List DataPart) (hv : ValidRun index_granularity settings run) :
    ((run.length : Nat) : Int) ≤ lenAt index_granularity settings (run ++ tail) := by
  obtain ⟨h2, hcap, ⟨month, hm⟩, hchain, hratio⟩ := hv
  match run, h2 with
  | first :: second :: w, _ =>
    obtain ⟨m1, m2, m3, m4⟩ := hm first (by simp)
    unfold lenAt
    rw [List.cons_append, longestAt]
    have h1 : ¬ (first.currently_merging = true ∨
        sizeMul first.size index_granularity > settings.max_rows_to_merge_parts) := by
      rw [m1]
      intro h
      rcases h with h | h
      · exact absurd h (by decide)
      · omega
    rw [if_neg h1, if_neg (not_not.mpr m3)]
    simp only
    have := extendRight_complete index_granularity settings first.left_month (second :: w) tail
      first [] ⟨first.size, first.size, first.size, 1, first.right, minusOneU, minusOneU, 0⟩
      (by simp)
      ⟨by simp [maxSize], by simp [minSize], by simp [sumSize], by simp, by
        intro x hx; simp at hx; subst hx; rfl⟩
      (by simp only; omega)
      (by rw [m4]; exact hm) hchain hcap hratio
    exact this

theorem append_take_drop_window {α : Type} (l : List α) (j n : Nat) :
    l = l.take j ++ (l.drop j).take n ++ l.drop (j + n) := by
  have : l.drop (j + n) = (l.drop j).drop n := by rw [List.drop_drop, Nat.add_comm]
  rw [this, List.append_assoc, List.take_append_drop, List.take_append_drop]

theorem drop_of_window {α : Type} (l pre run post : List α) (h : l = pre ++ run ++ post) :
    l.drop pre.length = run ++ post := by
  rw [h, List.append_assoc, List.drop_left]

/-- What the outer loop of `selectPartsToMerge` has chosen when the call returns `true`:
a position `b` whose longest valid run is a candidate, and whose triple no candidate
undercuts. -/
theorem selectPartsToMerge_best (index_granularity : Nat) (settings : StorageMergeTreeSettings)
    (st : Storage) (parts0 parts : List DataPart) (st1 : Storage)
    (h : selectPartsToMerge index_granularity settings st parts0 = (true, parts, st1)) :
    ∃ b, b < st.data_parts.length ∧ Candidate index_granularity settings st.data_parts b ∧
      parts = ((st.data_parts.drop b).take
        (lenAt index_granularity settings (st.data_parts.drop b)).toNat).map
          DataPart.setMerging ∧
      ∀ j, Candidate index_granularity settings st.data_parts j →
        ¬ pairLess (keyAt index_granularity settings (st.data_parts.drop j))
          (keyAt index_granularity settings (st.data_parts.drop b)) := by
  unfold selectPartsToMerge at h
  have hinv := selectLoop_selectInv index_granularity settings st.data_parts st.data_parts 0
    SelectState.init rfl (Nat.zero_le _) (selectInv_init _ _ _)
  generalize selectLoop index_granularity settings st.data_parts 0 SelectState.init = s at h hinv
  by_cases hf : s.found = true
  · simp only [hf, if_true, Prod.mk.injEq, true_and] at h
    obtain ⟨b1, b2, b3, -, b5⟩ := hinv.best hf
    refine ⟨s.best_begin, b1, b2, ?_, ?_⟩
    · rw [← b3]; exact h.1.symm
    · intro j hj
      by_cases hjl : j < st.data_parts.length
      · exact b5 j hjl hj
      · exfalso
        have := hj.1
        rw [List.drop_eq_nil_iff.mpr (by omega)] at this
        simp [lenAt, longestAt] at this
  · simp [hf] at h

/-- The call of `selectPartsToMerge` returns `false` only if no position has a valid
run. -/
theorem selectPartsToMerge_none (index_granularity : Nat) (settings : StorageMergeTreeSettings)
    (st : Storage) (parts0 : List DataPart)
    (h : (selectPartsToMerge index_granularity settings st parts0).1 = false) :
    selectPartsToMerge index_granularity settings st parts0 = (false, parts0, st) ∧
      ∀ j, lenAt index_granularity settings (st.data_parts.drop j) ≤ 0 := by
  unfold selectPartsToMerge at h ⊢
  have hinv := selectLoop_selectInv index_granularity settings st.data_parts st.data_parts 0
    SelectState.init rfl (Nat.zero_le _) (selectInv_init _ _ _)
  generalize selectLoop index_granularity settings st.data_parts 0 SelectState.init = s at h hinv ⊢
  by_cases hf : s.found = true
  · simp [hf] at h
  · simp only [hf, if_false, Bool.false_eq_true, true_and]
    have hf' : s.found = false := by
      cases hs : s.found with
      | true => exact absurd hs hf
      | false => rfl
    have hnone := hinv.none hf'
    intro j
    induction j using Nat.strong_induction_on with
    | _ j ih =>
      by_contra hcon
      by_cases hjl : j < st.data_parts.length
      · apply hnone j hjl
        refine ⟨by omega, ?_⟩
        intro j' hj'
        have := ih j' hj'
        omega
      · rw [List.drop_eq_nil_iff.mpr (by omega)] at hcon
        simp [lenAt, longestAt] at hcon

/-- The run that `selectPartsToMerge` returns, with what the outer loop knows about its
position. -/
theorem selectPartsToMerge_window (index_granularity : Nat) (settings : StorageMergeTreeSettings)
    (st : Storage) (parts0 parts : List DataPart) (st1 : Storage)
    (h : selectPartsToMerge index_granularity settings st parts0 = (true, parts, st1)) :
    ∃ pre run post, st.data_parts = pre ++ run ++ post ∧
      parts = run.map DataPart.setMerging ∧
      ValidRun index_granularity settings run ∧
      Candidate index_granularity settings st.data_parts pre.length ∧
      lenAt index_granularity settings (st.data_parts.drop pre.length) =
        ((run.length : Nat) : Int) ∧
      keyAt index_granularity settings (st.data_parts.drop pre.length) =
        ((maxSize run, minSize run), -((run.length : Nat) : Int)) ∧
      ∀ j, Candidate index_granularity settings st.data_parts j →
        ¬ pairLess (keyAt index_granularity settings (st.data_parts.drop j))
          (keyAt index_granularity settings (st.data_parts.drop pre.length)) := by
  obtain ⟨b, hb, hcand, hparts, hmin⟩ :=
    selectPartsToMerge_best index_granularity settings st parts0 parts st1 h
  obtain ⟨-, hsound⟩ := longestAt_sound index_granularity settings (st.data_parts.drop b)
  obtain ⟨hv, hlen, hkey⟩ := hsound hcand.1
  have hpre : (st.data_parts.take b).length = b := by
    rw [List.length_take]; omega
  refine ⟨st.data_parts.take b,
    (st.data_parts.drop b).take (lenAt index_granularity settings (st.data_parts.drop b)).toNat,
    st.data_parts.drop (b + (lenAt index_granularity settings (st.data_parts.drop b)).toNat),
    append_take_drop_window _ _ _, hparts, hv, ?_, ?_, ?_, ?_⟩
  · rw [hpre]; exact hcand
  · rw [hpre]; exact hlen
  · rw [hpre, hkey, ← hlen]
  · rw [hpre]; exact hmin

/-- C14: `selectPartsToMerge` returns `true` if and only if the active set has a valid
run (at least 2 and at most `max_parts_to_merge_at_once` consecutive mergeable parts of
one month, none starting before the right id of its predecessor, that pass the comparison
of the size ratio); when it returns `false` it leaves the vector `parts` and the state,
with the flag of every part, as they were. -/
theorem selectPartsToMerge_true_iff_valid_run (index_granularity : Nat)
    (settings : StorageMergeTreeSettings) (st : Storage) (parts0 : List DataPart) :
    ((selectPartsToMerge index_granularity settings st parts0).1 = true ↔
      ∃ pre run post, st.data_parts = pre ++ run ++ post ∧
        ValidRun index_granularity settings run) ∧
    ((selectPartsToMerge index_granularity settings st parts0).1 = false →
      selectPartsToMerge index_granularity settings st parts0 = (false, parts0, st)) := by
  refine ⟨⟨?_, ?_⟩, fun h => (selectPartsToMerge_none _ _ _ _ h).1⟩
  · intro h
    obtain ⟨pre, run, post, hdp, hv, -, -⟩ := selectPartsToMerge_found index_granularity settings
      st parts0 (selectPartsToMerge index_granularity settings st parts0).2.1
      (selectPartsToMerge index_granularity settings st parts0).2.2 (by rw [← h])
    exact ⟨pre, run, post, hdp, hv⟩
  · rintro ⟨pre, run, post, hdp, hv⟩
    by_contra hcon
    have hfalse : (selectPartsToMerge index_granularity settings st parts0).1 = false := by
      cases hs : (selectPartsToMerge index_granularity settings st parts0).1 with
      | true => exact absurd hs hcon
      | false => rfl
    have hle := (selectPartsToMerge_none _ _ _ _ hfalse).2 pre.length
    rw [drop_of_window _ _ _ _ hdp] at hle
    have := longestAt_complete index_granularity settings run post hv
    have h2 := hv.1
    omega

/-- C12: the run that `selectPartsToMerge` returns is maximal by inclusion: the only
valid run of the active set that starts at the same or an earlier part and ends at the
same or a later part is the run itself. -/
theorem selectPartsToMerge_run_maximal (index_granularity : Nat)
    (settings : StorageMergeTreeSettings) (st : Storage) (parts0 parts : List DataPart)
    (st1 : Storage)
    (h : selectPartsToMerge index_granularity settings st parts0 = (true, parts, st1)) :
    ∃ pre run post, st.data_parts = pre ++ run ++ post ∧
      parts = run.map DataPart.setMerging ∧
      ValidRun index_granularity settings run ∧
      ∀ pre' run' post', st.data_parts = pre' ++ run' ++ post' →
        ValidRun index_granularity settings run' →
        pre'.length ≤ pre.length → pre.length + run.length ≤ pre'.length + run'.length →
        pre' = pre ∧ run' = run ∧ post' = post := by
  obtain ⟨pre, run, post, hdp, hparts, hv, hcand, hlen, -, -⟩ :=
    selectPartsToMerge_window index_granularity settings st parts0 parts st1 h
  refine ⟨pre, run, post, hdp, hparts, hv, ?_⟩
  intro pre' run' post' hdp' hv' hstart hend
  have hcomp := longestAt_complete index_granularity settings run' post' hv'
  rw [← drop_of_window _ _ _ _ hdp'] at hcomp
  have hpl : pre'.length = pre.length := by
    by_contra hne
    have := hcand.2 pre'.length (by omega)
    rw [hlen] at this
    omega
  have hrl : run'.length = run.length := by
    rw [hpl, hlen] at hcomp
    omega
  have e := hdp.symm.trans hdp'
  rw [List.append_assoc, List.append_assoc] at e
  obtain ⟨e1, e2⟩ := List.append_inj e hpl.symm
  obtain ⟨e3, e4⟩ := List.append_inj e2 hrl.symm
  exact ⟨e1.symm, e3.symm, e4.symm⟩

/-- C13: among the valid runs of the active set that are maximal by inclusion, the run
that `selectPartsToMerge` returns has the least triple `(max_size, min_size, -length)`
in the lexicographic order: for every such run, the largest size of the returned run is
smaller, or they are equal and its smallest size is smaller, or these are equal too and
it is at least as long. -/
theorem selectPartsToMerge_run_least (index_granularity : Nat)
    (settings : StorageMergeTreeSettings) (st : Storage) (parts0 parts : List DataPart)
    (st1 : Storage)
    (h : selectPartsToMerge index_granularity settings st parts0 = (true, parts, st1)) :
    ∃ pre run post, st.data_parts = pre ++ run ++ post ∧
      parts = run.map DataPart.setMerging ∧
      ∀ pre' run' post', st.data_parts = pre' ++ run' ++ post' →
        ValidRun index_granularity settings run' →
        (∀ pre'' run'' post'', st.data_parts = pre'' ++ run'' ++ post'' →
          ValidRun index_granularity settings run'' →
          pre''.length ≤ pre'.length → pre'.length + run'.length ≤ pre''.length + run''.length →
          pre''.length = pre'.length ∧ run''.length = run'.length) →
        (maxSize run < maxSize run' ∨ (maxSize run = maxSize run' ∧
          (minSize run < minSize run' ∨ (minSize run = minSize run' ∧
            run'.length ≤ run.length)))) := by
  obtain ⟨pre, run, post, hdp, hparts, -, -, -, hkey, hmin⟩ :=
    selectPartsToMerge_window index_granularity settings st parts0 parts st1 h
  refine ⟨pre, run, post, hdp, hparts, ?_⟩
  intro pre' run' post' hdp' hv' hmaximal
  have hdrop := drop_of_window _ _ _ _ hdp'
  have hcomp := longestAt_complete index_granularity settings run' post' hv'
  rw [← hdrop] at hcomp
  have h2 := hv'.1
  -- the longest valid run at the position of `run'` is `run'`
  obtain ⟨-, hs⟩ := longestAt_sound index_granularity settings (st.data_parts.drop pre'.length)
  obtain ⟨hvL, hlenL, hkeyL⟩ := hs (by omega)
  have hLeq : lenAt index_granularity settings (st.data_parts.drop pre'.length) =
      ((run'.length : Nat) : Int) := by
    have := hmaximal _ _ _ (append_take_drop_window st.data_parts pre'.length
      (lenAt index_granularity settings (st.data_parts.drop pre'.length)).toNat) hvL
      (by rw [List.length_take]; omega)
      (by
        have hp : (st.data_parts.take pre'.length).length = pre'.length := by
          rw [List.length_take, hdp']; simp
        rw [hp]
        omega)
    omega
  have hcand : Candidate index_granularity settings st.data_parts pre'.length := by
    refine ⟨by omega, ?_⟩
    intro j hj
    by_contra hcon
    obtain ⟨-, hsj⟩ := longestAt_sound index_granularity settings (st.data_parts.drop j)
    obtain ⟨hvj, hlenj, -⟩ := hsj (by omega)
    have hpj : (st.data_parts.take j).length = j := by
      rw [List.length_take]
      have : pre'.length ≤ st.data_parts.length := by rw [hdp']; simp
      omega
    have := hmaximal _ _ _ (append_take_drop_window st.data_parts j
      (lenAt index_granularity settings (st.data_parts.drop j)).toNat) hvj
      (by rw [hpj]; omega) (by rw [hpj]; omega)
    omega
  have hk := hmin pre'.length hcand
  have htake : (st.data_parts.drop pre'.length).take
      (lenAt index_granularity settings (st.data_parts.drop pre'.length)).toNat = run' := by
    rw [hLeq, hdrop, Int.toNat_ofNat, List.take_left]
  rw [hkeyL, htake, hLeq, hkey] at hk
  unfold pairLess at hk
  simp only at hk
  omega

/-- C12, at the table of the example. -/
theorem selectPartsToMerge_run_maximal_witness :
    selectPartsToMerge 2 exampleSettings exampleStorage [] =
        (true, exampleChosen, exampleSelected) ∧
      ∃ pre run post, exampleStorage.data_parts = pre ++ run ++ post ∧
        exampleChosen = run.map DataPart.setMerging ∧ ValidRun 2 exampleSettings run ∧
        ∀ pre' run' post', exampleStorage.data_parts = pre' ++ run' ++ post' →
          ValidRun 2 exampleSettings run' →
          pre'.length ≤ pre.length → pre.length + run.length ≤ pre'.length + run'.length →
          pre' = pre ∧ run' = run ∧ post' = post :=
  ⟨by decide,
    selectPartsToMerge_run_maximal 2 exampleSettings exampleStorage [] exampleChosen
      exampleSelected (by decide)⟩

/-- C13, at the table of the example. -/
theorem selectPartsToMerge_run_least_witness :
    selectPartsToMerge 2 exampleSettings exampleStorage [] =
        (true, exampleChosen, exampleSelected) ∧
      ∃ pre run post, exampleStorage.data_parts = pre ++ run ++ post ∧
        exampleChosen = run.map DataPart.setMerging :=
  ⟨by decide,
    (selectPartsToMerge_run_least 2 exampleSettings exampleStorage [] exampleChosen
      exampleSelected (by decide)).imp
      (fun _ h => h.imp (fun _ h => h.imp (fun _ h => ⟨h.1, h.2.1⟩)))⟩

theorem spanDigits_append_digits (ds : List Char) (h : ∀ c ∈ ds, c.isDigit = true)
    (rest : List Char) :
    spanDigits (ds ++ rest) = (ds ++ (spanDigits rest).1, (spanDigits rest).2) := by
  induction ds with
  | nil => rfl
  | cons c ds ih =>
    have hc := h c (List.mem_cons_self _ _)
    rw [List.cons_append, spanDigits, if_pos hc, ih (fun x hx => h x (List.mem_cons_of_mem _ hx))]
    rfl

theorem spanDigits_spec (text : List Char) :
    text = (spanDigits text).1 ++ (spanDigits text).2 ∧
      (∀ c ∈ (spanDigits text).1, c.isDigit = true) ∧
      (∀ c rest, (spanDigits text).2 = c :: rest → c.isDigit = false) := by
  induction text with
  | nil => simp [spanDigits]
  | cons c text ih =>
    rw [spanDigits]
    by_cases hc : c.isDigit = true
    · rw [if_pos hc]
      refine ⟨?_, ?_, ih.2.2⟩
      · simp only [List.cons_append]; rw [← ih.1]
      · intro x hx
        rcases List.mem_cons.1 hx with rfl | hx
        · exact hc
        · exact ih.2.1 x hx
    · rw [if_neg hc]
      refine ⟨rfl, by simp, ?_⟩
      intro x rest hx
      simp only [List.cons.injEq] at hx
      rw [← hx.1]
      simpa using hc

theorem isDigit_underscore : Char.isDigit '_' = false := by decide

theorem spanDigits_group (g : List Char) (h : ∀ c ∈ g, c.isDigit = true) (rest : List Char) :
    spanDigits (g ++ '_' :: rest) = (g, '_' :: rest) := by
  rw [spanDigits_append_digits g h, spanDigits, if_neg (by rw [isDigit_underscore]; simp)]
  simp

theorem matchDate_iff (text g rest : List Char) :
    matchDate text = some (g, rest) ↔ IsDateGroup g ∧ text = g ++ '_' :: rest := by
  unfold matchDate IsDateGroup
  constructor
  · intro h
    split_ifs at h with hc
    cases hd : text.drop 8 with
    | nil => rw [hd] at h; simp at h
    | cons c r =>
      rw [hd] at h
      simp only at h
      split_ifs at h with hu
      simp only [Option.some.injEq, Prod.mk.injEq] at h
      obtain ⟨h1, h2⟩ := h
      subst h1 h2 hu
      refine ⟨⟨hc.1, ?_⟩, ?_⟩
      · intro x hx
        exact List.all_eq_true.1 hc.2 x hx
      · rw [← hd, List.take_append_drop]
  · rintro ⟨⟨hl, hd⟩, rfl⟩
    have ht : (g ++ '_' :: rest).take 8 = g := by rw [← hl, List.take_left]
    have hdr : (g ++ '_' :: rest).drop 8 = '_' :: rest := by rw [← hl, List.drop_left]
    rw [ht, hdr, if_pos ⟨hl, List.all_eq_true.2 hd⟩]
    simp

theorem matchNumber_iff (text g rest : List Char) :
    matchNumber text = some (g, rest) ↔ IsNumberGroup g ∧ text = g ++ '_' :: rest := by
  unfold IsNumberGroup
  constructor
  · intro h
    obtain ⟨h1, h2, h3⟩ := spanDigits_spec text
    unfold matchNumber at h
    cases hs : spanDigits text with
    | mk a b =>
      rw [hs] at h h1 h2
      cases a with
      | nil => simp at h
      | cons a0 a =>
        cases b with
        | nil => simp at h
        | cons c r =>
          simp only at h
          split_ifs at h with hu
          simp only [Option.some.injEq, Prod.mk.injEq] at h
          obtain ⟨e1, e2⟩ := h
          subst e1 e2 hu
          exact ⟨⟨by simp, h2⟩, h1⟩
  · rintro ⟨⟨hne, hd⟩, rfl⟩
    unfold matchNumber
    rw [spanDigits_group g hd]
    cases g with
    | nil => exact absurd rfl hne
    | cons a0 a => simp

theorem spanDigits_digits (g : List Char) (h : ∀ c ∈ g, c.isDigit = true) :
    spanDigits g = (g, []) := by
  have := spanDigits_append_digits g h []
  rw [List.append_nil] at this
  rw [this]
  simp [spanDigits]

theorem matchPartName_whole (g1 g2 g3 g4 g5 : List Char) (d1 : IsDateGroup g1)
    (d2 : IsDateGroup g2) (d3 : IsNumberGroup g3) (d4 : IsNumberGroup g4)
    (d5 : IsNumberGroup g5) :
    matchPartName (g1 ++ '_' :: (g2 ++ '_' :: (g3 ++ '_' :: (g4 ++ '_' :: g5)))) =
      some (g1, g2, g3, g4, g5) := by
  unfold matchPartName
  rw [(matchDate_iff _ g1 _).2 ⟨d1, rfl⟩]
  simp only
  rw [(matchDate_iff _ g2 _).2 ⟨d2, rfl⟩]
  simp only
  rw [(matchNumber_iff _ g3 _).2 ⟨d3, rfl⟩]
  simp only
  rw [(matchNumber_iff _ g4 _).2 ⟨d4, rfl⟩]
  simp only
  rw [spanDigits_digits g5 d5.2]
  cases g5 with
  | nil => exact absurd rfl d5.1
  | cons c g5 => rfl

theorem parseUnsigned64_eq_some (digits : List Char) (n : Nat) :
    parseUnsigned64 digits = some n ↔ decimalValue digits = n ∧ n < 2 ^ 64 := by
  unfold parseUnsigned64
  split_ifs with h
  · simp only [Option.some.injEq]
    constructor
    · intro e; subst e; exact ⟨rfl, h⟩
    · exact fun e => e.1
  · simp only [false_iff, not_and]
    intro e; subst e; exact h

theorem parseUnsigned_eq_some (digits : List Char) (n : Nat) :
    parseUnsigned digits = some n ↔ decimalValue digits = n ∧ n < 2 ^ 32 := by
  unfold parseUnsigned
  split_ifs with h
  · simp only [Option.some.injEq]
    constructor
    · intro e; subst e; exact ⟨rfl, h⟩
    · exact fun e => e.1
  · simp only [false_iff, not_and]
    intro e; subst e; exact h

/-- The body of the loop on a name whose match has the groups `g1`, ..., `g5`: a part
of the numbers the groups denote when the ids are `UInt64` values and the level is a
value of 32 bits, and no part otherwise. -/
theorem loadPart_groups (lut : DateLUT) (dir : Directory) (file_name : String)
    (g1 g2 g3 g4 g5 : List Char)
    (hm : matchPartName file_name.toList = some (g1, g2, g3, g4, g5)) :
    ((decimalValue g3 < 2 ^ 64 ∧ decimalValue g4 < 2 ^ 64 ∧ decimalValue g5 < 2 ^ 32) →
      ∃ p, loadPart lut dir file_name = .part p ∧ p.name = file_name ∧
        p.left = decimalValue g3 ∧ p.right = decimalValue g4 ∧ p.level = decimalValue g5 ∧
        p.left_date = lut.dayNumOfIdentifier (String.mk g1) ∧
        p.right_date = lut.dayNumOfIdentifier (String.mk g2) ∧
        p.left_month = lut.toFirstDayNumOfMonth p.left_date ∧
        p.right_month = lut.toFirstDayNumOfMonth p.right_date ∧
        p.size = dir.mrkSize file_name / 16 ∧ p.currently_merging = false) ∧
    (¬ (decimalValue g3 < 2 ^ 64 ∧ decimalValue g4 < 2 ^ 64 ∧ decimalValue g5 < 2 ^ 32) →
      loadPart lut dir file_name = .unparsed) := by
  unfold loadPart
  rw [hm]
  simp only
  constructor
  · rintro ⟨h3, h4, h5⟩
    rw [(parseUnsigned64_eq_some g3 _).2 ⟨rfl, h3⟩, (parseUnsigned64_eq_some g4 _).2 ⟨rfl, h4⟩,
      (parseUnsigned_eq_some g5 _).2 ⟨rfl, h5⟩]
    exact ⟨_, rfl, rfl, rfl, rfl, rfl, rfl, rfl, rfl, rfl, rfl, rfl⟩
  · intro hnot
    cases h3 : parseUnsigned64 g3 with
    | none => rfl
    | some left =>
      cases h4 : parseUnsigned64 g4 with
      | none => rfl
      | some right =>
        cases h5 : parseUnsigned g5 with
        | none => rfl
        | some level =>
          exfalso
          obtain ⟨e3, r3⟩ := (parseUnsigned64_eq_some g3 _).1 h3
          obtain ⟨e4, r4⟩ := (parseUnsigned64_eq_some g4 _).1 h4
          obtain ⟨e5, r5⟩ := (parseUnsigned_eq_some g5 _).1 h5
          exact hnot ⟨by rw [e3]; exact r3, by rw [e4]; exact r4, by rw [e5]; exact r5⟩

theorem ceil_div_step (r g : Nat) (hg : 1 ≤ g) (hr : 1 ≤ r) :
    (r + g - 1) / g = (r - g + g - 1) / g + 1 := by
  by_cases h : g ≤ r
  · have e : r + g - 1 = (r - g + g - 1) + g := by omega
    rw [e, Nat.add_div_right _ (by omega)]
  · have e1 : (r - g + g - 1) / g = 0 := Nat.div_eq_of_lt (by omega)
    have e2 : r + g - 1 = (r - 1) + g := by omega
    rw [e1, e2, Nat.add_div_right _ (by omega), Nat.div_eq_of_lt (by omega)]

theorem writeIndexLoop_spec {K : Type} (index_granularity : Nat) (sorted : List K)
    (hg : 1 ≤ index_granularity) (hov : sorted.length + index_granularity ≤ 2 ^ 64) :
    ∀ (fuel i : Nat) (index : List K), 0 < fuel → sorted.length < fuel + i →
      ∃ out, writeIndexLoop index_granularity sorted fuel i index = some (index ++ out) ∧
        out.length = (sorted.length - i + index_granularity - 1) / index_granularity ∧
        ∀ j, j < out.length → out[j]? = sorted[i + j * index_granularity]? ∧
          i + j * index_granularity < sorted.length := by
  intro fuel
  induction fuel with
  | zero =>
    intro i index h0
    exact absurd h0 (Nat.lt_irrefl 0)
  | succ fuel ih =>
    intro i index _ h
    rw [writeIndexLoop]
    by_cases hi : i < sorted.length
    · rw [dif_pos hi]
      have hs : sizeAdd i index_granularity = i + index_granularity := by
        unfold sizeAdd
        exact Nat.mod_eq_of_lt (by omega)
      rw [hs]
      obtain ⟨out, h1, h2, h3⟩ := ih (i + index_granularity) (index ++ [sorted[i]]) (by omega) (by omega)
      refine ⟨sorted[i] :: out, ?_, ?_, ?_⟩
      · rw [h1]; simp
      · rw [List.length_cons, h2]
        have := ceil_div_step (sorted.length - i) index_granularity hg (by omega)
        have e : sorted.length - i - index_granularity =
            sorted.length - (i + index_granularity) := by omega
        rw [this, e]
      · intro j hj
        cases j with
        | zero =>
          simp only [Nat.zero_mul, Nat.add_zero, List.getElem?_cons_zero]
          exact ⟨(List.getElem?_eq_getElem hi).symm, hi⟩
        | succ j =>
          rw [List.length_cons] at hj
          obtain ⟨h4, h5⟩ := h3 j (by omega)
          have e : i + (j + 1) * index_granularity =
              i + index_granularity + j * index_granularity := by ring
          rw [List.getElem?_cons_succ, e]
          exact ⟨h4, h5⟩
    · rw [dif_neg hi]
      refine ⟨[], by simp, ?_, by simp⟩
      have e : sorted.length - i = 0 := by omega
      rw [e, List.length_nil, Nat.zero_add]
      exact (Nat.div_eq_of_lt (by omega)).symm

/-- C19: for a block of `R ≥ 1` rows and `index_granularity = g ≥ 1` (with `R + g` within
the range of `size_t`), `writePart` publishes a part of size `ceil(R / g)`, and the loop
that writes `primary.idx` ends with exactly that many entries, entry `i` being the
primary-key values of row `i × g` of the sorted block. -/
theorem writePart_size_and_index {K : Type} (lut : DateLUT) (index_granularity : Nat)
    (st : Storage) (part_id min_date max_date now : Nat) (sorted : List K)
    (hrows : 1 ≤ sorted.length) (hg : 1 ≤ index_granularity)
    (hov : sorted.length + index_granularity ≤ 2 ^ 64) :
    writePart lut index_granularity st part_id sorted.length min_date max_date now =
      { st with
        data_parts := DataParts.insert
          (newDataPart lut index_granularity part_id sorted.length min_date max_date now)
          st.data_parts
        all_data_parts := DataParts.insert
          (newDataPart lut index_granularity part_id sorted.length min_date max_date now)
          st.all_data_parts
        increment := part_id } ∧
    (newDataPart lut index_granularity part_id sorted.length min_date max_date now).size =
      (sorted.length + index_granularity - 1) / index_granularity ∧
    ((sorted.length + index_granularity - 1) / index_granularity - 1) * index_granularity <
      sorted.length ∧
    sorted.length ≤ (sorted.length + index_granularity - 1) / index_granularity *
      index_granularity ∧
    ∃ index, writePartIndex index_granularity sorted = some index ∧
      index.length = (sorted.length + index_granularity - 1) / index_granularity ∧
      ∀ i, i < index.length →
        i * index_granularity < sorted.length ∧ index[i]? = sorted[i * index_granularity]? := by
  refine ⟨rfl, ?_, ?_, ?_, ?_⟩
  · have e : sizeSub (sizeAdd sorted.length index_granularity) 1 =
        sorted.length + index_granularity - 1 := by
      unfold sizeSub sizeAdd
      omega
    unfold newDataPart
    simp only
    rw [e]
  · have h1 := Nat.div_mul_le_self (sorted.length + index_granularity - 1) index_granularity
    have h2 : 1 ≤ (sorted.length + index_granularity - 1) / index_granularity :=
      (Nat.one_le_div_iff (by omega)).2 (by omega)
    have h3 : ((sorted.length + index_granularity - 1) / index_granularity - 1) *
        index_granularity + index_granularity =
        (sorted.length + index_granularity - 1) / index_granularity * index_granularity := by
      have := Nat.sub_add_cancel h2
      nth_rewrite 2 [← this]
      rw [Nat.add_mul, Nat.one_mul]
    omega
  · have h1 := @Nat.lt_div_mul_add (sorted.length + index_granularity - 1)
      index_granularity (by omega)
    omega
  · obtain ⟨out, h1, h2, h3⟩ := writeIndexLoop_spec index_granularity sorted hg hov
      (sorted.length + 1) 0 [] (by omega) (by omega)
    refine ⟨out, ?_, ?_, ?_⟩
    · unfold writePartIndex
      rw [h1, List.nil_append]
    · rw [h2, Nat.sub_zero]
    · intro i hi
      obtain ⟨h4, h5⟩ := h3 i hi
      rw [Nat.zero_add] at h4 h5
      exact ⟨h5, h4⟩

/-- C19 at a sorted block of five rows and `index_granularity = 2`. -/
theorem writePart_size_and_index_witness :
    (newDataPart exampleLUT 2 1 exampleSorted.length 101 105 0).size = (5 + 2 - 1) / 2 ∧
      writePartIndex 2 exampleSorted = some [10, 30, 50] ∧
      ∃ index, writePartIndex 2 exampleSorted = some index ∧
        index.length = (exampleSorted.length + 2 - 1) / 2 ∧
        ∀ i, i < index.length →
          i * 2 < exampleSorted.length ∧ index[i]? = exampleSorted[i * 2]? :=
  ⟨by decide, by decide,
    (writePart_size_and_index exampleLUT 2 Storage.empty 1 101 105 0 exampleSorted
      (by decide) (by decide) (by decide)).2.2.2.2⟩

theorem minMaxDate_cons {ρ : Type} (row : Nat × ρ) (rest : Block ρ) (lo hi : Nat) :
    minMaxDate (row :: rest) (lo, hi) =
      minMaxDate rest (if row.1 < lo then row.1 else lo, if row.1 > hi then row.1 else hi) :=
  rfl

theorem minMaxDate_spec {ρ : Type} (block : Block ρ) :
    ∀ lo hi, (minMaxDate block (lo, hi)).1 ≤ lo ∧ hi ≤ (minMaxDate block (lo, hi)).2 ∧
      (∀ row ∈ block, (minMaxDate block (lo, hi)).1 ≤ row.1 ∧
        row.1 ≤ (minMaxDate block (lo, hi)).2) ∧
      ((minMaxDate block (lo, hi)).1 = lo ∨
        ∃ row ∈ block, row.1 = (minMaxDate block (lo, hi)).1) ∧
      ((minMaxDate block (lo, hi)).2 = hi ∨
        ∃ row ∈ block, row.1 = (minMaxDate block (lo, hi)).2) := by
  induction block with
  | nil => intro lo hi; simp [minMaxDate]
  | cons row rest ih =>
    intro lo hi
    rw [minMaxDate_cons]
    obtain ⟨h1, h2, h3, h4, h5⟩ := ih (if row.1 < lo then row.1 else lo)
      (if row.1 > hi then row.1 else hi)
    have hlo : (if row.1 < lo then row.1 else lo) ≤ lo ∧
        (if row.1 < lo then row.1 else lo) ≤ row.1 := by split_ifs <;> omega
    have hhi : hi ≤ (if row.1 > hi then row.1 else hi) ∧
        row.1 ≤ (if row.1 > hi then row.1 else hi) := by split_ifs <;> omega
    refine ⟨by omega, by omega, ?_, ?_, ?_⟩
    · intro x hx
      rcases List.mem_cons.1 hx with rfl | hx
      · constructor <;> omega
      · exact h3 x hx
    · rcases h4 with h4 | ⟨x, hx, hxe⟩
      · by_cases hc : row.1 < lo
        · rw [if_pos hc] at h4
          exact Or.inr ⟨row, List.mem_cons_self _ _, by rw [if_pos hc]; exact h4.symm⟩
        · rw [if_neg hc] at h4
          exact Or.inl (by rw [if_neg hc]; exact h4)
      · exact Or.inr ⟨x, List.mem_cons_of_mem _ hx, hxe⟩
    · rcases h5 with h5 | ⟨x, hx, hxe⟩
      · by_cases hc : row.1 > hi
        · rw [if_pos hc] at h5
          exact Or.inr ⟨row, List.mem_cons_self _ _, by rw [if_pos hc]; exact h5.symm⟩
        · rw [if_neg hc] at h5
          exact Or.inl (by rw [if_neg hc]; exact h5)
      · exact Or.inr ⟨x, List.mem_cons_of_mem _ hx, hxe⟩

theorem minMaxDate_append {ρ : Type} (block : Block ρ) (row : Nat × ρ) :
    ∀ lo hi, minMaxDate (block ++ [row]) (lo, hi) =
      (if row.1 < (minMaxDate block (lo, hi)).1 then row.1 else (minMaxDate block (lo, hi)).1,
        if row.1 > (minMaxDate block (lo, hi)).2 then row.1
        else (minMaxDate block (lo, hi)).2) := by
  induction block with
  | nil => intro lo hi; rfl
  | cons r rest ih =>
    intro lo hi
    rw [List.cons_append, minMaxDate_cons, minMaxDate_cons, ih]

/-- The least and the greatest date of a non-empty block of `UInt16` dates are dates of
its rows. -/
theorem minMaxDate_attained {ρ : Type} (block : Block ρ) (hne : block ≠ [])
    (hdates : ∀ row ∈ block, row.1 ≤ 65535) :
    (∀ row ∈ block, (minMaxDate block (65535, 0)).1 ≤ row.1 ∧
      row.1 ≤ (minMaxDate block (65535, 0)).2) ∧
    (∃ row ∈ block, row.1 = (minMaxDate block (65535, 0)).1) ∧
    (∃ row ∈ block, row.1 = (minMaxDate block (65535, 0)).2) := by
  obtain ⟨-, -, h3, h4, h5⟩ := minMaxDate_spec block 65535 0
  obtain ⟨r0, hr0⟩ := List.exists_mem_of_ne_nil block hne
  refine ⟨h3, ?_, ?_⟩
  · rcases h4 with h4 | h4
    · refine ⟨r0, hr0, ?_⟩
      have := (h3 r0 hr0).1
      have := hdates r0 hr0
      omega
    · exact h4
  · rcases h5 with h5 | h5
    · refine ⟨r0, hr0, ?_⟩
      have := (h3 r0 hr0).2
      omega
    · exact h5

theorem addRowToMonth_spec {ρ : Type} (month : Nat) (row : Nat × ρ) :
    ∀ acc : List (Nat × BlockWithDateInterval ρ), (acc.map Prod.fst).Pairwise (· < ·) →
      ((addRowToMonth month row acc).map Prod.fst).Pairwise (· < ·) ∧
      (∀ e ∈ addRowToMonth month row acc,
        (e ∈ acc ∧ e.1 ≠ month) ∨
        (e.1 = month ∧ ∃ b, (month, b) ∈ acc ∧
          e.2 = ⟨b.block ++ [row], if row.1 < b.min_date then row.1 else b.min_date,
            if row.1 > b.max_date then row.1 else b.max_date⟩) ∨
        (e = (month, ⟨[row], if row.1 < 65535 then row.1 else 65535,
            if row.1 > 0 then row.1 else 0⟩) ∧ ∀ e' ∈ acc, e'.1 ≠ month)) ∧
      (∃ e ∈ addRowToMonth month row acc, e.1 = month) ∧
      (∀ e ∈ acc, ∃ e' ∈ addRowToMonth month row acc, e'.1 = e.1) ∧
      (∀ e ∈ addRowToMonth month row acc, e.1 = month ∨ ∃ e' ∈ acc, e'.1 = e.1) := by
  intro acc
  induction acc with
  | nil =>
    intro _
    simp [addRowToMonth]
  | cons a rest ih =>
    obtain ⟨m, b⟩ := a
    intro hs
    rw [List.map_cons, List.pairwise_cons] at hs
    obtain ⟨hm, hrest⟩ := hs
    have hkeys : ∀ e ∈ rest, m < e.1 := fun e he => hm e.1 (List.mem_map_of_mem _ he)
    rw [addRowToMonth]
    by_cases h1 : month < m
    · rw [if_pos h1]
      refine ⟨?_, ?_, ⟨_, List.mem_cons_self _ _, rfl⟩, ?_, ?_⟩
      · rw [List.map_cons, List.pairwise_cons]
        refine ⟨?_, ?_⟩
        · intro k hk
          rw [List.map_cons, List.mem_cons] at hk
          rcases hk with rfl | hk
          · exact h1
          · exact lt_trans h1 (hm k hk)
        · rw [List.map_cons, List.pairwise_cons]
          exact ⟨hm, hrest⟩
      · intro e he
        rcases List.mem_cons.1 he with rfl | he
        · refine Or.inr (Or.inr ⟨rfl, ?_⟩)
          intro e' he'
          rcases List.mem_cons.1 he' with rfl | he'
          · exact (Nat.ne_of_lt h1).symm
          · have := hkeys e' he'
            omega
        · refine Or.inl ⟨he, ?_⟩
          rcases List.mem_cons.1 he with rfl | he
          · exact (Nat.ne_of_lt h1).symm
          · have := hkeys e he
            omega
      · intro e he
        exact ⟨e, List.mem_cons_of_mem _ he, rfl⟩
      · intro e he
        rcases List.mem_cons.1 he with rfl | he
        · exact Or.inl rfl
        · exact Or.inr ⟨e, he, rfl⟩
    · rw [if_neg h1]
      by_cases h2 : month = m
      · rw [if_pos h2]
        subst h2
        refine ⟨?_, ?_, ⟨_, List.mem_cons_self _ _, rfl⟩, ?_, ?_⟩
        · rw [List.map_cons, List.pairwise_cons]
          exact ⟨hm, hrest⟩
        · intro e he
          rcases List.mem_cons.1 he with rfl | he
          · exact Or.inr (Or.inl ⟨rfl, b, List.mem_cons_self _ _, rfl⟩)
          · refine Or.inl ⟨List.mem_cons_of_mem _ he, ?_⟩
            have := hkeys e he
            omega
        · intro e he
          rcases List.mem_cons.1 he with rfl | he
          · exact ⟨_, List.mem_cons_self _ _, rfl⟩
          · exact ⟨e, List.mem_cons_of_mem _ he, rfl⟩
        · intro e he
          rcases List.mem_cons.1 he with rfl | he
          · exact Or.inl rfl
          · exact Or.inr ⟨e, List.mem_cons_of_mem _ he, rfl⟩
      · rw [if_neg h2]
        obtain ⟨i1, i2, i3, i4, i5⟩ := ih hrest
        refine ⟨?_, ?_, ?_, ?_, ?_⟩
        · rw [List.map_cons, List.pairwise_cons]
          refine ⟨?_, i1⟩
          intro k hk
          obtain ⟨e, he, rfl⟩ := List.mem_map.1 hk
          rcases i5 e he with h | ⟨e', he', h⟩
          · rw [h]; omega
          · rw [← h]; exact hkeys e' he'
        · intro e he
          rcases List.mem_cons.1 he with rfl | he
          · exact Or.inl ⟨List.mem_cons_self _ _, fun h => h2 h.symm⟩
          · rcases i2 e he with ⟨h, hne⟩ | ⟨h, b', hb', hb⟩ | ⟨h, hall⟩
            · exact Or.inl ⟨List.mem_cons_of_mem _ h, hne⟩
            · exact Or.inr (Or.inl ⟨h, b', List.mem_cons_of_mem _ hb', hb⟩)
            · refine Or.inr (Or.inr ⟨h, ?_⟩)
              intro e' he'
              rcases List.mem_cons.1 he' with rfl | he'
              · exact fun h => h2 h.symm
              · exact hall e' he'
        · obtain ⟨e, he, h⟩ := i3
          exact ⟨e, List.mem_cons_of_mem _ he, h⟩
        · intro e he
          rcases List.mem_cons.1 he with rfl | he
          · exact ⟨_, List.mem_cons_self _ _, rfl⟩
          · obtain ⟨e', he', h⟩ := i4 e he
            exact ⟨e', List.mem_cons_of_mem _ he', h⟩
        · intro e he
          rcases List.mem_cons.1 he with rfl | he
          · exact Or.inr ⟨_, List.mem_cons_self _ _, rfl⟩
          · rcases i5 e he with h | ⟨e', he', h⟩
            · exact Or.inl h
            · exact Or.inr ⟨e', List.mem_cons_of_mem _ he', h⟩

theorem bucketsOK_addRow {ρ : Type} (lut : DateLUT) (processed : Block ρ)
    (acc : List (Nat × BlockWithDateInterval ρ)) (row : Nat × ρ)
    (h : BucketsOK lut processed acc) :
    BucketsOK lut (processed ++ [row])
      (addRowToMonth (lut.toFirstDayNumOfMonth row.1) row acc) := by
  obtain ⟨i1, i2, i3, i4, -⟩ :=
    addRowToMonth_spec (lut.toFirstDayNumOfMonth row.1) row acc h.sorted
  refine ⟨i1, ?_, ?_⟩
  · intro e he
    rcases i2 e he with ⟨hmem, hne⟩ | ⟨hk, b, hb, he2⟩ | ⟨he2, hall⟩
    · obtain ⟨r1, r2, r3, r4⟩ := h.rows e hmem
      refine ⟨?_, r2, r3, r4⟩
      rw [List.filter_append, r1]
      have : List.filter (fun r : Nat × ρ => decide (lut.toFirstDayNumOfMonth r.1 = e.1))
          [row] = [] := by
        rw [List.filter_cons_of_neg (by simpa using fun hh => hne hh.symm), List.filter_nil]
      rw [this, List.append_nil]
    · obtain ⟨r1, r2, r3, r4⟩ := h.rows _ hb
      simp only at r1 r3 r4
      have hf : List.filter (fun r : Nat × ρ => decide (lut.toFirstDayNumOfMonth r.1 = e.1))
          [row] = [row] := by
        rw [List.filter_cons_of_pos (by simpa using hk.symm), List.filter_nil]
      rw [he2]
      simp only
      refine ⟨?_, by simp, ?_, ?_⟩
      · rw [List.filter_append, hf, hk, ← r1]
      · rw [minMaxDate_append, ← r3]
      · rw [minMaxDate_append, ← r4]
    · rw [he2]
      simp only
      refine ⟨?_, by simp, rfl, rfl⟩
      have hp : List.filter
          (fun r : Nat × ρ => decide (lut.toFirstDayNumOfMonth r.1 = lut.toFirstDayNumOfMonth row.1))
          processed = [] := by
        rw [List.filter_eq_nil_iff]
        intro r hr hdec
        obtain ⟨e', he', hk'⟩ := h.covered r hr
        exact hall e' he' (by rw [hk']; simpa using hdec)
      rw [List.filter_append, hp, List.filter_cons_of_pos (by simp), List.filter_nil,
        List.nil_append]
  · intro r hr
    rcases List.mem_append.1 hr with hr | hr
    · obtain ⟨e, he, hk⟩ := h.covered r hr
      obtain ⟨e', he', hk'⟩ := i4 e he
      exact ⟨e', he', by rw [hk', hk]⟩
    · rw [List.mem_singleton] at hr
      subst hr
      exact i3

theorem bucketsOK_foldl {ρ : Type} (lut : DateLUT) (rest : Block ρ) :
    ∀ (processed : Block ρ) (acc : List (Nat × BlockWithDateInterval ρ)),
      BucketsOK lut processed acc →
      BucketsOK lut (processed ++ rest)
        (rest.foldl (fun acc row => addRowToMonth (lut.toFirstDayNumOfMonth row.1) row acc)
          acc) := by
  induction rest with
  | nil => intro processed acc h; rw [List.append_nil]; exact h
  | cons row rest ih =>
    intro processed acc h
    rw [List.foldl_cons]
    have := ih (processed ++ [row]) _ (bucketsOK_addRow lut processed acc row h)
    rw [List.append_assoc] at this
    exact this

/-- The map `blocks_by_month` of a non-empty block, for a calendar whose first day of
the month is monotone. -/
theorem blocksByMonth_bucketsOK {ρ : Type} (lut : DateLUT) (block : Block ρ)
    (hne : block ≠ [])
    (hmono : ∀ a b, a ≤ b → lut.toFirstDayNumOfMonth a ≤ lut.toFirstDayNumOfMonth b) :
    BucketsOK lut block (blocksByMonth lut block) := by
  unfold blocksByMonth
  simp only
  by_cases hm : lut.toFirstDayNumOfMonth (minMaxDate block (65535, 0)).1 =
      lut.toFirstDayNumOfMonth (minMaxDate block (65535, 0)).2
  · rw [if_pos hm]
    obtain ⟨-, -, h3, -, -⟩ := minMaxDate_spec block 65535 0
    have hall : ∀ row ∈ block, lut.toFirstDayNumOfMonth row.1 =
        lut.toFirstDayNumOfMonth (minMaxDate block (65535, 0)).1 := by
      intro row hrow
      have h1 := hmono _ _ (h3 row hrow).1
      have h2 := hmono _ _ (h3 row hrow).2
      omega
    refine ⟨by simp, ?_, ?_⟩
    · intro e he
      rw [List.mem_singleton] at he
      subst he
      refine ⟨?_, hne, rfl, rfl⟩
      show block = List.filter _ block
      symm
      rw [List.filter_eq_self]
      intro row hrow
      simpa using hall row hrow
    · intro row hrow
      exact ⟨_, List.mem_singleton_self _, (hall row hrow).symm⟩
  · rw [if_neg hm]
    have := bucketsOK_foldl lut block [] [] ⟨by simp, by simp, by simp⟩
    rw [List.nil_append] at this
    exact this

/-- C20: for a calendar whose first day of the month is monotone in the day number and a
non-empty block of `UInt16` dates, `write` passes to `writePart` one bucket for every
month of the block, the months being distinct: the bucket of a month holds exactly the
rows of the block that fall in this month, in the order of the block, so every row lands
in exactly one bucket; no bucket is empty; and `min_date` and `max_date` of a bucket are
the least and the greatest date of its rows. -/
theorem write_buckets_by_month {ρ : Type} (lut : DateLUT) (index_granularity : Nat)
    (st : Storage) (block : Block ρ) (now : Nat) (hne : block ≠ [])
    (hdates : ∀ row ∈ block, row.1 ≤ 65535)
    (hmono : ∀ a b, a ≤ b → lut.toFirstDayNumOfMonth a ≤ lut.toFirstDayNumOfMonth b) :
    write lut index_granularity st block now =
      (blocksByMonth lut block).foldl
        (fun s b => writePart lut index_granularity s s.nextId b.2.block.length b.2.min_date
          b.2.max_date now) st ∧
    ((blocksByMonth lut block).map Prod.fst).Pairwise (· < ·) ∧
    (∀ row ∈ block, ∃ e ∈ blocksByMonth lut block, e.1 = lut.toFirstDayNumOfMonth row.1) ∧
    ∀ e ∈ blocksByMonth lut block,
      e.2.block = block.filter (fun row => decide (lut.toFirstDayNumOfMonth row.1 = e.1)) ∧
      e.2.block ≠ [] ∧
      (∀ row ∈ e.2.block, e.2.min_date ≤ row.1 ∧ row.1 ≤ e.2.max_date) ∧
      (∃ row ∈ e.2.block, row.1 = e.2.min_date) ∧
      (∃ row ∈ e.2.block, row.1 = e.2.max_date) := by
  have h := blocksByMonth_bucketsOK lut block hne hmono
  refine ⟨rfl, h.sorted, h.covered, ?_⟩
  intro e he
  obtain ⟨r1, r2, r3, r4⟩ := h.rows e he
  have hd : ∀ row ∈ e.2.block, row.1 ≤ 65535 := by
    intro row hrow
    rw [r1] at hrow
    exact hdates row (List.mem_filter.1 hrow).1
  obtain ⟨a1, a2, a3⟩ := minMaxDate_attained e.2.block r2 hd
  rw [← r3] at a1 a2
  rw [← r4] at a1 a3
  exact ⟨r1, r2, a1, a2, a3⟩

/-- C20 at a block whose rows fall into two months. -/
theorem write_buckets_by_month_witness :
    blocksByMonth exampleLUT exampleBlock3 =
        [(100, ⟨[(103, 20), (101, 40)], 101, 103⟩), (200, ⟨[(201, 10), (205, 30)], 201, 205⟩)] ∧
      ((blocksByMonth exampleLUT exampleBlock3).map Prod.fst).Pairwise (· < ·) ∧
      (∀ row ∈ exampleBlock3,
        ∃ e ∈ blocksByMonth exampleLUT exampleBlock3,
          e.1 = exampleLUT.toFirstDayNumOfMonth row.1) ∧
      ∀ e ∈ blocksByMonth exampleLUT exampleBlock3,
        e.2.block = exampleBlock3.filter
            (fun row => decide (exampleLUT.toFirstDayNumOfMonth row.1 = e.1)) ∧
          e.2.block ≠ [] ∧
          (∀ row ∈ e.2.block, e.2.min_date ≤ row.1 ∧ row.1 ≤ e.2.max_date) ∧
          (∃ row ∈ e.2.block, row.1 = e.2.min_date) ∧
          (∃ row ∈ e.2.block, row.1 = e.2.max_date) :=
  ⟨by decide,
    (write_buckets_by_month exampleLUT 2 Storage.empty exampleBlock3 0 (by decide) (by decide)
      (fun a b hab => Nat.mul_le_mul_right 100 (Nat.div_le_div_right hab))).2⟩

theorem spreadWhile_done (index_granularity min_rows : Nat) (parts : List DataPartRange)
    (fuel : Nat) (s : SpreadState) (streams : List MergeTreeBlockInputStream) :
    spreadWhile index_granularity min_rows parts fuel 0 s streams = .ok (s, streams) := by
  cases fuel with
  | zero => rw [spreadWhile]; simp
  | succ fuel => rw [spreadWhile]; simp

theorem spreadWhile_skip (index_granularity min_rows : Nat) (parts : List DataPartRange)
    (fuel need_marks : Nat) (s : SpreadState) (streams : List MergeTreeBlockInputStream)
    (part : DataPartRange) (hneed : need_marks > 0) (hget : parts.get? s.cur_part = some part)
    (hleft : sizeSub (sizeAdd (sizeSub part.last_mark part.first_mark) 1) s.cur_pos = 0) :
    spreadWhile index_granularity min_rows parts (fuel + 1) need_marks s streams =
      spreadWhile index_granularity min_rows parts fuel need_marks
        { s with cur_part := s.cur_part + 1, cur_pos := 0 } streams := by
  rw [spreadWhile, if_neg (not_not.2 hneed), hget]
  simp only
  rw [if_pos hleft]

theorem spreadWhile_take (index_granularity min_rows : Nat) (parts : List DataPartRange)
    (fuel need_marks : Nat) (s : SpreadState) (streams : List MergeTreeBlockInputStream)
    (part : DataPartRange) (left get : Nat) (hneed : need_marks > 0)
    (hget : parts.get? s.cur_part = some part)
    (hleft : sizeSub (sizeAdd (sizeSub part.last_mark part.first_mark) 1) s.cur_pos = left)
    (h0 : left ≠ 0)
    (hg : get = if sizeMul (sizeSub left (min left need_marks)) index_granularity < min_rows
      then left else min left need_marks) :
    spreadWhile index_granularity min_rows parts (fuel + 1) need_marks s streams =
      spreadWhile index_granularity min_rows parts fuel
        (if get > need_marks then 0 else need_marks - get)
        { s with
          marks_spread := sizeAdd s.marks_spread get
          cur_pos := sizeAdd s.cur_pos get }
        (streams ++ [{ owned_data_part := part.data_part
                       mark_number := sizeAdd part.first_mark s.cur_pos
                       rows_limit := sizeMul get index_granularity }]) := by
  rw [spreadWhile, if_neg (not_not.2 hneed), hget]
  simp only
  rw [hleft, if_neg h0, ← hg]

theorem streamsFrom_append (index_granularity : Nat) (r : DataPartRange) (ms : List Nat)
    (m : Nat) : ∀ pos, streamsFrom index_granularity r pos (ms ++ [m]) =
      streamsFrom index_granularity r pos ms ++
        [{ owned_data_part := r.data_part
           mark_number := r.first_mark + (pos + ms.sum)
           rows_limit := sizeMul m index_granularity }] := by
  induction ms with
  | nil => intro pos; simp [streamsFrom]
  | cons a ms ih =>
    intro pos
    rw [List.cons_append, streamsFrom, ih, streamsFrom, List.sum_cons, List.cons_append]
    rw [Nat.add_assoc]

theorem planStreams_append (index_granularity : Nat) (a b : List (DataPartRange × List Nat)) :
    planStreams index_granularity (a ++ b) =
      planStreams index_granularity a ++ planStreams index_granularity b := by
  induction a with
  | nil => rfl
  | cons e a ih => rw [List.cons_append, planStreams, ih, planStreams, List.append_assoc]

theorem flattenStreams_append (a b : List BlockInputStream) :
    flattenStreams (a ++ b) = flattenStreams a ++ flattenStreams b := by
  induction a with
  | nil => rfl
  | cons e a ih => rw [List.cons_append, flattenStreams, ih, flattenStreams, List.append_assoc]

theorem sizeAdd_of_lt (a b : Nat) (h : a + b < 2 ^ 64) : sizeAdd a b = a + b := by
  unfold sizeAdd
  omega

theorem sizeSub_of_le (a b : Nat) (hb : b ≤ a) (ha : a < 2 ^ 64) : sizeSub a b = a - b := by
  unfold sizeSub
  omega

theorem marks_machine (r : DataPartRange) (h1 : r.first_mark ≤ r.last_mark)
    (h2 : r.last_mark < 2 ^ 64) (h3 : r.marks < 2 ^ 64) :
    sizeAdd (sizeSub r.last_mark r.first_mark) 1 = r.marks := by
  unfold DataPartRange.marks at h3 ⊢
  rw [sizeSub_of_le _ _ h1 h2, sizeAdd_of_lt _ _ h3]

theorem sum_marks_split (done : List (DataPartRange × List Nat)) (cur : DataPartRange)
    (todo : List DataPartRange) :
    ((done.map Prod.fst ++ cur :: todo).map DataPartRange.marks).sum =
      ((done.map Prod.fst).map DataPartRange.marks).sum + cur.marks +
        (todo.map DataPartRange.marks).sum := by
  rw [List.map_append, List.sum_append, List.map_cons, List.sum_cons, Nat.add_assoc]

theorem sizeMul_le (a b : Nat) : sizeMul a b ≤ a * b := by
  unfold sizeMul
  exact Nat.mod_le _ _

theorem tailOK_append (index_granularity min_rows total m : Nat) :
    ∀ (ms : List Nat) (pos : Nat),
      TailOK index_granularity min_rows total pos (ms ++ [m]) ↔
        TailOK index_granularity min_rows total pos ms ∧
          (pos + ms.sum + m < total →
            min_rows ≤ (total - (pos + ms.sum + m)) * index_granularity) := by
  intro ms
  induction ms with
  | nil =>
    intro pos
    simp [TailOK]
  | cons a ms ih =>
    intro pos
    rw [List.cons_append, TailOK, ih, TailOK, List.sum_cons, and_assoc, ← Nat.add_assoc]

theorem spreadWhile_spec (index_granularity min_rows : Nat) (parts : List DataPartRange)
    (pre : List MergeTreeBlockInputStream)
    (hparts : ∀ r ∈ parts, r.first_mark ≤ r.last_mark ∧ r.last_mark < 2 ^ 64)
    (hsum : (parts.map DataPartRange.marks).sum < 2 ^ 64) :
    ∀ (fuel need_marks : Nat) (s : SpreadState) (streams : List MergeTreeBlockInputStream),
      SpreadInv index_granularity min_rows parts s (pre ++ streams) →
      s.marks_spread + need_marks ≤ (parts.map DataPartRange.marks).sum →
      need_marks + (parts.length - s.cur_part) ≤ fuel →
      ∃ s1 streams1,
        spreadWhile index_granularity min_rows parts fuel need_marks s streams =
          .ok (s1, streams1) ∧
        SpreadInv index_granularity min_rows parts s1 (pre ++ streams1) ∧
        s.marks_spread + need_marks ≤ s1.marks_spread := by
  intro fuel
  induction fuel with
  | zero =>
    intro need_marks s streams hinv _ hfuel
    obtain ⟨done, cur, ms, todo, hP, hc, -⟩ := hinv
    have hl : parts.length = done.length + (todo.length + 1) := by
      rw [hP]; simp
    omega
  | succ fuel ih =>
    intro need_marks s streams hinv hneed hfuel
    by_cases hz : need_marks = 0
    · subst hz
      exact ⟨s, streams, spreadWhile_done _ _ _ _ _ _, hinv, Nat.le_refl _⟩
    · have hpos : need_marks > 0 := Nat.pos_of_ne_zero hz
      obtain ⟨done, cur, ms, todo, hP, hc, hdone, hms, hmsum, hle, hem, hspread, htd, htc⟩ :=
        hinv
      have hl : parts.length = done.length + (todo.length + 1) := by
        rw [hP]; simp
      have hget : parts.get? s.cur_part = some cur := by
        rw [hP, hc, List.get?_eq_getElem?, List.getElem?_append_right (by simp)]
        simp
      have hcur : cur ∈ parts := by rw [hP]; simp
      have hsplit := sum_marks_split done cur todo
      rw [← hP] at hsplit
      have hm := marks_machine cur (hparts cur hcur).1 (hparts cur hcur).2 (by omega)
      have hleft : sizeSub (sizeAdd (sizeSub cur.last_mark cur.first_mark) 1) s.cur_pos =
          cur.marks - s.cur_pos := by
        rw [hm, sizeSub_of_le _ _ hle (by omega)]
      by_cases h0 : cur.marks - s.cur_pos = 0
      · -- the part is read to its end: on to the next part
        rw [spreadWhile_skip _ _ _ _ _ _ _ cur hpos hget (by rw [hleft, h0])]
        cases todo with
        | nil =>
          simp only [List.map_nil, List.sum_nil] at hsplit
          omega
        | cons nxt todo =>
          have hinv1 : SpreadInv index_granularity min_rows parts
              { s with cur_part := s.cur_part + 1, cur_pos := 0 } (pre ++ streams) := by
            refine ⟨done ++ [(cur, ms)], nxt, [], todo, by rw [hP]; simp, by simp [hc], ?_,
              by simp, by simp, by simp, ?_, ?_, ?_, by simp [TailOK]⟩
            · intro e he
              rcases List.mem_append.1 he with he | he
              · exact hdone e he
              · rw [List.mem_singleton] at he
                subst he
                exact ⟨hms, by simp only; omega⟩
            · rw [hem, planStreams_append]
              simp [planStreams, streamsFrom]
            · simp only [List.map_append, List.sum_append, List.map_cons, List.map_nil,
                List.sum_cons, List.sum_nil]
              omega
            · intro e he
              rcases List.mem_append.1 he with he | he
              · exact htd e he
              · rw [List.mem_singleton] at he
                subst he
                exact htc
          obtain ⟨s1, streams1, h1, h2, h3⟩ := ih need_marks
            { s with cur_part := s.cur_part + 1, cur_pos := 0 } streams hinv1 hneed
            (by simp only; simp only [List.length_cons] at hl; omega)
          exact ⟨s1, streams1, h1, h2, h3⟩
      · -- some marks of the part are taken
        have hg1 : 1 ≤ min (cur.marks - s.cur_pos) need_marks := by
          rw [Nat.le_min]; omega
        have hg2 : min (cur.marks - s.cur_pos) need_marks ≤ cur.marks - s.cur_pos :=
          Nat.min_le_left _ _
        have hg3 : min (cur.marks - s.cur_pos) need_marks ≤ need_marks :=
          Nat.min_le_right _ _
        obtain ⟨get, hget_def⟩ : ∃ get, get =
            if sizeMul (sizeSub (cur.marks - s.cur_pos) (min (cur.marks - s.cur_pos) need_marks))
              index_granularity < min_rows
            then cur.marks - s.cur_pos else min (cur.marks - s.cur_pos) need_marks := ⟨_, rfl⟩
        have hgb : 1 ≤ get ∧ get ≤ cur.marks - s.cur_pos ∧
            (get > need_marks ∨ min (cur.marks - s.cur_pos) need_marks = get) := by
          rw [hget_def]
          split_ifs
          · refine ⟨by omega, Nat.le_refl _, ?_⟩
            by_cases hh : cur.marks - s.cur_pos > need_marks
            · exact Or.inl hh
            · exact Or.inr (Nat.min_eq_left (by omega))
          · exact ⟨hg1, hg2, Or.inr rfl⟩
        have htail : get < cur.marks - s.cur_pos →
            min_rows ≤ (cur.marks - s.cur_pos - get) * index_granularity := by
          rw [hget_def]
          split_ifs with hrows
          · intro hlt
            exact absurd hlt (Nat.lt_irrefl _)
          · intro _
            rw [sizeSub_of_le _ _ hg2 (by omega)] at hrows
            have := sizeMul_le (cur.marks - s.cur_pos - min (cur.marks - s.cur_pos) need_marks)
              index_granularity
            omega
        rw [spreadWhile_take _ _ _ _ _ _ _ cur (cur.marks - s.cur_pos) get hpos hget hleft h0
          hget_def]
        have e1 : sizeAdd cur.first_mark s.cur_pos = cur.first_mark + s.cur_pos := by
          apply sizeAdd_of_lt
          have := (hparts cur hcur).1
          have := (hparts cur hcur).2
          unfold DataPartRange.marks at hle h0
          omega
        have e2 : sizeAdd s.marks_spread get = s.marks_spread + get :=
          sizeAdd_of_lt _ _ (by omega)
        have e3 : sizeAdd s.cur_pos get = s.cur_pos + get := sizeAdd_of_lt _ _ (by omega)
        rw [e1, e2, e3]
        have hinv1 : SpreadInv index_granularity min_rows parts
            { s with marks_spread := s.marks_spread + get, cur_pos := s.cur_pos + get }
            (pre ++ (streams ++ [{ owned_data_part := cur.data_part
                                   mark_number := cur.first_mark + s.cur_pos
                                   rows_limit := sizeMul get index_granularity }])) := by
          refine ⟨done, cur, ms ++ [get], todo, hP, hc, hdone, ?_, ?_, ?_, ?_, ?_, htd, ?_⟩
          · intro m hm'
            rcases List.mem_append.1 hm' with hm' | hm'
            · exact hms m hm'
            · rw [List.mem_singleton] at hm'
              rw [hm']
              exact hgb.1
          · simp only [List.sum_append, List.sum_cons, List.sum_nil]
            omega
          · simp only
            omega
          · rw [← List.append_assoc, hem, streamsFrom_append, hmsum, Nat.zero_add,
              List.append_assoc]
          · simp only
            omega
          · rw [tailOK_append]
            refine ⟨htc, ?_⟩
            intro hlt
            have := htail (by omega)
            have e : cur.marks - (0 + ms.sum + get) = cur.marks - s.cur_pos - get := by omega
            rw [e]
            exact this
        obtain ⟨s1, streams1, h1, h2, h3⟩ := ih
          (if get > need_marks then 0 else need_marks - get)
          { s with marks_spread := s.marks_spread + get, cur_pos := s.cur_pos + get }
          (streams ++ [{ owned_data_part := cur.data_part
                         mark_number := cur.first_mark + s.cur_pos
                         rows_limit := sizeMul get index_granularity }])
          hinv1 (by simp only; split_ifs <;> omega) (by simp only; split_ifs <;> omega)
        refine ⟨s1, streams1, h1, h2, ?_⟩
        simp only at h3
        split_ifs at h3 <;> omega

theorem spreadInv_le (index_granularity min_rows : Nat) (parts : List DataPartRange)
    (s : SpreadState)
    (emitted : List MergeTreeBlockInputStream)
    (h : SpreadInv index_granularity min_rows parts s emitted) :
    s.marks_spread ≤ (parts.map DataPartRange.marks).sum := by
  obtain ⟨done, cur, ms, todo, hP, -, -, -, -, hle, -, hspread, -⟩ := h
  have := sum_marks_split done cur todo
  rw [← hP] at this
  omega

theorem streams_of_thread (streams : List MergeTreeBlockInputStream) :
    (match streams with
      | [stream] => BlockInputStream.part stream
      | _ => BlockInputStream.concat streams).streams = streams := by
  cases streams with
  | nil => rfl
  | cons a rest =>
    cases rest with
    | nil => rfl
    | cons b rest => rfl

theorem spreadFor_spec (index_granularity min_rows : Nat) (parts : List DataPartRange)
    (effective_threads : Nat)
    (hparts : ∀ r ∈ parts, r.first_mark ≤ r.last_mark ∧ r.last_mark < 2 ^ 64)
    (hsum : (parts.map DataPartRange.marks).sum < 2 ^ 64) :
    ∀ (threads_left : Nat) (s : SpreadState) (res : List BlockInputStream),
      SpreadInv index_granularity min_rows parts s (flattenStreams res) →
      ∃ s1 res1,
        spreadFor index_granularity min_rows parts (parts.map DataPartRange.marks).sum
          effective_threads threads_left s res = .ok (s1, res1) ∧
        SpreadInv index_granularity min_rows parts s1 (flattenStreams res1) ∧
        min (parts.map DataPartRange.marks).sum
          (s.marks_spread + threads_left *
            (((parts.map DataPartRange.marks).sum - 1) / effective_threads + 1)) ≤
          s1.marks_spread := by
  have hw := spreadWhile_spec index_granularity min_rows parts
  have hle := spreadInv_le index_granularity min_rows parts
  obtain ⟨S, hS⟩ : ∃ S, (parts.map DataPartRange.marks).sum = S := ⟨_, rfl⟩
  rw [hS] at hsum hw hle ⊢
  obtain ⟨q, hq⟩ : ∃ q, (S - 1) / effective_threads = q := ⟨_, rfl⟩
  have hdiv : q ≤ S - 1 := by rw [← hq]; exact Nat.div_le_self _ _
  rw [hq]
  intro threads_left
  induction threads_left with
  | zero =>
    intro s res hinv
    refine ⟨s, res, by rw [spreadFor], hinv, ?_⟩
    rw [Nat.zero_mul, Nat.add_zero]
    exact Nat.min_le_right _ _
  | succ t ih =>
    intro s res hinv
    rw [spreadFor]
    by_cases hlt : s.marks_spread < S
    · rw [if_neg (not_not.2 hlt)]
      simp only
      have e1 : sizeSub S 1 = S - 1 := sizeSub_of_le _ _ (by omega) hsum
      rw [e1, hq]
      have e2 : sizeAdd q 1 = q + 1 := sizeAdd_of_lt _ _ (by omega)
      have e3 : sizeSub S s.marks_spread = S - s.marks_spread :=
        sizeSub_of_le _ _ (by omega) hsum
      rw [e2, e3]
      obtain ⟨need, hneed⟩ : ∃ need, min (q + 1) (S - s.marks_spread) = need := ⟨_, rfl⟩
      rw [hneed]
      have hn : need ≤ S - s.marks_spread ∧ (need = q + 1 ∨ need = S - s.marks_spread) := by
        rw [← hneed]
        omega
      obtain ⟨s1, streams1, h1, h2, h3⟩ := hw (flattenStreams res) hparts hsum
        (1 + (need + parts.length)) need s [] (by rw [List.append_nil]; exact hinv)
        (by omega) (by omega)
      rw [h1]
      simp only
      obtain ⟨s2, res2, h4, h5, h6⟩ := ih s1
        (res ++ [match streams1 with
          | [stream] => BlockInputStream.part stream
          | _ => BlockInputStream.concat streams1])
        (by
          rw [flattenStreams_append, flattenStreams, flattenStreams, List.append_nil,
            streams_of_thread]
          exact h2)
      refine ⟨s2, res2, h4, h5, ?_⟩
      have hs1 := hle _ _ h2
      have hs2 := hle _ _ h5
      rw [Nat.succ_mul]
      obtain ⟨tq, htq⟩ : ∃ tq, t * (q + 1) = tq := ⟨_, rfl⟩
      rw [htq] at h6 ⊢
      omega
    · rw [if_pos hlt]
      refine ⟨s, res, rfl, hinv, ?_⟩
      have := Nat.min_le_left S (s.marks_spread + (t + 1) * (q + 1))
      omega

theorem selectRanges_sum {K : Type} (env : ReadEnv K) :
    ∀ (l parts : List DataPartRange) (sum_marks : Nat),
      selectRanges env l = some (parts, sum_marks) →
      (∀ r ∈ parts, r.first_mark ≤ r.last_mark ∧ r.last_mark < 2 ^ 64) →
      (parts.map DataPartRange.marks).sum < 2 ^ 64 →
      sum_marks = (parts.map DataPartRange.marks).sum := by
  intro l
  induction l with
  | nil =>
    intro parts sum_marks h _ _
    rw [selectRanges] at h
    simp only [Option.some.injEq, Prod.mk.injEq] at h
    rw [← h.1, ← h.2]
    rfl
  | cons part rest ih =>
    intro parts sum_marks h hparts hsum
    rw [selectRanges] at h
    cases hm : markRangeFromPkRange part.data_part.size (env.primary_idx part.data_part)
        env.key_condition with
    | none => rw [hm] at h; simp at h
    | some fl =>
      obtain ⟨f, la⟩ := fl
      rw [hm] at h
      simp only at h
      cases hr : selectRanges env rest with
      | none => rw [hr] at h; simp at h
      | some ps =>
        obtain ⟨parts1, sum1⟩ := ps
        rw [hr] at h
        simp only [Option.some.injEq, Prod.mk.injEq] at h
        obtain ⟨h1, h2⟩ := h
        subst h1
        rw [List.map_cons, List.sum_cons] at hsum
        have hi := ih parts1 sum1 hr (fun r hr' => hparts r (List.mem_cons_of_mem _ hr'))
          (by omega)
        have hh := hparts ⟨part.data_part, f, la⟩ (List.mem_cons_self _ _)
        have hmk := marks_machine ⟨part.data_part, f, la⟩ hh.1 hh.2 (by omega)
        simp only at hmk
        rw [← h2, hmk, hi, sizeAdd_of_lt _ _ hsum, List.map_cons, List.sum_cons]

theorem marks_pos (r : DataPartRange) : 1 ≤ r.marks := by
  unfold DataPartRange.marks
  omega

theorem spreadMarks_spec (index_granularity min_rows : Nat)
    (random_shuffle : List DataPartRange → List DataPartRange) (parts : List DataPartRange)
    (threads : Nat) (hne : random_shuffle parts ≠ [])
    (hparts : ∀ r ∈ random_shuffle parts, r.first_mark ≤ r.last_mark ∧ r.last_mark < 2 ^ 64)
    (hsum : ((random_shuffle parts).map DataPartRange.marks).sum < 2 ^ 64)
    (hthreads : 1 ≤ threads) :
    ∃ res plan,
      spreadMarks index_granularity min_rows random_shuffle parts
        ((random_shuffle parts).map DataPartRange.marks).sum threads = .ok res ∧
      plan.map Prod.fst = random_shuffle parts ∧
      (∀ e ∈ plan, (∀ m ∈ e.2, 1 ≤ m) ∧ e.2.sum = e.1.marks) ∧
      flattenStreams res = planStreams index_granularity plan ∧
      (∀ e ∈ plan, TailOK index_granularity min_rows e.1.marks 0 e.2) := by
  obtain ⟨cur0, todo0, hP0⟩ := List.exists_cons_of_ne_nil hne
  have hS1 : 1 ≤ ((random_shuffle parts).map DataPartRange.marks).sum := by
    rw [hP0, List.map_cons, List.sum_cons]
    have := marks_pos cur0
    omega
  have hinv0 : SpreadInv index_granularity min_rows (random_shuffle parts) ⟨0, 0, 0⟩
      (flattenStreams []) :=
    ⟨[], cur0, [], todo0, by rw [hP0]; rfl, rfl, by simp, by simp, rfl, Nat.zero_le _, rfl, rfl,
      by simp, by simp [TailOK]⟩
  obtain ⟨s1, res1, h1, h2, h3⟩ := spreadFor_spec index_granularity min_rows
    (random_shuffle parts) (min threads ((random_shuffle parts).map DataPartRange.marks).sum)
    hparts hsum (min threads ((random_shuffle parts).map DataPartRange.marks).sum) ⟨0, 0, 0⟩ []
    hinv0
  have hle := spreadInv_le _ _ _ _ _ h2
  obtain ⟨done, cur, ms, todo, hP, hc, hdone, hms, hmsum, hpos, hem, hspread, htd, htc⟩ := h2
  have hsplit := sum_marks_split done cur todo
  rw [← hP] at hsplit
  unfold spreadMarks
  rw [if_pos (by omega)]
  simp only
  rw [h1]
  simp only
  obtain ⟨S, hS⟩ : ∃ S, ((random_shuffle parts).map DataPartRange.marks).sum = S := ⟨_, rfl⟩
  rw [hS] at h3 hle hsplit hS1 hsum ⊢
  obtain ⟨eff, heff⟩ : ∃ eff, min threads S = eff := ⟨_, rfl⟩
  rw [heff] at h3
  have heff1 : 1 ≤ eff := by rw [← heff]; omega
  have hq := @Nat.lt_div_mul_add (S - 1) eff (by omega)
  have hmul : eff * ((S - 1) / eff + 1) = (S - 1) / eff * eff + eff := by ring
  rw [Nat.zero_add, hmul] at h3
  have hfull : s1.marks_spread = S := by
    rcases Nat.le_total S ((S - 1) / eff * eff + eff) with h | h
    · rw [Nat.min_eq_left h] at h3
      omega
    · omega
  have htodo : todo = [] := by
    cases todo with
    | nil => rfl
    | cons nxt todo =>
      rw [List.map_cons, List.sum_cons] at hsplit
      have := marks_pos nxt
      omega
  subst htodo
  simp only [List.map_nil, List.sum_nil] at hsplit
  have hback : (random_shuffle parts).getLast? = some cur := by
    rw [hP, List.getLast?_append_of_ne_nil _ (by simp)]
    rfl
  have hlen : (random_shuffle parts).length = done.length + 1 := by
    rw [hP]; simp
  have hcur : cur ∈ random_shuffle parts := by rw [hP]; simp
  have hmk := marks_machine cur (hparts cur hcur).1 (hparts cur hcur).2 (by omega)
  rw [hback]
  simp only
  rw [if_neg (by rw [hmk, hlen]; omega)]
  refine ⟨res1, done ++ [(cur, ms)], rfl, ?_, ?_, ?_, ?_⟩
  · rw [hP]; simp
  · intro e he
    rcases List.mem_append.1 he with he | he
    · exact hdone e he
    · rw [List.mem_singleton] at he
      subst he
      exact ⟨hms, by simp only; omega⟩
  · rw [hem, planStreams_append]
    simp [planStreams]
  · intro e he
    rcases List.mem_append.1 he with he | he
    · exact htd e he
    · rw [List.mem_singleton] at he
      subst he
      exact htc

theorem mem_le_sum (ms : List Nat) (m : Nat) (h : m ∈ ms) : m ≤ ms.sum := by
  induction ms with
  | nil => simp at h
  | cons a ms ih =>
    rw [List.sum_cons]
    rcases List.mem_cons.1 h with rfl | h
    · omega
    · have := ih h
      omega

/-- C11: let `read` have selected a non-empty list of ranges `[first_mark, last_mark]`
with `first_mark ≤ last_mark` (marks being `size_t` values whose sum fits `size_t`), let
`threads ≥ 1` and let the shuffle give any order of the ranges.  Then `read` returns
streams, and the streams of parts behind them are, part after part in the order of the
shuffle, the streams of each part back to back: each starts at `first_mark` plus the marks
already handed out from the part, takes at least one mark and has the row limit
`marks * index_granularity` (the `size_t` product, which is the product when the rows
of the part fit `size_t`), and the marks taken from a part sum to
`last_mark - first_mark + 1`. -/
theorem read_streams_cover_ranges {K : Type} (index_granularity : Nat)
    (settings : StorageMergeTreeSettings) (env : ReadEnv K) (st : Storage) (threads : Nat)
    (parts : List DataPartRange) (sum_marks : Nat)
    (hsel : selectRanges env (selectByDate env.date_condition st.data_parts) =
      some (parts, sum_marks))
    (hne : parts ≠ [])
    (hrange : ∀ r ∈ parts, r.first_mark ≤ r.last_mark ∧ r.last_mark < 2 ^ 64)
    (hfit : (parts.map DataPartRange.marks).sum < 2 ^ 64)
    (hthreads : 1 ≤ threads)
    (hshuffle : (env.random_shuffle parts).Perm parts) :
    ∃ res plan,
      read index_granularity settings env st threads = .ok res ∧
      plan.map Prod.fst = env.random_shuffle parts ∧
      (∀ e ∈ plan, (∀ m ∈ e.2, 1 ≤ m) ∧ e.2.sum = e.1.last_mark - e.1.first_mark + 1) ∧
      flattenStreams res = planStreams index_granularity plan ∧
      ((∀ r ∈ parts, r.marks * index_granularity < 2 ^ 64) →
        ∀ e ∈ plan, ∀ m ∈ e.2, sizeMul m index_granularity = m * index_granularity) := by
  have hsumeq : ((env.random_shuffle parts).map DataPartRange.marks).sum =
      (parts.map DataPartRange.marks).sum := (hshuffle.map _).sum_eq
  have hsm := selectRanges_sum env _ parts sum_marks hsel hrange hfit
  have hne1 : env.random_shuffle parts ≠ [] := by
    intro h
    rw [h] at hshuffle
    exact hne (List.nil_perm.1 hshuffle)
  obtain ⟨res, plan, h1, h2, h3, h4, -⟩ := spreadMarks_spec index_granularity
    settings.min_rows_for_concurrent_read env.random_shuffle parts threads hne1
    (fun r hr => hrange r (hshuffle.mem_iff.1 hr)) (by rw [hsumeq]; exact hfit) hthreads
  refine ⟨res, plan, ?_, h2, h3, h4, ?_⟩
  · unfold read
    rw [hsel]
    simp only
    rw [hsm, ← hsumeq]
    exact h1
  · intro hrows e he m hm
    have hmem : e.1 ∈ parts := by
      apply hshuffle.mem_iff.1
      rw [← h2]
      exact List.mem_map_of_mem _ he
    have h5 := mem_le_sum e.2 m hm
    have h6 := (h3 e he).2
    have h7 := hrows e.1 hmem
    have h8 : m * index_granularity ≤ e.1.marks * index_granularity :=
      Nat.mul_le_mul_right _ (by omega)
    unfold sizeMul
    exact Nat.mod_eq_of_lt (by omega)

/-- C11 on the table of the example, for two threads. -/
theorem read_streams_cover_ranges_witness :
    selectRanges exampleReadEnv
        (selectByDate exampleReadEnv.date_condition exampleStorage.data_parts) =
      some (exampleRanges, 3) ∧
    ∃ res plan,
      read 2 exampleSettings exampleReadEnv exampleStorage 2 = .ok res ∧
      plan.map Prod.fst = exampleReadEnv.random_shuffle exampleRanges ∧
      (∀ e ∈ plan, (∀ m ∈ e.2, 1 ≤ m) ∧ e.2.sum = e.1.last_mark - e.1.first_mark + 1) ∧
      flattenStreams res = planStreams 2 plan ∧
      ((∀ r ∈ exampleRanges, r.marks * 2 < 2 ^ 64) →
        ∀ e ∈ plan, ∀ m ∈ e.2, sizeMul m 2 = m * 2) :=
  ⟨by decide,
    read_streams_cover_ranges 2 exampleSettings exampleReadEnv exampleStorage 2 exampleRanges 3
      (by decide) (by decide) (by decide) (by decide) (by decide) (List.Perm.refl _)⟩

theorem maxLevel_spec (parts : List DataPart) :
    ∀ level, level ≤ maxLevel parts level ∧ (∀ q ∈ parts, q.level ≤ maxLevel parts level) ∧
      (maxLevel parts level = level ∨ ∃ q ∈ parts, maxLevel parts level = q.level) := by
  induction parts with
  | nil => intro level; simp [maxLevel]
  | cons p rest ih =>
    intro level
    have e : maxLevel (p :: rest) level = maxLevel rest (max level p.level) := rfl
    rw [e]
    obtain ⟨h1, h2, h3⟩ := ih (max level p.level)
    refine ⟨by omega, ?_, ?_⟩
    · intro q hq
      rcases List.mem_cons.1 hq with rfl | hq
      · omega
      · exact h2 q hq
    · rcases h3 with h3 | ⟨q, hq, h3⟩
      · rcases Nat.le_total level p.level with h | h
        · exact Or.inr ⟨p, List.mem_cons_self _ _, by rw [h3, Nat.max_eq_right h]⟩
        · exact Or.inl (by rw [h3, Nat.max_eq_left h])
      · exact Or.inr ⟨q, List.mem_cons_of_mem _ hq, h3⟩

/-- C21 fails as stated: `loadDataParts` loads the parts
`20240101_20240103_1_1_4294967295` and `20240104_20240105_2_2_0`, `selectPartsToMerge`
returns both, and `mergeParts` builds from them the part `20240101_20240105_1_2_0` of
the level 0, while one more than the greatest level of the sources is `4294967296`: the
increment of the 32-bit level wraps around. -/
theorem mergeParts_level_counterexample :
    loadDataParts exampleLUT wrapDirectory Storage.empty = .ok wrapLoaded ∧
    selectPartsToMerge 2 exampleSettings wrapLoaded [] = (true, wrapChosen, wrapSelected) ∧
    wrapChosen.map (fun p => (p.name, p.level)) =
      [("20240101_20240103_1_1_4294967295", 4294967295), ("20240104_20240105_2_2_0", 0)] ∧
    (∃ st1, mergeParts exampleLUT wrapSelected wrapChosen (.ok 4) 0 = .ok st1 ∧
      st1.data_parts.map (fun p => (p.name, p.left, p.right, p.level)) =
        [("20240101_20240105_1_2_0", 1, 2, 0)]) ∧
    (∃ front back, wrapChosen.head? = some front ∧ wrapChosen.getLast? = some back ∧
      (mergedDataPart exampleLUT wrapChosen front back).level = 0 ∧
      (mergedDataPart exampleLUT wrapChosen front back).name = "20240101_20240105_1_2_0" ∧
      ¬ (∃ q ∈ wrapChosen, (mergedDataPart exampleLUT wrapChosen front back).level =
        1 + q.level)) := by
  refine ⟨by decide, by decide, by decide, ?_, ?_⟩
  · exact ⟨(match mergeParts exampleLUT wrapSelected wrapChosen (.ok 4) 0 with
      | .ok st => st
      | _ => Storage.empty), by decide, by decide⟩
  · exact ⟨wrapChosen.head (by decide), wrapChosen.getLast (by decide), by decide, by decide,
      by decide, by decide, by decide⟩

/-- C21 as amended: for a non-empty vector of source parts with the first part `front`
and the last part `back`, whose levels are 32-bit values, the descriptor that
`mergeParts` builds, and hands to the last block with the size and the time filled in,
has `left = front.left`, `right = back.right` and the level `(1 + m) mod 2 ^ 32` for the
greatest level `m` of the sources: one more than the greatest level when every level is
below `2 ^ 32 - 1`, and 0 when a source has the level `2 ^ 32 - 1`; its name is
`getPartName` of its dates, ids and level. -/
theorem mergeParts_descriptor (lut : DateLUT) (st : Storage) (parts : List DataPart)
    (front back : DataPart) (marks_count now : Nat)
    (hfront : parts.head? = some front) (hback : parts.getLast? = some back)
    (hlevels : ∀ q ∈ parts, q.level < 2 ^ 32) :
    mergeParts lut st parts (.ok marks_count) now =
      commitMerge st
        { mergedDataPart lut parts front back with
          size := marks_count, modification_time := now } parts ∧
    (mergedDataPart lut parts front back).left = front.left ∧
    (mergedDataPart lut parts front back).right = back.right ∧
    (∃ q ∈ parts, (∀ q' ∈ parts, q'.level ≤ q.level) ∧
      (mergedDataPart lut parts front back).level = (1 + q.level) % 2 ^ 32) ∧
    ((∀ q ∈ parts, q.level < 2 ^ 32 - 1) →
      (∀ q ∈ parts, q.level + 1 ≤ (mergedDataPart lut parts front back).level) ∧
      ∃ q ∈ parts, (mergedDataPart lut parts front back).level = 1 + q.level) ∧
    ((∃ q ∈ parts, q.level = 2 ^ 32 - 1) → (mergedDataPart lut parts front back).level = 0) ∧
    (mergedDataPart lut parts front back).name =
      getPartName lut (mergedDataPart lut parts front back).left_date
        (mergedDataPart lut parts front back).right_date
        (mergedDataPart lut parts front back).left
        (mergedDataPart lut parts front back).right
        (mergedDataPart lut parts front back).level := by
  obtain ⟨h1, h2, h3⟩ := maxLevel_spec parts 0
  have hlevel : (mergedDataPart lut parts front back).level = (maxLevel parts 0 + 1) % 2 ^ 32 :=
    rfl
  have hmem : front ∈ parts := by
    cases parts with
    | nil => simp at hfront
    | cons a rest =>
      simp only [List.head?_cons, Option.some.injEq] at hfront
      rw [hfront]
      exact List.mem_cons_self _ _
  have hmax : ∃ q ∈ parts, maxLevel parts 0 = q.level := by
    rcases h3 with h3 | h3
    · have := h2 front hmem
      exact ⟨front, hmem, by omega⟩
    · exact h3
  obtain ⟨m, hm, hmeq⟩ := hmax
  refine ⟨?_, rfl, rfl, ⟨m, hm, ?_, ?_⟩, ?_, ?_, rfl⟩
  · unfold mergeParts
    rw [hfront, hback]
  · intro q hq
    have := h2 q hq
    omega
  · rw [hlevel, hmeq, Nat.add_comm]
  · intro hsmall
    have hm1 := hsmall m hm
    have e : (maxLevel parts 0 + 1) % 2 ^ 32 = maxLevel parts 0 + 1 :=
      Nat.mod_eq_of_lt (by omega)
    rw [hlevel, e]
    refine ⟨?_, m, hm, by omega⟩
    intro q hq
    have := h2 q hq
    omega
  · rintro ⟨q, hq, hqe⟩
    have hq1 := h2 q hq
    have hm1 := hlevels m hm
    have e : maxLevel parts 0 + 1 = 2 ^ 32 := by omega
    rw [hlevel, e, Nat.mod_self]

/-- C21 as amended, at the example: the parts `20240101_20240103_1_1_0` and
`20240104_20240105_2_2_0` give the part `20240101_20240105_1_2_1`. -/
theorem mergeParts_descriptor_witness :
    exampleChosen.map DataPart.name = ["20240101_20240103_1_1_0", "20240104_20240105_2_2_0"] ∧
    (∃ front back, exampleChosen.head? = some front ∧ exampleChosen.getLast? = some back ∧
      (mergedDataPart exampleLUT exampleChosen front back).name = "20240101_20240105_1_2_1" ∧
      (mergedDataPart exampleLUT exampleChosen front back).left = front.left ∧
      (mergedDataPart exampleLUT exampleChosen front back).right = back.right) :=
  ⟨by decide,
    exampleChosen.head (by decide), exampleChosen.getLast (by decide), by decide, by decide,
    by decide,
    (mergeParts_descriptor exampleLUT exampleSelected exampleChosen
      (exampleChosen.head (by decide)) (exampleChosen.getLast (by decide)) 3 0
      (by decide) (by decide) (by decide)).2.1,
    (mergeParts_descriptor exampleLUT exampleSelected exampleChosen
      (exampleChosen.head (by decide)) (exampleChosen.getLast (by decide)) 3 0
      (by decide) (by decide) (by decide)).2.2.1⟩

/-- C25: for a part of `size ≥ 1` marks and a key condition with `alwaysTrue()`,
`markRangeFromPkRange` returns `out_first_mark = 0` and `out_last_mark = size - 1`,
whatever the index holds. -/
theorem markRangeFromPkRange_always_true {K : Type} (marks_count : Nat) (index : List K)
    (key_condition : PkCondition K) (hsize : 1 ≤ marks_count)
    (halways : key_condition.alwaysTrue = true) :
    markRangeFromPkRange marks_count index key_condition = some (0, marks_count - 1) := by
  unfold markRangeFromPkRange
  simp only
  rw [if_pos halways, if_neg (by omega)]

/-- C25 at a part of three marks, with an index that does not fit the part. -/
theorem markRangeFromPkRange_always_true_witness :
    markRangeFromPkRange 3 [7] exampleReadEnv.date_condition = some (0, 3 - 1) :=
  markRangeFromPkRange_always_true 3 [7] exampleReadEnv.date_condition (by decide) rfl

theorem writeIndex_spec {K : Type} (index_granularity : Nat) (block : List K)
    (hg : 1 ≤ index_granularity) :
    ∀ (fuel i : Nat) (s : MergedBlockOutputStream K), block.length ≤ i + fuel →
      ∃ s1, writeIndex index_granularity block fuel i s = some s1 ∧
        s.marks_count ≤ s1.marks_count ∧
        (i < block.length → s.marks_count < s1.marks_count) := by
  intro fuel
  induction fuel with
  | zero =>
    intro i s h
    refine ⟨s, ?_, Nat.le_refl _, fun hi => by omega⟩
    rw [writeIndex, if_neg (by omega)]
  | succ fuel ih =>
    intro i s h
    rw [writeIndex]
    cases hget : block.get? i with
    | none =>
      refine ⟨s, rfl, Nat.le_refl _, ?_⟩
      intro hi
      rw [List.get?_eq_getElem?, List.getElem?_eq_none_iff] at hget
      omega
    | some pk =>
      simp only
      obtain ⟨s1, h1, h2, -⟩ := ih (i + index_granularity)
        { s with index_stream := s.index_stream ++ [pk], marks_count := s.marks_count + 1 }
        (by omega)
      simp only at h2
      exact ⟨s1, h1, by omega, fun _ => by omega⟩

theorem write_spec {K : Type} (index_granularity : Nat) (s : MergedBlockOutputStream K)
    (block : List K) (hg : 1 ≤ index_granularity) :
    ∃ s1, MergedBlockOutputStream.write index_granularity s block = some s1 ∧
      s1.index_offset = (index_granularity - block.length % index_granularity) %
        index_granularity ∧
      s.marks_count ≤ s1.marks_count ∧
      (s.index_offset < block.length → s.marks_count < s1.marks_count) ∧
      (block = [] → s1.marks_count = s.marks_count) := by
  obtain ⟨s1, h1, h2, h3⟩ := writeIndex_spec index_granularity block hg block.length
    s.index_offset s (by omega)
  refine ⟨{ s1 with
            index_offset :=
              if block.length % index_granularity ≠ 0 then
                index_granularity - block.length % index_granularity
              else 0 }, ?_, ?_, h2, h3, ?_⟩
  · unfold MergedBlockOutputStream.write
    simp only
    rw [h1]
  · simp only
    have hlt := Nat.mod_lt block.length (by omega : index_granularity > 0)
    by_cases h0 : block.length % index_granularity = 0
    · rw [if_neg (by simpa using h0), h0, Nat.sub_zero, Nat.mod_self]
    · rw [if_pos h0]
      exact (Nat.mod_eq_of_lt (by omega)).symm
  · intro hb
    subst hb
    have : writeIndex index_granularity ([] : List K) ([] : List K).length s.index_offset s =
        some s := by
      rw [List.length_nil, writeIndex, if_neg (by simp)]
    rw [this] at h1
    simp only [Option.some.injEq] at h1
    rw [← h1]

theorem writeAll_marks_pos {K : Type} (index_granularity : Nat) (hg : 1 ≤ index_granularity)
    (blocks : List (List K)) :
    ∀ s : MergedBlockOutputStream K, 0 < s.marks_count →
      ∃ s1, MergedBlockOutputStream.writeAll index_granularity s blocks = some s1 ∧
        0 < s1.marks_count := by
  induction blocks with
  | nil => intro s h; exact ⟨s, rfl, h⟩
  | cons block rest ih =>
    intro s h
    obtain ⟨s1, h1, -, h2, -, -⟩ := write_spec index_granularity s block hg
    obtain ⟨s2, h3, h4⟩ := ih s1 (by omega)
    refine ⟨s2, ?_, h4⟩
    rw [MergedBlockOutputStream.writeAll, h1]
    exact h3

theorem writeAll_marks_zero {K : Type} (index_granularity : Nat) (hg : 1 ≤ index_granularity)
    (blocks : List (List K)) :
    ∀ s : MergedBlockOutputStream K, s.marks_count = 0 → s.index_offset = 0 →
      ∃ s1, MergedBlockOutputStream.writeAll index_granularity s blocks = some s1 ∧
        (s1.marks_count = 0 ↔ ∀ block ∈ blocks, block = []) := by
  induction blocks with
  | nil => intro s h _; exact ⟨s, rfl, by simp [h]⟩
  | cons block rest ih =>
    intro s hm ho
    obtain ⟨s1, h1, h2, h3, h4, h5⟩ := write_spec index_granularity s block hg
    rw [MergedBlockOutputStream.writeAll, h1]
    simp only
    cases block with
    | nil =>
      have hm1 := h5 rfl
      obtain ⟨s2, h6, h7⟩ := ih s1 (by omega) (by rw [h2]; simp)
      refine ⟨s2, h6, ?_⟩
      rw [h7]
      simp
    | cons row block =>
      have := h4 (by rw [ho]; simp)
      obtain ⟨s2, h6, h7⟩ := writeAll_marks_pos index_granularity hg rest s1 (by omega)
      refine ⟨s2, h6, ?_⟩
      constructor
      · intro h; omega
      · intro h
        have := h (row :: block) (List.mem_cons_self _ _)
        simp at this

/-- C29: for `index_granularity = g ≥ 1`, every state of the writer and every block of
`R` rows, `MergedBlockOutputStream::write` returns and leaves
`index_offset = (g - R mod g) mod g`. -/
theorem write_index_offset {K : Type} (index_granularity : Nat)
    (s : MergedBlockOutputStream K) (block : List K) (hg : 1 ≤ index_granularity) :
    ∃ s1, MergedBlockOutputStream.write index_granularity s block = some s1 ∧
      s1.index_offset = (index_granularity - block.length % index_granularity) %
        index_granularity := by
  obtain ⟨s1, h1, h2, -⟩ := write_spec index_granularity s block hg
  exact ⟨s1, h1, h2⟩

/-- C29 at a block of three rows written with two rows to a mark after a block that
left the offset 1. -/
theorem write_index_offset_witness :
    MergedBlockOutputStream.write 2 ⟨1, 1, [10]⟩ [20, 30, 40] = some ⟨2, 1, [10, 30]⟩ ∧
      ∃ s1, MergedBlockOutputStream.write 2 ⟨1, 1, [10]⟩ [20, 30, 40] = some s1 ∧
        s1.index_offset = (2 - [20, 30, 40].length % 2) % 2 :=
  ⟨by decide, write_index_offset 2 ⟨1, 1, [10]⟩ [20, 30, 40] (by decide)⟩

/-- C23: `writeSuffix` throws the logical error `Empty part` if and only if
`marksCount()` is 0, and then the directory is as before, with the entry `tmp_…` not
renamed; otherwise it renames.  After blocks written to a fresh stream, `marksCount()` is
0 if and only if every block was empty, so that no row was written. -/
theorem writeSuffix_throws_iff_no_mark {K : Type} (index_granularity : Nat)
    (s : MergedBlockOutputStream K) (part_name : String) (names : List String)
    (blocks : List (List K)) (hg : 1 ≤ index_granularity) :
    ((∃ message names1, s.writeSuffix part_name names =
        .thrown (.LOGICAL_ERROR message) names1) ↔ s.marksCount = 0) ∧
    (s.marksCount = 0 →
      s.writeSuffix part_name names = .thrown (.LOGICAL_ERROR "Empty part") names) ∧
    (s.marksCount ≠ 0 →
      s.writeSuffix part_name names =
        .ok (names.map (fun name => if name = "tmp_" ++ part_name then part_name else name))) ∧
    ∃ s1, MergedBlockOutputStream.writeAll index_granularity (MergedBlockOutputStream.init K)
        blocks = some s1 ∧
      (s1.marksCount = 0 ↔ ∀ block ∈ blocks, block = []) := by
  refine ⟨?_, ?_, ?_, writeAll_marks_zero index_granularity hg blocks _ rfl rfl⟩
  · unfold MergedBlockOutputStream.writeSuffix MergedBlockOutputStream.marksCount
    by_cases h : s.marks_count = 0
    · rw [if_pos h]
      exact ⟨fun _ => h, fun _ => ⟨_, _, rfl⟩⟩
    · rw [if_neg h]
      constructor
      · rintro ⟨m, n, hh⟩
        simp at hh
      · intro hh
        exact absurd hh h
  · intro h
    have h0 : s.marks_count = 0 := h
    unfold MergedBlockOutputStream.writeSuffix
    rw [if_pos h0]
  · intro h
    have h0 : ¬ s.marks_count = 0 := h
    unfold MergedBlockOutputStream.writeSuffix
    rw [if_neg h0]

/-- C23 at a stream that was given two empty blocks, in a directory with its `tmp_`
entry. -/
theorem writeSuffix_throws_iff_no_mark_witness :
    MergedBlockOutputStream.writeAll 2 (MergedBlockOutputStream.init Nat) [[], []] =
        some ⟨0, 0, []⟩ ∧
      (⟨0, 0, []⟩ : MergedBlockOutputStream Nat).writeSuffix "20240101_20240105_1_2_1"
          ["20240101_20240103_1_1_0", "tmp_20240101_20240105_1_2_1"] =
        .thrown (.LOGICAL_ERROR "Empty part")
          ["20240101_20240103_1_1_0", "tmp_20240101_20240105_1_2_1"] ∧
      (⟨2, 1, [10, 30]⟩ : MergedBlockOutputStream Nat).writeSuffix "20240101_20240105_1_2_1"
          ["20240101_20240103_1_1_0", "tmp_20240101_20240105_1_2_1"] =
        .ok ["20240101_20240103_1_1_0", "20240101_20240105_1_2_1"] :=
  ⟨by decide,
    (writeSuffix_throws_iff_no_mark 2 (⟨0, 0, []⟩ : MergedBlockOutputStream Nat)
      "20240101_20240105_1_2_1" ["20240101_20240103_1_1_0", "tmp_20240101_20240105_1_2_1"]
      [[], []] (by decide)).2.1 rfl,
    by decide⟩

/-- C28: when `selectPartsToMerge` returns `true`, the active set is a run of parts
between two other stretches, the returned vector is that run in the order of the set
with `currently_merging = true` on every part (the flag was clear before), and the active
set after the call holds the same parts at the same places, the parts outside the run
unchanged; in the set of all parts the flag is set on the parts of the run and on no
other, and the counter and the references of readers are as before. -/
theorem selectPartsToMerge_marks_returned_parts (index_granularity : Nat)
    (settings : StorageMergeTreeSettings) (st : Storage) (parts0 parts : List DataPart)
    (st1 : Storage)
    (h : selectPartsToMerge index_granularity settings st parts0 = (true, parts, st1)) :
    ∃ pre run post, st.data_parts = pre ++ run ++ post ∧
      parts = run.map DataPart.setMerging ∧
      st1.data_parts = pre ++ parts ++ post ∧
      (∀ p ∈ run, p.currently_merging = false) ∧
      (∀ p ∈ parts, p.currently_merging = true) ∧
      st1.data_parts.map (fun p => { p with currently_merging := false }) =
        st.data_parts.map (fun p => { p with currently_merging := false }) ∧
      st1.all_data_parts = markMerging run st.all_data_parts ∧
      st1.increment = st.increment ∧ st1.held = st.held := by
  obtain ⟨pre, run, post, hdp, hv, hparts, hst1⟩ :=
    selectPartsToMerge_found index_granularity settings st parts0 parts st1 h
  obtain ⟨-, -, ⟨month, hm⟩, -, -⟩ := hv
  refine ⟨pre, run, post, hdp, hparts, ?_, fun p hp => (hm p hp).1, ?_, ?_, ?_, ?_, ?_⟩
  · rw [hst1, hparts]
  · intro p hp
    rw [hparts] at hp
    obtain ⟨q, -, rfl⟩ := List.mem_map.1 hp
    rfl
  · rw [hst1, hdp]
    simp only [List.map_append, List.map_map]
    rfl
  · rw [hst1]
  · rw [hst1]
  · rw [hst1]

/-- C28 at the table of the example. -/
theorem selectPartsToMerge_marks_returned_parts_witness :
    selectPartsToMerge 2 exampleSettings exampleStorage [] =
        (true, exampleChosen, exampleSelected) ∧
      ∃ pre run post, exampleStorage.data_parts = pre ++ run ++ post ∧
        exampleChosen = run.map DataPart.setMerging ∧
        exampleSelected.data_parts = pre ++ exampleChosen ++ post ∧
        (∀ p ∈ run, p.currently_merging = false) ∧
        (∀ p ∈ exampleChosen, p.currently_merging = true) ∧
        exampleSelected.data_parts.map (fun p => { p with currently_merging := false }) =
          exampleStorage.data_parts.map (fun p => { p with currently_merging := false }) ∧
        exampleSelected.all_data_parts = markMerging run exampleStorage.all_data_parts ∧
        exampleSelected.increment = exampleStorage.increment ∧
        exampleSelected.held = exampleStorage.held :=
  ⟨by decide,
    selectPartsToMerge_marks_returned_parts 2 exampleSettings exampleStorage [] exampleChosen
      exampleSelected (by decide)⟩

theorem digitChar_spec (k : Nat) (h : k < 10) :
    (Nat.digitChar k).isDigit = true ∧ (Nat.digitChar k).toNat - '0'.toNat = k := by
  interval_cases k <;> decide

theorem decimalValue_append (front : List Char) (c : Char) :
    decimalValue (front ++ [c]) = 10 * decimalValue front + (c.toNat - '0'.toNat) := by
  unfold decimalValue
  rw [List.foldl_append]
  rfl

/-- The digits that `Nat.toDigitsCore` puts before `ds`, for enough fuel: decimal
digits, at least one, that `decimalValue` reads back as the number, and as many as the
number has decimal places. -/
theorem toDigitsCore_spec :
    ∀ (fuel n : Nat) (ds : List Char), n < fuel →
      ∃ front, Nat.toDigitsCore 10 fuel n ds = front ++ ds ∧ front ≠ [] ∧
        (∀ c ∈ front, c.isDigit = true) ∧ decimalValue front = n ∧
        n < 10 ^ front.length ∧ (front.length = 1 ∨ 10 ^ (front.length - 1) ≤ n) := by
  intro fuel
  induction fuel with
  | zero => intro n ds h; omega
  | succ fuel ih =>
    intro n ds h
    rw [Nat.toDigitsCore]
    obtain ⟨hd1, hd2⟩ := digitChar_spec (n % 10) (Nat.mod_lt _ (by decide))
    by_cases h0 : n / 10 = 0
    · rw [if_pos h0]
      have hn : n < 10 := by omega
      refine ⟨[Nat.digitChar (n % 10)], rfl, by simp, ?_, ?_, ?_, Or.inl rfl⟩
      · intro c hc
        rw [List.mem_singleton] at hc
        rw [hc]
        exact hd1
      · have := decimalValue_append [] (Nat.digitChar (n % 10))
        rw [List.nil_append] at this
        rw [this, hd2]
        have : decimalValue [] = 0 := rfl
        omega
      · simpa using hn
    · rw [if_neg h0]
      obtain ⟨front, h1, h2, h3, h4, h5, h6⟩ := ih (n / 10) (Nat.digitChar (n % 10) :: ds)
        (by omega)
      refine ⟨front ++ [Nat.digitChar (n % 10)], ?_, by simp, ?_, ?_, ?_, ?_⟩
      · rw [h1]; simp
      · intro c hc
        rcases List.mem_append.1 hc with hc | hc
        · exact h3 c hc
        · rw [List.mem_singleton] at hc
          rw [hc]
          exact hd1
      · rw [decimalValue_append, h4, hd2]
        omega
      · rw [List.length_append, List.length_singleton, Nat.pow_succ]
        omega
      · right
        rw [List.length_append, List.length_singleton, Nat.add_sub_cancel]
        rcases h6 with h6 | h6
        · rw [h6]
          omega
        · have hl : 1 ≤ front.length := by
            cases front with
            | nil => exact absurd rfl h2
            | cons a t => simp
          have e : front.length = (front.length - 1) + 1 := by omega
          rw [e, Nat.pow_succ]
          omega

theorem writeIntText_spec (n : Nat) :
    (writeIntText n).toList ≠ [] ∧ (∀ c ∈ (writeIntText n).toList, c.isDigit = true) ∧
      decimalValue (writeIntText n).toList = n ∧
      n < 10 ^ (writeIntText n).toList.length ∧
      ((writeIntText n).toList.length = 1 ∨ 10 ^ ((writeIntText n).toList.length - 1) ≤ n) := by
  obtain ⟨front, h1, h2, h3, h4, h5, h6⟩ := toDigitsCore_spec (n + 1) n [] (by omega)
  have e : (writeIntText n).toList = front := by
    rw [List.append_nil] at h1
    rw [← h1]
    rfl
  rw [e]
  exact ⟨h2, h3, h4, h5, h6⟩

theorem writeIntText_date (n : Nat) (h1 : 10 ^ 7 ≤ n) (h2 : n < 10 ^ 8) :
    IsDateGroup (writeIntText n).toList := by
  obtain ⟨-, hd, -, h5, h6⟩ := writeIntText_spec n
  refine ⟨?_, hd⟩
  have hup : 7 < (writeIntText n).toList.length := by
    by_contra hcon
    have : 10 ^ (writeIntText n).toList.length ≤ 10 ^ 7 :=
      Nat.pow_le_pow_right (by decide) (by omega)
    omega
  rcases h6 with h6 | h6
  · omega
  · by_contra hcon
    have : 10 ^ 8 ≤ 10 ^ ((writeIntText n).toList.length - 1) :=
      Nat.pow_le_pow_right (by decide) (by omega)
    omega

theorem writeIntText_number (n : Nat) : IsNumberGroup (writeIntText n).toList :=
  ⟨(writeIntText_spec n).1, (writeIntText_spec n).2.1⟩

theorem getPartName_toList (lut : DateLUT) (left_date right_date left_id right_id level : Nat) :
    (getPartName lut left_date right_date left_id right_id level).toList =
      (writeIntText (lut.orderedIdentifier left_date)).toList ++ '_' ::
        ((writeIntText (lut.orderedIdentifier right_date)).toList ++ '_' ::
          ((writeIntText left_id).toList ++ '_' ::
            ((writeIntText right_id).toList ++ '_' :: (writeIntText level).toList))) := by
  unfold getPartName
  simp only [String.toList, String.data_append, List.append_assoc]
  rfl

/-- C27: for dates whose identifier `YYYYMMDD` has eight digits, ids that are `UInt64`
values and a level that is a `UInt32` value, the name that `getPartName` builds is the
five decimal fields joined by `_`; it matches the expression of `loadDataParts` as a
whole, the groups are the two date identifiers and the decimal texts of the ids and of
the level, and the part that `loadDataParts` builds from the name has the same ids and
level and the dates of the same identifiers. -/
theorem getPartName_round_trip (lut : DateLUT) (dir : Directory)
    (left_date right_date left_id right_id level : Nat)
    (hl : 10 ^ 7 ≤ lut.orderedIdentifier left_date ∧ lut.orderedIdentifier left_date < 10 ^ 8)
    (hr : 10 ^ 7 ≤ lut.orderedIdentifier right_date ∧ lut.orderedIdentifier right_date < 10 ^ 8)
    (hleft : left_id < 2 ^ 64) (hright : right_id < 2 ^ 64) (hlevel : level < 2 ^ 32) :
    (getPartName lut left_date right_date left_id right_id level).toList =
      (writeIntText (lut.orderedIdentifier left_date)).toList ++ '_' ::
        ((writeIntText (lut.orderedIdentifier right_date)).toList ++ '_' ::
          ((writeIntText left_id).toList ++ '_' ::
            ((writeIntText right_id).toList ++ '_' :: (writeIntText level).toList))) ∧
    MatchesWhole (getPartName lut left_date right_date left_id right_id level).toList ∧
    matchPartName (getPartName lut left_date right_date left_id right_id level).toList =
      some ((writeIntText (lut.orderedIdentifier left_date)).toList,
        (writeIntText (lut.orderedIdentifier right_date)).toList,
        (writeIntText left_id).toList, (writeIntText right_id).toList,
        (writeIntText level).toList) ∧
    decimalValue (writeIntText (lut.orderedIdentifier left_date)).toList =
      lut.orderedIdentifier left_date ∧
    decimalValue (writeIntText (lut.orderedIdentifier right_date)).toList =
      lut.orderedIdentifier right_date ∧
    ∃ p, loadPart lut dir (getPartName lut left_date right_date left_id right_id level) =
        .part p ∧
      p.left = left_id ∧ p.right = right_id ∧ p.level = level ∧
      p.left_date = lut.dayNumOfIdentifier (writeIntText (lut.orderedIdentifier left_date)) ∧
      p.right_date = lut.dayNumOfIdentifier (writeIntText (lut.orderedIdentifier right_date)) ∧
      p.name = getPartName lut left_date right_date left_id right_id level := by
  have d1 := writeIntText_date _ hl.1 hl.2
  have d2 := writeIntText_date _ hr.1 hr.2
  have d3 := writeIntText_number left_id
  have d4 := writeIntText_number right_id
  have d5 := writeIntText_number level
  have hname := getPartName_toList lut left_date right_date left_id right_id level
  have hmatch := matchPartName_whole _ _ _ _ _ d1 d2 d3 d4 d5
  rw [← hname] at hmatch
  refine ⟨hname, ?_, hmatch, (writeIntText_spec _).2.2.1, (writeIntText_spec _).2.2.1, ?_⟩
  · rw [hname]
    exact ⟨_, _, _, _, _, d1, d2, d3, d4, d5, rfl⟩
  · have e3 := (writeIntText_spec left_id).2.2.1
    have e4 := (writeIntText_spec right_id).2.2.1
    have e5 := (writeIntText_spec level).2.2.1
    obtain ⟨p, hp, hn, h3, h4, h5, h1, h2, -⟩ :=
      (loadPart_groups lut dir _ _ _ _ _ _ hmatch).1
        ⟨by rw [e3]; exact hleft, by rw [e4]; exact hright, by rw [e5]; exact hlevel⟩
    exact ⟨p, hp, by rw [h3, e3], by rw [h4, e4], by rw [h5, e5], h1, h2, hn⟩

/-- C27 at the first part of the example: the days 101 and 103 and the id 1. -/
theorem getPartName_round_trip_witness :
    getPartName exampleLUT 101 103 1 1 0 = "20240101_20240103_1_1_0" ∧
      ∃ p, loadPart exampleLUT scenarioDirectory (getPartName exampleLUT 101 103 1 1 0) =
          .part p ∧
        p.left = 1 ∧ p.right = 1 ∧ p.level = 0 ∧
        p.left_date =
          exampleLUT.dayNumOfIdentifier (writeIntText (exampleLUT.orderedIdentifier 101)) ∧
        p.right_date =
          exampleLUT.dayNumOfIdentifier (writeIntText (exampleLUT.orderedIdentifier 103)) ∧
        p.name = getPartName exampleLUT 101 103 1 1 0 :=
  ⟨by decide,
    (getPartName_round_trip exampleLUT scenarioDirectory 101 103 1 1 0 (by decide) (by decide)
      (by decide) (by decide) (by decide)).2.2.2.2.2⟩

theorem mem_insertStream (key : String) (streams : List String) (x : String) :
    x ∈ insertStream key streams ↔ x ∈ streams ∨ x = key := by
  unfold insertStream
  split_ifs with h
  · constructor
    · exact Or.inl
    · rintro (h1 | rfl)
      · exact h1
      · exact h
  · simp

theorem addStream_no_file (env : ReaderEnv) (name : String) (h : env.hasDataFile name = false)
    (depth level : Nat) (streams : List String) :
    addStream env name depth level streams = streams := by
  cases depth with
  | zero => rw [addStream, if_pos h]
  | succ depth => rw [addStream, if_pos h]

theorem addStream_mono (env : ReaderEnv) (name : String) :
    ∀ (depth level : Nat) (streams : List String) (x : String), x ∈ streams →
      x ∈ addStream env name depth level streams := by
  intro depth
  induction depth with
  | zero =>
    intro level streams x hx
    rw [addStream]
    split_ifs
    · exact hx
    · exact (mem_insertStream _ _ _).2 (Or.inl hx)
  | succ depth ih =>
    intro level streams x hx
    rw [addStream]
    split_ifs
    · exact hx
    · exact ih _ _ _ ((mem_insertStream _ _ _).2 (Or.inl hx))

theorem addStream_file (env : ReaderEnv) (name : String) (h : env.hasDataFile name = true) :
    ∀ (depth level : Nat) (streams : List String),
      name ∈ addStream env name depth level streams := by
  intro depth
  induction depth with
  | zero =>
    intro level streams
    rw [addStream, if_neg (by rw [h]; simp)]
    exact (mem_insertStream _ _ _).2 (Or.inr rfl)
  | succ depth ih =>
    intro level streams
    rw [addStream, if_neg (by rw [h]; simp)]
    exact ih _ _

theorem foldl_addStream_spec (env : ReaderEnv) (names : List String) :
    ∀ streams : List String,
      (∀ x ∈ streams, x ∈ names.foldl
        (fun acc name => addStream env name (env.arrayDepth name) 0 acc) streams) ∧
      (∀ name ∈ names, env.hasDataFile name = true → name ∈ names.foldl
        (fun acc name => addStream env name (env.arrayDepth name) 0 acc) streams) ∧
      ((∀ name ∈ names, env.hasDataFile name = false) → names.foldl
        (fun acc name => addStream env name (env.arrayDepth name) 0 acc) streams = streams) := by
  induction names with
  | nil => intro streams; simp
  | cons n rest ih =>
    intro streams
    rw [List.foldl_cons]
    obtain ⟨h1, h2, h3⟩ := ih (addStream env n (env.arrayDepth n) 0 streams)
    refine ⟨fun x hx => h1 x (addStream_mono env n _ _ _ x hx), ?_, ?_⟩
    · intro name hname hfile
      rcases List.mem_cons.1 hname with rfl | hname
      · exact h1 _ (addStream_file env name hfile _ _ _)
      · exact h2 name hname hfile
    · intro hall
      rw [h3 (fun name hname => hall name (List.mem_cons_of_mem _ hname)),
        addStream_no_file env n (hall n (List.mem_cons_self _ _))]

theorem readColumns_flags (env : ReaderEnv) (streams : List String)
    (rows_read max_rows_to_read : Nat) (names : List String) :
    ∀ acc : Bool × Bool × List (String × Nat),
      ((readColumns env streams rows_read max_rows_to_read names acc).1 = true ↔
        acc.1 = true ∨ ∃ name ∈ names, name ∉ streams) ∧
      ((readColumns env streams rows_read max_rows_to_read names acc).2.1 = true ↔
        acc.2.1 = true ∨ ∃ name ∈ names, name ∈ streams) := by
  induction names with
  | nil => intro acc; simp [readColumns]
  | cons n rest ih =>
    rintro ⟨has_missing, has_normal, res⟩
    rw [readColumns]
    by_cases hn : n ∈ streams
    · rw [if_neg (not_not.2 hn)]
      simp only
      obtain ⟨h1, h2⟩ := ih (has_missing, true,
        if env.readData n rows_read max_rows_to_read ≠ 0 then
          res ++ [(n, env.readData n rows_read max_rows_to_read)] else res)
      rw [h1, h2]
      refine ⟨⟨?_, ?_⟩, ⟨fun _ => Or.inr ⟨n, List.mem_cons_self _ _, hn⟩, fun _ => Or.inl rfl⟩⟩
      · rintro (h | ⟨x, hx, hxs⟩)
        · exact Or.inl h
        · exact Or.inr ⟨x, List.mem_cons_of_mem _ hx, hxs⟩
      · rintro (h | ⟨x, hx, hxs⟩)
        · exact Or.inl h
        · rcases List.mem_cons.1 hx with rfl | hx
          · exact absurd hn hxs
          · exact Or.inr ⟨x, hx, hxs⟩
    · rw [if_pos hn]
      obtain ⟨h1, h2⟩ := ih (true, has_normal, res)
      rw [h1, h2]
      refine ⟨⟨fun _ => Or.inr ⟨n, List.mem_cons_self _ _, hn⟩, fun _ => Or.inl rfl⟩, ⟨?_, ?_⟩⟩
      · rintro (h | ⟨x, hx, hxs⟩)
        · exact Or.inl h
        · exact Or.inr ⟨x, List.mem_cons_of_mem _ hx, hxs⟩
      · rintro (h | ⟨x, hx, hxs⟩)
        · exact Or.inl h
        · rcases List.mem_cons.1 hx with rfl | hx
          · exact absurd hxs hn
          · exact Or.inr ⟨x, hx, hxs⟩

theorem readImpl_streams (env : ReaderEnv) (s : ReaderState)
    (hstreams : s.streams = [] ∨ s.streams = openStreams env []) :
    (if s.streams.isEmpty = true then openStreams env s.streams else s.streams) =
      openStreams env [] := by
  by_cases he : s.streams.isEmpty = true
  · rw [if_pos he]
    rw [List.isEmpty_iff] at he
    rw [he]
  · rw [if_neg he]
    rcases hstreams with h | h
    · rw [h] at he
      simp at he
    · exact h

theorem ite_nil_or (c : Prop) [Decidable c] (l : List String) :
    (if c then [] else l) = [] ∨ (if c then [] else l) = l := by
  by_cases h : c
  · rw [if_pos h]; exact Or.inl rfl
  · rw [if_neg h]; exact Or.inr rfl

/-- C24: for a reader whose row limit is not exhausted and whose files are closed or
open as `readImpl` opens them, `readImpl` throws `ALL_REQUESTED_COLUMNS_ARE_MISSING` if
and only if a column is requested and no requested column has a data file in the part;
if a requested column has a data file it returns a block; and after a block the files
are again closed or open as before. -/
theorem readImpl_all_columns_missing (env : ReaderEnv) (r : MergeTreeBlockInputStream)
    (s : ReaderState) (hlimit : s.rows_read ≠ r.rows_limit)
    (hstreams : s.streams = [] ∨ s.streams = openStreams env []) :
    ((∃ s1, readImpl env r s = .thrown .ALL_REQUESTED_COLUMNS_ARE_MISSING s1) ↔
      (env.column_names ≠ [] ∧ ∀ name ∈ env.column_names, env.hasDataFile name = false)) ∧
    ((∃ name ∈ env.column_names, env.hasDataFile name = true) →
      ∃ s1 res, readImpl env r s = .ok (s1, res)) ∧
    (∀ s1 res, readImpl env r s = .ok (s1, res) →
      s1.streams = [] ∨ s1.streams = openStreams env []) := by
  have hS := readImpl_streams env s hstreams
  obtain ⟨o1, o2, o3⟩ := foldl_addStream_spec env env.column_names []
  obtain ⟨f1, f2⟩ := readColumns_flags env (openStreams env []) s.rows_read
    (min env.block_size (sizeSub r.rows_limit s.rows_read)) env.column_names (false, false, [])
  simp only [Bool.false_eq_true, false_or] at f1 f2
  have hthrow : ((readColumns env (openStreams env []) s.rows_read
        (min env.block_size (sizeSub r.rows_limit s.rows_read)) env.column_names
        (false, false, [])).1 = true ∧
      ¬ (readColumns env (openStreams env []) s.rows_read
        (min env.block_size (sizeSub r.rows_limit s.rows_read)) env.column_names
        (false, false, [])).2.1 = true) ↔
      (env.column_names ≠ [] ∧ ∀ name ∈ env.column_names, env.hasDataFile name = false) := by
    rw [f1, f2]
    constructor
    · rintro ⟨⟨x, hx, -⟩, hnone⟩
      refine ⟨List.ne_nil_of_mem hx, ?_⟩
      intro name hname
      by_contra hfile
      have hfile1 : env.hasDataFile name = true := by
        cases hh : env.hasDataFile name with
        | true => rfl
        | false => exact absurd hh hfile
      exact hnone ⟨name, hname, o2 name hname hfile1⟩
    · rintro ⟨hne, hall⟩
      have hopen : openStreams env [] = [] := o3 hall
      obtain ⟨x, hx⟩ := List.exists_mem_of_ne_nil _ hne
      refine ⟨⟨x, hx, by rw [hopen]; simp⟩, ?_⟩
      rintro ⟨y, -, hy⟩
      rw [hopen] at hy
      simp at hy
  unfold readImpl
  rw [if_neg hlimit]
  simp only
  rw [hS]
  by_cases hc : (readColumns env (openStreams env []) s.rows_read
        (min env.block_size (sizeSub r.rows_limit s.rows_read)) env.column_names
        (false, false, [])).1 = true ∧
      ¬ (readColumns env (openStreams env []) s.rows_read
        (min env.block_size (sizeSub r.rows_limit s.rows_read)) env.column_names
        (false, false, [])).2.1 = true
  · rw [if_pos hc]
    refine ⟨⟨fun _ => hthrow.1 hc, fun _ => ⟨_, rfl⟩⟩, ?_, ?_⟩
    · rintro ⟨name, hname, hfile⟩
      have := (hthrow.1 hc).2 name hname
      rw [hfile] at this
      simp at this
    · intro s1 res h
      simp at h
  · rw [if_neg hc]
    refine ⟨⟨?_, fun h => absurd (hthrow.2 h) hc⟩, fun _ => ⟨_, _, rfl⟩, ?_⟩
    · rintro ⟨s1, h⟩
      simp at h
    · intro s1 res h
      simp only [Outcome.ok.injEq, Prod.mk.injEq] at h
      rw [← h.1]
      exact ite_nil_or _ _

/-- C24 at a reader of two columns without data files, before its first block. -/
theorem readImpl_all_columns_missing_witness :
    readImpl missingEnv ⟨examplePart1, 0, 4⟩ ⟨0, []⟩ =
        .thrown .ALL_REQUESTED_COLUMNS_ARE_MISSING (⟨0, []⟩, []) ∧
      readImpl partialEnv ⟨examplePart1, 0, 4⟩ ⟨0, []⟩ =
        .ok (⟨3, ["b.size0", "b"]⟩, [("b", 3), ("a", 3)]) ∧
      ((∃ s1, readImpl missingEnv ⟨examplePart1, 0, 4⟩ ⟨0, []⟩ =
          .thrown .ALL_REQUESTED_COLUMNS_ARE_MISSING s1) ↔
        (missingEnv.column_names ≠ [] ∧
          ∀ name ∈ missingEnv.column_names, missingEnv.hasDataFile name = false)) :=
  ⟨by decide, by decide,
    (readImpl_all_columns_missing missingEnv ⟨examplePart1, 0, 4⟩ ⟨0, []⟩ (by decide)
      (Or.inl rfl)).1⟩

theorem tailOK_split (index_granularity min_rows total : Nat) (m : Nat) (back : List Nat) :
    ∀ (front : List Nat) (pos : Nat),
      TailOK index_granularity min_rows total pos (front ++ m :: back) →
      pos + front.sum + m < total →
      min_rows ≤ (total - (pos + front.sum + m)) * index_granularity := by
  intro front
  induction front with
  | nil =>
    intro pos h hlt
    rw [List.nil_append, TailOK] at h
    rw [List.sum_nil, Nat.add_zero] at hlt ⊢
    exact h.1 hlt
  | cons a front ih =>
    intro pos h hlt
    rw [List.cons_append, TailOK] at h
    rw [List.sum_cons, ← Nat.add_assoc] at hlt ⊢
    exact ih (pos + a) h.2 hlt

/-- What `read` returns for selected ranges of `size_t` marks whose sum fits `size_t`:
streams that follow a plan, the parts in the order of the shuffle, each with the numbers
of marks its streams take. -/
theorem read_spec {K : Type} (index_granularity : Nat) (settings : StorageMergeTreeSettings)
    (env : ReadEnv K) (st : Storage) (threads : Nat) (parts : List DataPartRange)
    (sum_marks : Nat)
    (hsel : selectRanges env (selectByDate env.date_condition st.data_parts) =
      some (parts, sum_marks))
    (hne : parts ≠ [])
    (hrange : ∀ r ∈ parts, r.first_mark ≤ r.last_mark ∧ r.last_mark < 2 ^ 64)
    (hfit : (parts.map DataPartRange.marks).sum < 2 ^ 64)
    (hthreads : 1 ≤ threads)
    (hshuffle : (env.random_shuffle parts).Perm parts) :
    sum_marks = (parts.map DataPartRange.marks).sum ∧ 0 < sum_marks ∧
    read index_granularity settings env st threads =
      spreadMarks index_granularity settings.min_rows_for_concurrent_read env.random_shuffle
        parts sum_marks threads ∧
    ∃ res plan,
      read index_granularity settings env st threads = .ok res ∧
      plan.map Prod.fst = env.random_shuffle parts ∧
      (∀ e ∈ plan, (∀ m ∈ e.2, 1 ≤ m) ∧ e.2.sum = e.1.marks) ∧
      flattenStreams res = planStreams index_granularity plan ∧
      (∀ e ∈ plan, TailOK index_granularity settings.min_rows_for_concurrent_read
        e.1.marks 0 e.2) := by
  have hsumeq : ((env.random_shuffle parts).map DataPartRange.marks).sum =
      (parts.map DataPartRange.marks).sum := (hshuffle.map _).sum_eq
  have hsm := selectRanges_sum env _ parts sum_marks hsel hrange hfit
  have hne1 : env.random_shuffle parts ≠ [] := by
    intro h
    rw [h] at hshuffle
    exact hne (List.nil_perm.1 hshuffle)
  have hread : read index_granularity settings env st threads =
      spreadMarks index_granularity settings.min_rows_for_concurrent_read env.random_shuffle
        parts sum_marks threads := by
    unfold read
    rw [hsel]
  have hpos : 0 < sum_marks := by
    obtain ⟨r0, rest, hr⟩ := List.exists_cons_of_ne_nil hne
    rw [hsm, hr, List.map_cons, List.sum_cons]
    have := marks_pos r0
    omega
  obtain ⟨res, plan, h1, h2, h3, h4, h5⟩ := spreadMarks_spec index_granularity
    settings.min_rows_for_concurrent_read env.random_shuffle parts threads hne1
    (fun r hr => hrange r (hshuffle.mem_iff.1 hr)) (by rw [hsumeq]; exact hfit) hthreads
  refine ⟨hsm, hpos, hread, res, plan, ?_, h2, h3, h4, h5⟩
  rw [hread, hsm, ← hsumeq]
  exact h1

/-- The number of elements that the loop over the threads adds to `res`: at most one
for every thread, and one at least when there are marks to spread. -/
theorem spreadFor_length (index_granularity min_rows : Nat) (parts : List DataPartRange)
    (sum_marks effective_threads : Nat) :
    ∀ (threads_left : Nat) (s : SpreadState) (res : List BlockInputStream) (s1 : SpreadState)
      (res1 : List BlockInputStream),
      spreadFor index_granularity min_rows parts sum_marks effective_threads threads_left s res =
        .ok (s1, res1) →
      res.length ≤ res1.length ∧ res1.length ≤ res.length + threads_left ∧
        (0 < threads_left → s.marks_spread < sum_marks → res.length < res1.length) := by
  intro threads_left
  induction threads_left with
  | zero =>
    intro s res s1 res1 h
    rw [spreadFor] at h
    simp only [Outcome.ok.injEq, Prod.mk.injEq] at h
    rw [← h.2]
    exact ⟨Nat.le_refl _, Nat.le_refl _, fun h0 => absurd h0 (Nat.lt_irrefl 0)⟩
  | succ t ih =>
    intro s res s1 res1 h
    rw [spreadFor] at h
    by_cases hlt : s.marks_spread < sum_marks
    · rw [if_neg (not_not.2 hlt)] at h
      simp only at h
      split at h
      · simp at h
      · simp at h
      · obtain ⟨h1, h2, -⟩ := ih _ _ _ _ h
        rw [List.length_append, List.length_singleton] at h1 h2
        exact ⟨by omega, by omega, fun _ _ => by omega⟩
    · rw [if_pos hlt] at h
      simp only [Outcome.ok.injEq, Prod.mk.injEq] at h
      rw [← h.2]
      exact ⟨Nat.le_refl _, by omega, fun _ h0 => absurd h0 hlt⟩

theorem spreadMarks_length (index_granularity min_rows : Nat)
    (random_shuffle : List DataPartRange → List DataPartRange) (parts : List DataPartRange)
    (sum_marks threads : Nat) (res : List BlockInputStream)
    (h : spreadMarks index_granularity min_rows random_shuffle parts sum_marks threads =
      .ok res)
    (hsum : 0 < sum_marks) (hthreads : 1 ≤ threads) :
    1 ≤ res.length ∧ res.length ≤ min threads sum_marks := by
  unfold spreadMarks at h
  rw [if_pos hsum] at h
  simp only at h
  split at h
  · simp at h
  · simp at h
  · rename_i s res0 hfor
    obtain ⟨-, h2, h3⟩ := spreadFor_length _ _ _ _ _ _ _ _ _ _ hfor
    have hres : res0 = res := by
      split at h
      · simp at h
      · split at h
        · simp at h
        · simp only [Outcome.ok.injEq] at h
          exact h
    rw [← hres]
    have h4 := h3 (by rw [Nat.lt_min]; omega) hsum
    simp only [List.length_nil, Nat.zero_add] at h2 h4
    exact ⟨h4, h2⟩

/-- C22: let `read` have selected a non-empty list of ranges of `size_t` marks whose sum
fits `size_t`, for `threads ≥ 1` and any order of the shuffle.  The streams of `read`
follow a plan, part after part, and for every stream of a part that ends before the last
selected mark of the part (it takes `m` marks after the `front` of the streams before
it), the marks left over for later streams, times `index_granularity`, are at least
`min_rows_for_concurrent_read` rows. -/
theorem read_leaves_no_short_tail {K : Type} (index_granularity : Nat)
    (settings : StorageMergeTreeSettings) (env : ReadEnv K) (st : Storage) (threads : Nat)
    (parts : List DataPartRange) (sum_marks : Nat)
    (hsel : selectRanges env (selectByDate env.date_condition st.data_parts) =
      some (parts, sum_marks))
    (hne : parts ≠ [])
    (hrange : ∀ r ∈ parts, r.first_mark ≤ r.last_mark ∧ r.last_mark < 2 ^ 64)
    (hfit : (parts.map DataPartRange.marks).sum < 2 ^ 64)
    (hthreads : 1 ≤ threads)
    (hshuffle : (env.random_shuffle parts).Perm parts) :
    ∃ res plan,
      read index_granularity settings env st threads = .ok res ∧
      plan.map Prod.fst = env.random_shuffle parts ∧
      flattenStreams res = planStreams index_granularity plan ∧
      ∀ e ∈ plan, ∀ front m back, e.2 = front ++ m :: back →
        front.sum + m < e.1.last_mark - e.1.first_mark + 1 →
        settings.min_rows_for_concurrent_read ≤
          (e.1.last_mark - e.1.first_mark + 1 - (front.sum + m)) * index_granularity := by
  obtain ⟨-, -, -, res, plan, h1, h2, -, h4, h5⟩ := read_spec index_granularity settings env
    st threads parts sum_marks hsel hne hrange hfit hthreads hshuffle
  refine ⟨res, plan, h1, h2, h4, ?_⟩
  intro e he front m back hsplit hlt
  have ht := h5 e he
  rw [hsplit] at ht
  have := tailOK_split index_granularity settings.min_rows_for_concurrent_read e.1.marks m back
    front 0 ht (by unfold DataPartRange.marks; omega)
  unfold DataPartRange.marks at this
  rw [Nat.zero_add] at this
  exact this

/-- C22 at a part of five marks read by two threads, two rows to a mark, with
`min_rows_for_concurrent_read = 5`: the first stream takes three marks and leaves two,
which are too few rows, so it takes the whole part. -/
theorem read_leaves_no_short_tail_witness :
    read 2 tailSettings fullReadEnv tailStorage 2 =
        .ok [BlockInputStream.part ⟨tailStorage.data_parts.head (by decide), 0, 10⟩] ∧
      ∃ res plan,
        read 2 tailSettings fullReadEnv tailStorage 2 = .ok res ∧
        plan.map Prod.fst = fullReadEnv.random_shuffle tailRanges ∧
        flattenStreams res = planStreams 2 plan ∧
        ∀ e ∈ plan, ∀ front m back, e.2 = front ++ m :: back →
          front.sum + m < e.1.last_mark - e.1.first_mark + 1 →
          tailSettings.min_rows_for_concurrent_read ≤
            (e.1.last_mark - e.1.first_mark + 1 - (front.sum + m)) * 2 :=
  ⟨by decide,
    read_leaves_no_short_tail 2 tailSettings fullReadEnv tailStorage 2 tailRanges 5
      (by decide) (by decide) (by decide) (by decide) (by decide) (List.Perm.refl _)⟩

/-- C26: for `threads ≥ 1`, when `read` has selected a non-empty list of ranges of
`size_t` marks whose sum `sum_marks` fits `size_t`, it returns at least one and at most
`min(threads, sum_marks)` streams; and when no part passes the date condition it
returns no stream. -/
theorem read_stream_count {K : Type} (index_granularity : Nat)
    (settings : StorageMergeTreeSettings) (env : ReadEnv K) (st : Storage) (threads : Nat)
    (hthreads : 1 ≤ threads) :
    (∀ parts sum_marks,
      selectRanges env (selectByDate env.date_condition st.data_parts) =
        some (parts, sum_marks) →
      parts ≠ [] →
      (∀ r ∈ parts, r.first_mark ≤ r.last_mark ∧ r.last_mark < 2 ^ 64) →
      (parts.map (fun r => r.last_mark - r.first_mark + 1)).sum < 2 ^ 64 →
      (env.random_shuffle parts).Perm parts →
      ∃ res, read index_granularity settings env st threads = .ok res ∧
        1 ≤ res.length ∧
        res.length ≤ min threads (parts.map (fun r => r.last_mark - r.first_mark + 1)).sum) ∧
    (selectByDate env.date_condition st.data_parts = [] →
      read index_granularity settings env st threads = .ok []) := by
  constructor
  · intro parts sum_marks hsel hne hrange hfit hshuffle
    obtain ⟨hsm, hpos, hread, res, plan, h1, -⟩ := read_spec index_granularity settings env
      st threads parts sum_marks hsel hne hrange hfit hthreads hshuffle
    rw [hread] at h1
    obtain ⟨h2, h3⟩ := spreadMarks_length _ _ _ _ _ _ res h1 hpos hthreads
    rw [hsm] at h3
    exact ⟨res, by rw [hread]; exact h1, h2, h3⟩
  · intro hnone
    unfold read
    rw [hnone]
    rfl

/-- C26 on the table of the example: five threads for three marks give three streams. -/
theorem read_stream_count_witness :
    read 2 exampleSettings exampleReadEnv exampleStorage 5 =
        .ok [BlockInputStream.part ⟨examplePart1, 0, 2⟩,
          BlockInputStream.part ⟨examplePart1, 1, 2⟩,
          BlockInputStream.part ⟨exampleStorage.data_parts.getLast (by decide), 0, 2⟩] ∧
      ∃ res, read 2 exampleSettings exampleReadEnv exampleStorage 5 = .ok res ∧
        1 ≤ res.length ∧
        res.length ≤ min 5 (exampleRanges.map (fun r => r.last_mark - r.first_mark + 1)).sum :=
  ⟨by decide,
    (read_stream_count 2 exampleSettings exampleReadEnv exampleStorage 5 (by decide)).1
      exampleRanges 3 (by decide) (by decide) (by decide) (by decide) (List.Perm.refl _)⟩

/-- C30: for a non-empty list of selected ranges with `first_mark ≤ last_mark` (marks
being `size_t` values whose sum fits `size_t`), any `index_granularity`, any
`min_rows_for_concurrent_read`, `threads ≥ 1` and any order of the shuffle, `read` returns
its streams: neither the exception `Can't spread marks among threads` of the loop nor
the exception `Couldn't spread marks among threads` of the final check is thrown, and the
loops end within their fuel. -/
theorem read_never_logical_error {K : Type} (index_granularity : Nat)
    (settings : StorageMergeTreeSettings) (env : ReadEnv K) (st : Storage) (threads : Nat)
    (parts : List DataPartRange) (sum_marks : Nat)
    (hsel : selectRanges env (selectByDate env.date_condition st.data_parts) =
      some (parts, sum_marks))
    (hne : parts ≠ [])
    (hrange : ∀ r ∈ parts, r.first_mark ≤ r.last_mark ∧ r.last_mark < 2 ^ 64)
    (hfit : (parts.map (fun r => r.last_mark - r.first_mark + 1)).sum < 2 ^ 64)
    (hthreads : 1 ≤ threads)
    (hshuffle : (env.random_shuffle parts).Perm parts) :
    (∃ res, read index_granularity settings env st threads = .ok res) ∧
    (∀ e res, read index_granularity settings env st threads ≠ .thrown e res) ∧
    read index_granularity settings env st threads ≠ .undefined := by
  obtain ⟨-, -, -, res, plan, h1, -⟩ := read_spec index_granularity settings env
    st threads parts sum_marks hsel hne hrange hfit hthreads hshuffle
  refine ⟨⟨res, h1⟩, ?_, ?_⟩
  · intro e res1 h
    rw [h1] at h
    simp at h
  · intro h
    rw [h1] at h
    simp at h

/-- C30 on the table of the example, for two threads. -/
theorem read_never_logical_error_witness :
    (∃ res, read 2 exampleSettings exampleReadEnv exampleStorage 2 = .ok res) ∧
      (∀ e res, read 2 exampleSettings exampleReadEnv exampleStorage 2 ≠ .thrown e res) ∧
      read 2 exampleSettings exampleReadEnv exampleStorage 2 ≠ .undefined :=
  read_never_logical_error 2 exampleSettings exampleReadEnv exampleStorage 2 exampleRanges 3
    (by decide) (by decide) (by decide) (by decide) (by decide) (List.Perm.refl _)

theorem covers_trans (a b c : DataPart) (h1 : Covers a b) (h2 : Covers b c) : Covers a c := by
  unfold Covers at *
  omega

/-- A part that the sweep removes is covered by a part that the sweep leaves. -/
theorem removeContained_covered (rest : List DataPart) :
    ∀ (prev x : DataPart), x ∈ prev :: rest → x ∉ removeContained prev rest →
      ∃ y ∈ removeContained prev rest, Covers y x := by
  induction rest with
  | nil =>
    intro prev x hx hnot
    simp only [List.mem_singleton] at hx
    rw [removeContained] at hnot
    simp [hx] at hnot
  | cons curr rest ih =>
    intro prev x hx hnot
    rw [removeContained] at hnot ⊢
    by_cases hguard : curr.left_month ≠ curr.right_month ∨ curr.right_month ≠ prev.left_month ∨
        prev.left_month ≠ prev.right_month
    · rw [if_pos hguard] at hnot ⊢
      rw [List.mem_cons, not_or] at hnot
      rcases List.mem_cons.1 hx with hx | hx
      · exact absurd hx hnot.1
      · obtain ⟨y, hy, hc⟩ := ih curr x hx hnot.2
        exact ⟨y, List.mem_cons_of_mem _ hy, hc⟩
    · rw [if_neg hguard] at hnot ⊢
      have hm : curr.left_month = curr.right_month ∧ curr.right_month = prev.left_month ∧
          prev.left_month = prev.right_month := by
        by_contra hcon
        apply hguard
        by_cases h1 : curr.left_month = curr.right_month
        · by_cases h2 : curr.right_month = prev.left_month
          · by_cases h3 : prev.left_month = prev.right_month
            · exact absurd ⟨h1, h2, h3⟩ hcon
            · exact Or.inr (Or.inr h3)
          · exact Or.inr (Or.inl h2)
        · exact Or.inl h1
      by_cases h1 : curr.contains prev
      · rw [if_pos h1] at hnot ⊢
        have hcp : Covers curr prev := by
          unfold DataPart.contains at h1
          unfold Covers
          omega
        rcases List.mem_cons.1 hx with hx | hx
        · subst hx
          by_cases hin : curr ∈ removeContained curr rest
          · exact ⟨curr, hin, hcp⟩
          · obtain ⟨y, hy, hc⟩ := ih curr curr (List.mem_cons_self _ _) hin
            exact ⟨y, hy, covers_trans _ _ _ hc hcp⟩
        · exact ih curr x hx hnot
      · rw [if_neg h1] at hnot ⊢
        by_cases h2 : prev.contains curr
        · rw [if_pos h2] at hnot ⊢
          have hpc : Covers prev curr := by
            unfold DataPart.contains at h2
            unfold Covers
            omega
          rcases List.mem_cons.1 hx with hx | hx
          · exact ih prev x (by rw [hx]; exact List.mem_cons_self _ _) hnot
          · rcases List.mem_cons.1 hx with hx | hx
            · subst hx
              by_cases hin : prev ∈ removeContained prev rest
              · exact ⟨prev, hin, hpc⟩
              · obtain ⟨y, hy, hc⟩ := ih prev prev (List.mem_cons_self _ _) hin
                exact ⟨y, hy, covers_trans _ _ _ hc hpc⟩
            · exact ih prev x (List.mem_cons_of_mem _ hx) hnot
        · rw [if_neg h2] at hnot ⊢
          rw [List.mem_cons, not_or] at hnot
          rcases List.mem_cons.1 hx with hx | hx
          · exact absurd hx hnot.1
          · obtain ⟨y, hy, hc⟩ := ih curr x hx hnot.2
            exact ⟨y, List.mem_cons_of_mem _ hy, hc⟩

/-- C31: every part that the sweep of `loadDataParts` removes from the active set (a
loaded part that is not active afterwards) lies in one month, and some part that is still
active after the sweep lies in the same month and has an id interval that contains the
interval of the removed part; so every id that a loaded part covers is covered, in the
month of that part, by a part that is active after the sweep. -/
theorem loadDataParts_removed_covered (lut : DateLUT) (dir : Directory) (st st1 : Storage)
    (hload : loadDataParts lut dir st = .ok st1) :
    (∀ x ∈ st1.all_data_parts, x ∉ st1.data_parts →
      ∃ y ∈ st1.data_parts,
        y.left_month = y.right_month ∧ x.left_month = x.right_month ∧
          y.left_month = x.left_month ∧ y.left ≤ x.left ∧ x.right ≤ y.right) ∧
    (∀ x ∈ st1.all_data_parts, ∀ id, x.left ≤ id → id ≤ x.right →
      ∃ y ∈ st1.data_parts,
        y.left_month = x.left_month ∧ y.left ≤ id ∧ id ≤ y.right) := by
  obtain ⟨-, hdata⟩ := loadDataParts_ok lut dir st st1 hload
  have hremoved : ∀ x ∈ st1.all_data_parts, x ∉ st1.data_parts →
      ∃ y ∈ st1.data_parts, Covers y x := by
    intro x hx hnot
    rw [hdata] at hnot ⊢
    cases hl : st1.all_data_parts with
    | nil => rw [hl] at hx; simp at hx
    | cons prev tail =>
      cases tail with
      | nil =>
        rw [hl] at hx hnot
        exact absurd hx hnot
      | cons curr rest =>
        rw [hl] at hx hnot
        exact removeContained_covered (curr :: rest) prev x hx hnot
  refine ⟨hremoved, ?_⟩
  intro x hx id h1 h2
  by_cases hin : x ∈ st1.data_parts
  · exact ⟨x, hin, rfl, h1, h2⟩
  · obtain ⟨y, hy, hc⟩ := hremoved x hx hin
    unfold Covers at hc
    exact ⟨y, hy, hc.2.2.1, by omega, by omega⟩

/-- C31 at the recovery scenario of the spec: the part of the ids `[2, 4]` is loaded and
is not active after the sweep, and an active part covers it. -/
theorem loadDataParts_removed_covered_witness :
    loadDataParts exampleLUT scenarioDirectory Storage.empty = .ok scenarioLoaded ∧
      scenarioInner ∈ scenarioLoaded.all_data_parts ∧
      scenarioInner ∉ scenarioLoaded.data_parts ∧
      ∃ y ∈ scenarioLoaded.data_parts,
        y.left_month = y.right_month ∧ scenarioInner.left_month = scenarioInner.right_month ∧
          y.left_month = scenarioInner.left_month ∧ y.left ≤ scenarioInner.left ∧
          scenarioInner.right ≤ y.right :=
  ⟨by decide, by decide, by decide,
    (loadDataParts_removed_covered exampleLUT scenarioDirectory Storage.empty scenarioLoaded
      (by decide)).1 scenarioInner (by decide) (by decide)⟩

theorem insert_length_le (p : DataPart) (l : DataParts) :
    (DataParts.insert p l).length ≤ l.length + 1 := by
  induction l with
  | nil => simp [DataParts.insert]
  | cons a rest ih =>
    rw [DataParts.insert]
    split_ifs
    · simp
    · simp only [List.length_cons]
      omega
    · simp

theorem eraseFound_length (p : DataPart) (l : DataParts) :
    ∀ l1, DataParts.eraseFound p l = some l1 → l1.length + 1 = l.length := by
  induction l with
  | nil => intro l1 h; simp [DataParts.eraseFound] at h
  | cons a rest ih =>
    intro l1 h
    rw [DataParts.eraseFound] at h
    split_ifs at h
    · simp only [Option.some.injEq] at h
      rw [← h, List.length_cons]
    · cases hr : DataParts.eraseFound p rest with
      | none => rw [hr] at h; simp at h
      | some r =>
        rw [hr] at h
        simp only [Option.map_some', Option.some.injEq] at h
        rw [← h, List.length_cons, List.length_cons, ih r hr]

theorem eraseParts_length (parts : List DataPart) :
    ∀ l l1 : DataParts, eraseParts parts l = some l1 → l1.length + parts.length = l.length := by
  induction parts with
  | nil =>
    intro l l1 h
    rw [eraseParts] at h
    simp only [Option.some.injEq] at h
    rw [h]
    rfl
  | cons p rest ih =>
    intro l l1 h
    rw [eraseParts] at h
    cases he : DataParts.eraseFound p l with
    | none => rw [he] at h; simp at h
    | some l2 =>
      rw [he] at h
      have h1 := eraseFound_length p l l2 he
      have h2 := ih l2 l1 h
      rw [List.length_cons]
      omega

theorem commitMerge_ok_length (st : Storage) (new_data_part : DataPart) (parts : List DataPart)
    (st2 : Storage) (h : commitMerge st new_data_part parts = .ok st2) :
    st2.data_parts.length + parts.length ≤ st.data_parts.length + 1 := by
  unfold commitMerge at h
  split at h
  · simp at h
  · split at h
    · simp at h
    · rename_i data_parts he
      simp only [Outcome.ok.injEq] at h
      rw [← h]
      have h1 := eraseParts_length parts _ data_parts he
      have h2 := insert_length_le new_data_part st.data_parts
      simp only
      omega

theorem mergeParts_ok_length (lut : DateLUT) (st : Storage) (parts : List DataPart)
    (copied : Except Exception Nat) (now : Nat) (st2 : Storage)
    (h : mergeParts lut st parts copied now = .ok st2) :
    st2.data_parts.length + parts.length ≤ st.data_parts.length + 1 := by
  unfold mergeParts at h
  split at h
  · cases copied with
    | error e => simp at h
    | ok marks_count =>
      simp only at h
      exact commitMerge_ok_length _ _ _ _ h
  · simp at h

/-- A successful merge step starts from at least two active parts and leaves fewer. -/
theorem mergeStep_decreases (lut : DateLUT) (index_granularity : Nat)
    (settings : StorageMergeTreeSettings) (env : MergeEnv) (st st3 : Storage)
    (h : MergeStep lut index_granularity settings env st st3) :
    2 ≤ st.data_parts.length ∧ st3.data_parts.length < st.data_parts.length := by
  obtain ⟨parts0, parts1, st1, st2, hsel, hmerge, hst3⟩ := h
  obtain ⟨pre, run, post, hdp, hv, hparts, hst1⟩ :=
    selectPartsToMerge_found index_granularity settings st parts0 parts1 st1 hsel
  have hlen := mergeParts_ok_length lut st1 parts1 _ _ st2 hmerge
  have h2 := hv.1
  have hl1 : st1.data_parts.length = st.data_parts.length := by
    rw [hst1, hdp]
    simp
  have hp1 : parts1.length = run.length := by rw [hparts]; simp
  have hl : st.data_parts.length = pre.length + run.length + post.length := by
    rw [hdp, List.length_append, List.length_append]
  have hl3 : st3.data_parts.length = st2.data_parts.length := by
    rw [hst3]
    unfold clearOldParts
    split_ifs <;> rfl
  omega

theorem chain_mergeStep_length (lut : DateLUT) (index_granularity : Nat)
    (settings : StorageMergeTreeSettings) (env : MergeEnv) (states : List Storage) :
    ∀ st : Storage, List.Chain (MergeStep lut index_granularity settings env) st states →
      states.length ≤ st.data_parts.length - 1 := by
  induction states with
  | nil => intro st _; simp
  | cons st3 rest ih =>
    intro st h
    rw [List.chain_cons] at h
    obtain ⟨h1, h2⟩ := mergeStep_decreases lut index_granularity settings env st st3 h.1
    have h3 := ih st3 h.2
    rw [List.length_cons]
    cases rest with
    | nil => simp only [List.length_nil]; omega
    | cons st4 rest =>
      rw [List.chain_cons] at h
      have := (mergeStep_decreases lut index_granularity settings env st3 st4 h.2.1).1
      omega

theorem getLast?_getD_cons (a b : Storage) (l : List Storage) :
    (a :: l).getLast?.getD b = l.getLast?.getD a := by
  cases l with
  | nil => rfl
  | cons c l =>
    rw [List.getLast?_cons_cons]
    cases h : (c :: l).getLast? with
    | none => simp at h
    | some x => rfl

/-- With more fuel than active parts the loop of `mergeThread` ends: it runs through a
chain of successful merge steps and then makes one last turn that ends it. -/
theorem mergeThreadLoop_chain (lut : DateLUT) (index_granularity : Nat)
    (settings : StorageMergeTreeSettings) (env : MergeEnv) :
    ∀ (fuel : Nat) (st : Storage) (parts0 : List DataPart), st.data_parts.length < fuel →
      ∃ states out parts_last,
        List.Chain (MergeStep lut index_granularity settings env) st states ∧
        mergeThreadLoop lut index_granularity settings env true fuel st parts0 = some out ∧
        mergeThreadLoop lut index_granularity settings env true 1 (states.getLast?.getD st)
          parts_last = some out := by
  intro fuel
  induction fuel with
  | zero => intro st parts0 h; omega
  | succ k ih =>
    intro st parts0 hfuel
    cases hsel : selectPartsToMerge index_granularity settings st parts0 with
    | mk found rest =>
      obtain ⟨parts1, st1⟩ := rest
      cases found with
      | false =>
        refine ⟨[], .ok st1, parts0, List.Chain.nil, ?_, ?_⟩
        · rw [mergeThreadLoop, hsel]
        · show mergeThreadLoop lut index_granularity settings env true 1 st parts0 = _
          rw [mergeThreadLoop, hsel]
      | true =>
        cases hm : mergeParts lut st1 parts1 (env.copyData parts1) env.now with
        | undefined =>
          refine ⟨[], .undefined, parts0, List.Chain.nil, ?_, ?_⟩
          · rw [mergeThreadLoop, hsel]
            simp only
            rw [hm]
          · show mergeThreadLoop lut index_granularity settings env true 1 st parts0 = _
            rw [mergeThreadLoop, hsel]
            simp only
            rw [hm]
        | thrown e st2 =>
          refine ⟨[], .thrown e st2, parts0, List.Chain.nil, ?_, ?_⟩
          · rw [mergeThreadLoop, hsel]
            simp only
            rw [hm]
          · show mergeThreadLoop lut index_granularity settings env true 1 st parts0 = _
            rw [mergeThreadLoop, hsel]
            simp only
            rw [hm]
        | ok st2 =>
          have hstep : MergeStep lut index_granularity settings env st
              (clearOldParts (env.locked st2) st2) := ⟨parts0, parts1, st1, st2, hsel, hm, rfl⟩
          have hdec := (mergeStep_decreases lut index_granularity settings env st _ hstep).2
          obtain ⟨states, out, parts_last, h1, h2, h3⟩ :=
            ih (clearOldParts (env.locked st2) st2) [] (by omega)
          refine ⟨clearOldParts (env.locked st2) st2 :: states, out, parts_last,
            List.Chain.cons hstep h1, ?_, ?_⟩
          · rw [mergeThreadLoop, hsel]
            simp only
            rw [hm]
            simp only
            rw [if_neg (by simp)]
            exact h2
          · rw [getLast?_getD_cons]
            exact h3

/-- C32: a successful merge step, `selectPartsToMerge` returning `true` followed by the
swap of `mergeParts`, replaces `L ≥ 2` active parts by at most one part, so it leaves
fewer active parts; any run of successful merge steps from a set of `n` active parts has
at most `n - 1` steps; and the loop of `mergeThread` with `while_can = true`, given more
fuel than active parts, runs through such steps, at most `n - 1`, makes one last turn
and ends, so that `mergeThread` returns. -/
theorem mergeThread_merges_bounded (lut : DateLUT) (index_granularity : Nat)
    (settings : StorageMergeTreeSettings) (env : MergeEnv) (st : Storage) :
    (∀ parts0 parts1 st1 copied now st2,
      selectPartsToMerge index_granularity settings st parts0 = (true, parts1, st1) →
      mergeParts lut st1 parts1 copied now = .ok st2 →
      2 ≤ parts1.length ∧ st2.data_parts.length + parts1.length ≤ st.data_parts.length + 1 ∧
        st2.data_parts.length < st.data_parts.length) ∧
    (∀ states, List.Chain (MergeStep lut index_granularity settings env) st states →
      states.length ≤ st.data_parts.length - 1) ∧
    (∀ parts0 fuel, st.data_parts.length < fuel →
      ∃ states out parts_last,
        List.Chain (MergeStep lut index_granularity settings env) st states ∧
        states.length ≤ st.data_parts.length - 1 ∧
        mergeThreadLoop lut index_granularity settings env true fuel st parts0 = some out ∧
        mergeThreadLoop lut index_granularity settings env true 1 (states.getLast?.getD st)
          parts_last = some out) ∧
    (∃ result, mergeThread lut index_granularity settings env true st = some result) := by
  refine ⟨?_, fun states => chain_mergeStep_length lut index_granularity settings env states st,
    ?_, ?_⟩
  · intro parts0 parts1 st1 copied now st2 hsel hmerge
    obtain ⟨pre, run, post, hdp, hv, hparts, hst1⟩ :=
      selectPartsToMerge_found index_granularity settings st parts0 parts1 st1 hsel
    have hlen := mergeParts_ok_length lut st1 parts1 copied now st2 hmerge
    have h2 := hv.1
    have hl1 : st1.data_parts.length = st.data_parts.length := by
      rw [hst1, hdp]
      simp
    have hp1 : parts1.length = run.length := by rw [hparts]; simp
    omega
  · intro parts0 fuel hfuel
    obtain ⟨states, out, parts_last, h1, h2, h3⟩ :=
      mergeThreadLoop_chain lut index_granularity settings env fuel st parts0 hfuel
    exact ⟨states, out, parts_last, h1,
      chain_mergeStep_length lut index_granularity settings env states st h1, h2, h3⟩
  · obtain ⟨states, out, parts_last, -, h2, -⟩ :=
      mergeThreadLoop_chain lut index_granularity settings env (st.data_parts.length + 1) st []
        (by omega)
    unfold mergeThread
    rw [h2]
    cases out with
    | ok s => exact ⟨_, rfl⟩
    | thrown e s => exact ⟨_, rfl⟩
    | undefined => exact ⟨_, rfl⟩

/-- C32 at the table of the example, of two active parts: the thread merges once and
returns with one active part. -/
theorem mergeThread_merges_bounded_witness :
    (∃ st1, mergeThread exampleLUT 2 exampleSettings workingEnv true exampleStorage =
        some (.ok (st1, none)) ∧ st1.data_parts.length = 1) ∧
      exampleStorage.data_parts.length = 2 ∧
      ∀ states, List.Chain (MergeStep exampleLUT 2 exampleSettings workingEnv) exampleStorage
          states →
        states.length ≤ exampleStorage.data_parts.length - 1 :=
  ⟨⟨clearOldParts true exampleMerged, by decide, by decide⟩, by decide,
    (mergeThread_merges_bounded exampleLUT 2 exampleSettings workingEnv exampleStorage).2.1⟩

end StorageMergeTree
